import Mathlib

/-!
# kutils: the arena allocator of `src/alloc.c`

A shallow embedding of the allocator.  The arena `memory[MEMORY_SIZE]` is a
byte-addressed store; block headers live inside it, little-endian, with the
LP64 layout of `block_header_t`:

* bytes `0..7`   : `size`    (`size_t`)
* byte  `8`      : `is_free` (`uint8_t`)
* bytes `16..23` : `next`    (pointer; `0` is `NULL`)

so that `sizeof(block_header_t) = 24`.  Pointers are addresses; `memory[0]`
is at address `base`.  Every access to the array is bounds checked: an access
outside `memory[0 .. MEMORY_SIZE)` has no defined result and the operation
yields `none`.  The two `while` loops that follow `next` pointers run on
`MEMORY_SIZE` units of fuel, and `none` is also the result of running out of
it; on a well-formed chain, which has at most 170 blocks, both loops are
proved to finish.  `size_t` arithmetic is arithmetic modulo `2^64`.

The file has three parts: the functions of `alloc.c` and the observations
made on a state (`blocks`, `WF`, `Live`, `Reachable`); an abstract view of
the chain as a list (`Rep`), with one specification lemma per function; and
the claims.
-/

namespace Kutils

/-! ## Machine arithmetic -/

/-- The number of values of `size_t` (and of a pointer): `2^64`. -/
abbrev W : Nat := 18446744073709551616

/-- Value of `#define MEMORY_SIZE 4096`. -/
abbrev MEMORY_SIZE : Nat := 4096

/-- Value of `sizeof(block_header_t)` on an LP64 target. -/
abbrev HDR : Nat := 24

/-- Addition of `size_t` values. -/
def add64 (a b : Nat) : Nat := (a + b) % W

/-- Subtraction of `size_t` values. -/
def sub64 (a b : Nat) : Nat := (a + (W - b % W)) % W

/-- Multiplication of `size_t` values. -/
def mul64 (a b : Nat) : Nat := (a * b) % W

/-- The expression `(size + 7) & ~7` on `size_t`; `~7` is `2^64 - 8`. -/
def align8 (size : Nat) : Nat := add64 size 7 &&& 18446744073709551608

/-! ## Bytes -/

/-- One byte of a store. -/
def rd8 (m : Nat → Nat) (a : Nat) : Nat := m a % 256

/-- A little-endian 64-bit word of a store. -/
def rd64 (m : Nat → Nat) (a : Nat) : Nat :=
  rd8 m a + 256 * (rd8 m (a + 1) + 256 * (rd8 m (a + 2) + 256 * (rd8 m (a + 3) +
    256 * (rd8 m (a + 4) + 256 * (rd8 m (a + 5) + 256 * (rd8 m (a + 6) +
    256 * rd8 m (a + 7)))))))

/-- Store one byte. -/
def wr8 (m : Nat → Nat) (a v : Nat) : Nat → Nat :=
  fun x => if x = a then v % 256 else m x

/-- Store a little-endian 64-bit word. -/
def wr64 (m : Nat → Nat) (a v : Nat) : Nat → Nat :=
  wr8 (wr8 (wr8 (wr8 (wr8 (wr8 (wr8 (wr8 m a v) (a + 1) (v / 256)) (a + 2) (v / 256 / 256))
    (a + 3) (v / 256 / 256 / 256)) (a + 4) (v / 256 / 256 / 256 / 256))
    (a + 5) (v / 256 / 256 / 256 / 256 / 256))
    (a + 6) (v / 256 / 256 / 256 / 256 / 256 / 256))
    (a + 7) (v / 256 / 256 / 256 / 256 / 256 / 256 / 256)

/-! ## Allocator state -/

/-- The allocator's globals: the address of `memory[0]`, the static `head`
pointer (`0` is `NULL`) and the bytes of memory by address. -/
structure State where
  base : Nat
  head : Nat
  mem : Nat → Nat

/-- The `n` bytes at address `a` lie inside `memory[]`. -/
def inArena (s : State) (a n : Nat) : Prop :=
  s.base ≤ a ∧ a + n ≤ s.base + MEMORY_SIZE

instance (s : State) (a n : Nat) : Decidable (inArena s a n) := by
  unfold inArena
  infer_instance

/-- Read of `b->size`. -/
def load_size (s : State) (b : Nat) : Option Nat :=
  if inArena s b HDR then some (rd64 s.mem b) else none

/-- Read of `b->is_free`. -/
def load_is_free (s : State) (b : Nat) : Option Nat :=
  if inArena s b HDR then some (rd8 s.mem (b + 8)) else none

/-- Read of `b->next`. -/
def load_next (s : State) (b : Nat) : Option Nat :=
  if inArena s b HDR then some (rd64 s.mem (b + 16)) else none

/-- Assignment `b->size = v`. -/
def store_size (s : State) (b v : Nat) : Option State :=
  if inArena s b HDR then some { s with mem := wr64 s.mem b v } else none

/-- Assignment `b->is_free = v`. -/
def store_is_free (s : State) (b v : Nat) : Option State :=
  if inArena s b HDR then some { s with mem := wr8 s.mem (b + 8) v } else none

/-- Assignment `b->next = v`. -/
def store_next (s : State) (b v : Nat) : Option State :=
  if inArena s b HDR then some { s with mem := wr64 s.mem (b + 16) v } else none

/-- Read of one data byte `p[0]`. -/
def load8 (s : State) (p : Nat) : Option Nat :=
  if inArena s p 1 then some (rd8 s.mem p) else none

/-- Assignment of one data byte `p[0] = v`. -/
def store8 (s : State) (p v : Nat) : Option State :=
  if inArena s p 1 then some { s with mem := wr8 s.mem p v } else none

/-! ## The functions of `alloc.c` -/

/-- The function `init_allocator`. -/
def init_allocator (s : State) : Option State :=
  if s.head ≠ 0 then some s
  else do
    let s := { s with head := s.base }
    let s ← store_size s s.head (MEMORY_SIZE - HDR)
    let s ← store_is_free s s.head 1
    store_next s s.head 0

/-- The loop condition of `find_free_block` negated:
`current->is_free && current->size >= size`, evaluated left to right. -/
def block_fits (s : State) (current size : Nat) : Option Bool := do
  let fr ← load_is_free s current
  if fr = 0 then pure false
  else do
    let sz ← load_size s current
    pure (decide (size ≤ sz))

/-- The `while` loop of `find_free_block`, started at `current`.  The
out-parameter `last` is only ever written, so it is left out. -/
def find_free_block : Nat → State → Nat → Nat → Option Nat
  | 0, _, _, _ => none
  | fuel + 1, s, current, size =>
    if current = 0 then some current
    else do
      let fits ← block_fits s current size
      if fits then some current
      else do
        let nx ← load_next s current
        find_free_block fuel s nx size

/-- The function `split_block`. -/
def split_block (s : State) (block size : Nat) : Option State := do
  let bsize ← load_size s block
  if bsize < add64 (add64 size HDR) 8 then pure s
  else do
    let new_block := add64 (add64 block HDR) size
    let bsize ← load_size s block
    let s ← store_size s new_block (sub64 (sub64 bsize size) HDR)
    let s ← store_is_free s new_block 1
    let bnext ← load_next s block
    let s ← store_next s new_block bnext
    let s ← store_size s block size
    store_next s block new_block

/-- The function `malloc`; the result is the new state and the returned
pointer. -/
def malloc (s : State) (size : Nat) : Option (State × Nat) :=
  if size = 0 then some (s, 0)
  else do
    let s ← if s.head = 0 then init_allocator s else pure s
    let size := align8 size
    let block ← find_free_block MEMORY_SIZE s s.head size
    if block = 0 then pure (s, 0)
    else do
      let s ← split_block s block size
      let s ← store_is_free s block 0
      pure (s, add64 block HDR)

/-- The zeroing loop of `calloc`: `k` iterations remain and the index is `i`. -/
def zero_loop (p : Nat) : Nat → State → Nat → Option State
  | 0, s, _ => some s
  | k + 1, s, i => do
    let s ← store8 s (p + i) 0
    zero_loop p k s (i + 1)

/-- The function `calloc`. -/
def calloc (s : State) (num size : Nat) : Option (State × Nat) :=
  let total_size := mul64 num size
  if size ≠ 0 ∧ total_size / size ≠ num then some (s, 0)
  else do
    let r ← malloc s total_size
    if r.2 ≠ 0 then do
      let s ← zero_loop r.2 total_size r.1 0
      pure (s, r.2)
    else pure r

/-- The condition `current->is_free && current->next->is_free` of
`merge_free_blocks`, evaluated left to right. -/
def both_free (s : State) (current nx : Nat) : Option Bool := do
  let cf ← load_is_free s current
  if cf = 0 then pure false
  else do
    let nf ← load_is_free s nx
    pure (decide (nf ≠ 0))

/-- The `while` loop of `merge_free_blocks`, started at `current`. -/
def merge_loop : Nat → State → Nat → Option State
  | 0, _, _ => none
  | fuel + 1, s, current =>
    if current = 0 then some s
    else do
      let nx ← load_next s current
      if nx = 0 then some s
      else do
        let both ← both_free s current nx
        if both then do
          let csz ← load_size s current
          let nx ← load_next s current
          let nsz ← load_size s nx
          let s ← store_size s current (add64 csz (add64 HDR nsz))
          let nx ← load_next s current
          let nn ← load_next s nx
          let s ← store_next s current nn
          merge_loop fuel s current
        else do
          let nx ← load_next s current
          merge_loop fuel s nx

/-- The function `merge_free_blocks`. -/
def merge_free_blocks (s : State) : Option State :=
  merge_loop MEMORY_SIZE s s.head

/-- The function `free`. -/
def free (s : State) (ptr : Nat) : Option State :=
  if ptr = 0 then some s
  else do
    let block := sub64 ptr HDR
    let s ← store_is_free s block 1
    merge_free_blocks s

/-- The condition of the in-place growth branch of `realloc`:
`block->next != NULL && block->next->is_free &&
(block->size + sizeof(block_header_t) + block->next->size) >= size`. -/
def can_grow (s : State) (block size : Nat) : Option Bool := do
  let nx ← load_next s block
  if nx = 0 then pure false
  else do
    let nx ← load_next s block
    let nf ← load_is_free s nx
    if nf = 0 then pure false
    else do
      let bsz ← load_size s block
      let nx ← load_next s block
      let nsz ← load_size s nx
      pure (decide (size ≤ add64 (add64 bsz HDR) nsz))

/-- The copy loop of `realloc`: `k` iterations remain and the index is `i`. -/
def copy_loop (dst src : Nat) : Nat → State → Nat → Option State
  | 0, s, _ => some s
  | k + 1, s, i => do
    let v ← load8 s (src + i)
    let s ← store8 s (dst + i) v
    copy_loop dst src k s (i + 1)

/-- The function `realloc`. -/
def realloc (s : State) (ptr size : Nat) : Option (State × Nat) :=
  if ptr = 0 then malloc s size
  else if size = 0 then do
    let s ← free s ptr
    pure (s, 0)
  else do
    let size := align8 size
    let block := sub64 ptr HDR
    let bsize ← load_size s block
    if size ≤ bsize then do
      let s ← split_block s block size
      pure (s, ptr)
    else do
      let grow ← can_grow s block size
      if grow then do
        let bsz ← load_size s block
        let nx ← load_next s block
        let nsz ← load_size s nx
        let s ← store_size s block (add64 bsz (add64 HDR nsz))
        let nx ← load_next s block
        let nn ← load_next s nx
        let s ← store_next s block nn
        let s ← split_block s block size
        pure (s, ptr)
      else do
        let r ← malloc s size
        if r.2 = 0 then pure (r.1, 0)
        else do
          let s := r.1
          let bsz ← load_size s block
          let copy_size := if bsz < size then bsz else size
          let s ← copy_loop r.2 ptr copy_size s 0
          let s ← free s ptr
          pure (s, r.2)

/-! ## Observing the block chain -/

/-- A block header as read from memory, with its address. -/
structure Block where
  addr : Nat
  size : Nat
  is_free : Nat
  next : Nat
deriving DecidableEq, Repr

/-- The header stored at address `a`. -/
def headerAt (m : Nat → Nat) (a : Nat) : Block :=
  ⟨a, rd64 m a, rd8 m (a + 8), rd64 m (a + 16)⟩

/-- The headers met by following `next` from `a`, at most `fuel` of them. -/
def walk (m : Nat → Nat) : Nat → Nat → List Block
  | 0, _ => []
  | fuel + 1, a =>
    if a = 0 then [] else headerAt m a :: walk m fuel (rd64 m (a + 16))

/-- The block chain of a state, from `head`. -/
def blocks (s : State) : List Block := walk s.mem MEMORY_SIZE s.head

/-- The state before the first call: `head` is `NULL` and the static array
is zero-filled. -/
def initial (base : Nat) : State := ⟨base, 0, fun _ => 0⟩

/-- The chain `l` is laid out without gaps up to address `e`: each block's
`next` is the address right after its data area, where the following block
starts, and the last block has `next = NULL` and ends at `e`. -/
def contiguous (e : Nat) : List Block → Prop
  | [] => False
  | [b] => b.next = 0 ∧ b.addr + HDR + b.size = e
  | b :: c :: l =>
    b.next = c.addr ∧ b.addr + HDR + b.size = c.addr ∧ contiguous e (c :: l)

instance contiguousDecidable (e : Nat) : (l : List Block) → Decidable (contiguous e l)
  | [] => by unfold contiguous; infer_instance
  | [_] => by unfold contiguous; infer_instance
  | _ :: c :: l => by
    unfold contiguous
    have := contiguousDecidable e (c :: l)
    infer_instance

/-- Well-formed state: the array sits at a non-null address inside the
64-bit address space (its one-past-the-end address included), `head` points
at `memory[0]`, and the chain from `head` tiles the arena exactly. -/
def WF (s : State) : Prop :=
  0 < s.base ∧ s.base + MEMORY_SIZE < W ∧ s.head = s.base ∧
    contiguous (s.base + MEMORY_SIZE) (blocks s)

instance (s : State) : Decidable (WF s) := by
  unfold WF
  infer_instance

/-- The pointer `p` is the data address of an allocated block of the chain. -/
def Live (s : State) (p : Nat) : Prop :=
  ∃ b ∈ blocks s, b.is_free = 0 ∧ p = b.addr + HDR

instance (s : State) (p : Nat) : Decidable (Live s p) := by
  unfold Live
  infer_instance

/-- A pointer argument allowed by the contract: `NULL` or a live allocation. -/
def ValidPtr (s : State) (p : Nat) : Prop := p = 0 ∨ Live s p

/-- No two blocks that follow one another are both free. -/
def NoAdjFree (l : List Block) : Prop :=
  List.Chain' (fun b c : Block => ¬ (b.is_free ≠ 0 ∧ c.is_free ≠ 0)) l

/-- The total free capacity of a state: the sum of `size` over the free
blocks of the chain. -/
def freeCapacity (s : State) : Nat :=
  (((blocks s).filter fun b => b.is_free != 0).map Block.size).sum

/-! ## Reachable states -/

/-- The states the allocator can be in after calls of the public interface,
starting from the zero-filled array at address `base` with `head = NULL`.
Sizes are `size_t` values; a pointer argument is `NULL` or a live
allocation. -/
inductive Reachable (base : Nat) : State → Prop
  | start : Reachable base (initial base)
  | by_malloc {s s2 : State} {n p : Nat} : Reachable base s → n < W →
      malloc s n = some (s2, p) → Reachable base s2
  | by_calloc {s s2 : State} {num size p : Nat} : Reachable base s → num < W → size < W →
      calloc s num size = some (s2, p) → Reachable base s2
  | by_free {s s2 : State} {p : Nat} : Reachable base s → ValidPtr s p →
      free s p = some s2 → Reachable base s2
  | by_realloc {s s2 : State} {p n q : Nat} : Reachable base s → ValidPtr s p → n < W →
      realloc s p n = some (s2, q) → Reachable base s2

/-! ## Sample states -/

/-- A sample state: the allocator after `malloc(100)` as first call, with
`memory` at address `65536`. -/
def sampleState : State :=
  match malloc (initial 65536) 100 with
  | some r => r.1
  | none => initial 65536

/-- A second sample state: `sampleState` after a further `malloc(200)`. -/
def sampleState2 : State :=
  match malloc sampleState 200 with
  | some r => r.1
  | none => sampleState

/-- The sample state after `realloc(p, 8)` on its live pointer `p = 65560`. -/
def sampleShrunk : State :=
  match realloc sampleState 65560 8 with
  | some r => r.1
  | none => sampleState

/-- The sample state after `calloc(3, 5)`. -/
def sampleZeroed : State :=
  match calloc sampleState 3 5 with
  | some r => r.1
  | none => sampleState

/-- The sample state after `free(p)` on its live pointer `p = 65560`: one
free block, whose data area still holds the bytes of the header that the
first `malloc` wrote at address `65664`. -/
def sampleFreed : State :=
  match free sampleState 65560 with
  | some s => s
  | none => sampleState

/-! ## Abstract chains (used in the proofs) -/

/-- The contents of a header that are not determined by its position. -/
structure Blk where
  size : Nat
  is_free : Nat
deriving DecidableEq, Repr

/-- The value of the `next` field of a block followed by `l` starting at `a`,
when the chain ends with `next = t`. -/
def nextPtr (t a : Nat) : List Blk → Nat
  | [] => t
  | _ :: _ => a

/-- The header at `a` holds `b` and `next = nx`. -/
def Hdr (m : Nat → Nat) (a : Nat) (b : Blk) (nx : Nat) : Prop :=
  rd64 m a = b.size ∧ rd8 m (a + 8) = b.is_free ∧ rd64 m (a + 16) = nx

/-- The blocks `l` are laid out from `a` up to `e`, each linked to the one
that follows it, the last one having `next = t`. -/
def Seg (m : Nat → Nat) (t : Nat) : Nat → List Blk → Nat → Prop
  | a, [], e => a = e
  | a, b :: l, e =>
    Hdr m a b (nextPtr t (a + 24 + b.size) l) ∧ Seg m t (a + 24 + b.size) l e

/-- The headers of the blocks `l` laid out from `a`. -/
def layout (t : Nat) : Nat → List Blk → List Block
  | _, [] => []
  | a, b :: l =>
    ⟨a, b.size, b.is_free, nextPtr t (a + 24 + b.size) l⟩ :: layout t (a + 24 + b.size) l

/-- The number of bytes taken by the blocks `l`, headers included. -/
def span : List Blk → Nat
  | [] => 0
  | b :: l => 24 + b.size + span l

/-- The address `x` is a header byte of the blocks `l` laid out from `a`. -/
def hdrByte : Nat → List Blk → Nat → Prop
  | _, [], _ => False
  | a, b :: l, x => (a ≤ x ∧ x < a + 24) ∨ hdrByte (a + 24 + b.size) l x

/-- The state `s` is initialised and its chain is `l`. -/
def Rep (s : State) (l : List Blk) : Prop :=
  0 < s.base ∧ s.base + 4096 < 18446744073709551616 ∧ s.head = s.base ∧ l ≠ [] ∧
    Seg s.mem 0 s.base l (s.base + 4096)

/-- The part of a header kept by `Blk`. -/
def toBlk (b : Block) : Blk := ⟨b.size, b.is_free⟩

/-- The memory after the five assignments of `split_block` on the block at
`block` of size `bsize` and `next = nx`, cut at `r`. -/
def splitMem (m : Nat → Nat) (block r bsize nx : Nat) : Nat → Nat :=
  wr64 (wr64 (wr64 (wr8 (wr64 m (block + 24 + r) (bsize - r - 24)) (block + 24 + r + 8) 1)
    (block + 24 + r + 16) nx) block r) (block + 16) (block + 24 + r)

/-- The block is free and holds at least `r` bytes. -/
def fits (r : Nat) (b : Blk) : Prop := b.is_free ≠ 0 ∧ r ≤ b.size

instance (r : Nat) (b : Blk) : Decidable (fits r b) := by
  unfold fits
  infer_instance

/-- The blocks that `split_block` leaves in place of `b` when cutting at `r`. -/
def splitBlk (r : Nat) (b : Blk) : List Blk :=
  if b.size < r + 32 then [b] else [⟨r, b.is_free⟩, ⟨b.size - r - 24, 1⟩]

/-- The chain with the `is_free` byte of its first block set to `v`. -/
def markHead (v : Nat) : List Blk → List Blk
  | [] => []
  | b :: l => ⟨b.size, v⟩ :: l

/-- The blocks that `malloc` leaves in place of the block `b` it selected. -/
def allocBlk (r : Nat) (b : Blk) : List Blk := markHead 0 (splitBlk r b)

/-- The chain left by the loop of `merge_free_blocks` started at the block
`b` followed by `l`: a free block absorbs the free blocks that follow it. -/
def coalesce : Blk → List Blk → List Blk
  | b, [] => [b]
  | b, c :: l =>
    if b.is_free ≠ 0 ∧ c.is_free ≠ 0 then coalesce ⟨b.size + 24 + c.size, b.is_free⟩ l
    else b :: coalesce c l

/-- The chain left by `merge_free_blocks`. -/
def coalesceAll : List Blk → List Blk
  | [] => []
  | b :: l => coalesce b l

/-- The condition of the in-place growth branch of `realloc` on the block
`b` followed by `l`. -/
def canGrow (r : Nat) (b : Blk) : List Blk → Prop
  | [] => False
  | c :: _ => c.is_free ≠ 0 ∧ r ≤ b.size + 24 + c.size

instance (r : Nat) (b : Blk) : (l : List Blk) → Decidable (canGrow r b l)
  | [] => by unfold canGrow; infer_instance
  | _ :: _ => by unfold canGrow; infer_instance

/-- One call of `malloc`, `free`, `realloc` or `calloc`, seen on the chain. -/
inductive AbsStep : List Blk → List Blk → Prop
  | refl (l : List Blk) : AbsStep l l
  | alloc (l1 : List Blk) (b : Blk) (l2 : List Blk) (r : Nat) (hr : r % 8 = 0)
      (hfit : fits r b) : AbsStep (l1 ++ b :: l2) (l1 ++ (allocBlk r b ++ l2))
  | release (l1 : List Blk) (b : Blk) (l2 : List Blk) :
      AbsStep (l1 ++ b :: l2) (coalesceAll (l1 ++ ⟨b.size, 1⟩ :: l2))
  | shrink (l1 : List Blk) (b : Blk) (l2 : List Blk) (r : Nat) (hr : r % 8 = 0)
      (hle : r ≤ b.size) : AbsStep (l1 ++ b :: l2) (l1 ++ (splitBlk r b ++ l2))
  | grow (l1 : List Blk) (b c : Blk) (l2 : List Blk) (r : Nat) (hr : r % 8 = 0)
      (hle : r ≤ b.size + 24 + c.size) :
      AbsStep (l1 ++ b :: c :: l2)
        (l1 ++ (splitBlk r ⟨b.size + 24 + c.size, b.is_free⟩ ++ l2))
  | trans (l l2 l3 : List Blk) : AbsStep l l2 → AbsStep l2 l3 → AbsStep l l3

/-- Every size recorded in the chain is a multiple of 8. -/
def Sz8 (l : List Blk) : Prop := ∀ b ∈ l, b.size % 8 = 0

/-- The state right after `head = (block_header_t*)memory` and the three
assignments of `init_allocator`. -/
def initState (s : State) : State :=
  { s with head := s.base,
           mem := wr64 (wr8 (wr64 s.mem s.base 4072) (s.base + 8) 1) (s.base + 16) 0 }

/-- The blocks `l` laid out from `a`, each with its address. -/
def addrs : Nat → List Blk → List (Nat × Blk)
  | _, [] => []
  | a, b :: l => (a, b) :: addrs (a + 24 + b.size) l

/-! ## The release scenario of the specification -/

/-- The scenario of the specification: `a = malloc(101)`, `b = malloc(200)`,
`free(a)`, `c = malloc(104)`, `free(b)`, `free(c)`, from the initial state
with `memory` at address `65536`.  The result is the three addresses and the
final chain. -/
def releaseScenario : Option (Nat × Nat × Nat × List Block) := do
  let r1 ← malloc (initial 65536) 101
  let r2 ← malloc r1.1 200
  let s3 ← free r2.1 r1.2
  let r4 ← malloc s3 104
  let s5 ← free r4.1 r2.2
  let s6 ← free s5 r4.2
  pure (r1.2, r2.2, r4.2, blocks s6)

/-! ## The functions of `string.c` -/

/-- An object of `size` bytes that `string.c` reads and writes through
`uint8_t` pointers; a pointer into it is an offset.  An access outside the
object has no defined result. -/
structure Buffer where
  size : Nat
  bytes : Nat → Nat

/-- Read of `p[0]` at offset `p`. -/
def buf_load (b : Buffer) (p : Nat) : Option Nat :=
  if p < b.size then some (rd8 b.bytes p) else none

/-- Assignment `p[0] = v` at offset `p`. -/
def buf_store (b : Buffer) (p v : Nat) : Option Buffer :=
  if p < b.size then some ⟨b.size, wr8 b.bytes p v⟩ else none

/-- The loop `for (i = 0; i < n; i++) pdest[i] = psrc[i]` of `memmove` (and of
`memcpy`): `k` iterations remain and the index is `i`. -/
def move_up (dest src : Nat) : Nat → Buffer → Nat → Option Buffer
  | 0, b, _ => some b
  | k + 1, b, i => do
    let v ← buf_load b (src + i)
    let b ← buf_store b (dest + i) v
    move_up dest src k b (i + 1)

/-- The loop `for (i = n; i > 0; i--) pdest[i-1] = psrc[i-1]` of `memmove`,
with the counter at `i`. -/
def move_down (dest src : Nat) : Nat → Buffer → Option Buffer
  | 0, b => some b
  | i + 1, b => do
    let v ← buf_load b (src + i)
    let b ← buf_store b (dest + i) v
    move_down dest src i b

/-- The function `memmove`; the result is the buffer and the returned
pointer. -/
def memmove (b : Buffer) (dest src n : Nat) : Option (Buffer × Nat) :=
  if src > dest then do
    let b ← move_up dest src n b 0
    pure (b, dest)
  else if src < dest then do
    let b ← move_down dest src n b
    pure (b, dest)
  else some (b, dest)

/-- The loop of `memcmp` on two objects: `k` iterations remain and the index
is `i`. -/
def memcmp_loop (b1 b2 : Buffer) : Nat → Nat → Option Int
  | 0, _ => some 0
  | k + 1, i => do
    let x ← buf_load b1 i
    let y ← buf_load b2 i
    if x ≠ y then some (if x < y then -1 else 1)
    else memcmp_loop b1 b2 k (i + 1)

/-- The function `memcmp`. -/
def memcmp (b1 b2 : Buffer) (n : Nat) : Option Int := memcmp_loop b1 b2 n 0

/-! ## Bytes and words -/

theorem rd64_lt (m : Nat → Nat) (a : Nat) : rd64 m a < W := by
  unfold rd64 rd8 W
  omega

theorem rd8_lt (m : Nat → Nat) (a : Nat) : rd8 m a < 256 := by
  unfold rd8
  omega

theorem rd64_wr64_same (m : Nat → Nat) (a v : Nat) : rd64 (wr64 m a v) a = v % W := by
  simp [rd64, wr64, rd8, wr8, W]
  omega

theorem rd64_wr64_eq (m : Nat → Nat) (a v : Nat) (h : v < W) :
    rd64 (wr64 m a v) a = v := by
  rw [rd64_wr64_same, Nat.mod_eq_of_lt h]

theorem wr64_other (m : Nat → Nat) (a v x : Nat) (h : x < a ∨ a + 8 ≤ x) :
    wr64 m a v x = m x := by
  simp only [wr64, wr8]
  repeat (first | rw [if_neg (by omega)])

theorem wr8_other (m : Nat → Nat) (a v x : Nat) (h : x ≠ a) : wr8 m a v x = m x := by
  simp [wr8, h]

theorem rd8_congr (m m2 : Nat → Nat) (a : Nat) (h : m2 a = m a) : rd8 m2 a = rd8 m a := by
  simp [rd8, h]

theorem rd64_congr (m m2 : Nat → Nat) (a : Nat)
    (h : ∀ x, a ≤ x → x < a + 8 → m2 x = m x) : rd64 m2 a = rd64 m a := by
  simp only [rd64, rd8]
  rw [h a (by omega) (by omega), h (a + 1) (by omega) (by omega),
    h (a + 2) (by omega) (by omega), h (a + 3) (by omega) (by omega),
    h (a + 4) (by omega) (by omega), h (a + 5) (by omega) (by omega),
    h (a + 6) (by omega) (by omega), h (a + 7) (by omega) (by omega)]

theorem rd64_wr64_disj (m : Nat → Nat) (a v b : Nat) (h : b + 8 ≤ a ∨ a + 8 ≤ b) :
    rd64 (wr64 m a v) b = rd64 m b := by
  apply rd64_congr
  intro x h1 h2
  exact wr64_other m a v x (by omega)

theorem rd64_wr8_disj (m : Nat → Nat) (a v b : Nat) (h : a < b ∨ b + 8 ≤ a) :
    rd64 (wr8 m a v) b = rd64 m b := by
  apply rd64_congr
  intro x h1 h2
  exact wr8_other m a v x (by omega)

theorem rd8_wr64_disj (m : Nat → Nat) (a v b : Nat) (h : b < a ∨ a + 8 ≤ b) :
    rd8 (wr64 m a v) b = rd8 m b :=
  rd8_congr _ _ _ (wr64_other m a v b h)

theorem rd8_wr8_same (m : Nat → Nat) (a v : Nat) : rd8 (wr8 m a v) a = v % 256 := by
  simp [rd8, wr8]

theorem rd8_wr8_ne (m : Nat → Nat) (a v b : Nat) (h : b ≠ a) :
    rd8 (wr8 m a v) b = rd8 m b :=
  rd8_congr _ _ _ (wr8_other m a v b h)

theorem mask_testBit (i : Nat) (h : i < 64) :
    Nat.testBit 18446744073709551608 i = decide (3 ≤ i) := by
  interval_cases i <;> rfl

theorem land_mask (x : Nat) (h : x < W) : x &&& 18446744073709551608 = x / 8 * 8 := by
  have e : x / 8 * 8 = (x >>> 3) <<< 3 := by
    rw [Nat.shiftLeft_eq, Nat.shiftRight_eq_div_pow]
  rw [e]
  apply Nat.eq_of_testBit_eq
  intro i
  rw [Nat.testBit_and, Nat.testBit_shiftLeft, Nat.testBit_shiftRight]
  by_cases hi : i < 64
  · rw [mask_testBit i hi]
    by_cases h3 : 3 ≤ i
    · simp [h3]
    · simp [h3]
  · have hx : x.testBit i = false := by
      apply Nat.testBit_lt_two_pow
      calc x < 2 ^ 64 := h
        _ ≤ 2 ^ i := Nat.pow_le_pow_right (by omega) (by omega)
    have h3 : 3 ≤ i := by omega
    simp [hx, h3]

theorem align8_eq (n : Nat) : align8 n = (n + 7) % W / 8 * 8 := by
  unfold align8 add64
  exact land_mask _ (Nat.mod_lt _ (by decide))

theorem align8_small (n : Nat) (h : n + 7 < W) : align8 n = (n + 7) / 8 * 8 := by
  rw [align8_eq, Nat.mod_eq_of_lt h]

theorem align8_mod (n : Nat) : align8 n % 8 = 0 := by
  rw [align8_eq]
  omega

theorem align8_lt (n : Nat) : align8 n < W := by
  rw [align8_eq]
  have := Nat.mod_lt (n + 7) (show 0 < W by decide)
  omega

theorem align8_idem (n : Nat) : align8 (align8 n) = align8 n := by
  have h1 := align8_mod n
  have h2 := align8_lt n
  rw [align8_eq (align8 n)]
  have h3 : align8 n + 7 < W := by
    unfold W at h2 ⊢
    omega
  rw [Nat.mod_eq_of_lt h3]
  omega

/-! ## Checked accesses inside the arena -/

theorem load_size_at (base head : Nat) (mem : Nat → Nat) (a : Nat) (h1 : base ≤ a)
    (h2 : a + 24 ≤ base + 4096) : load_size ⟨base, head, mem⟩ a = some (rd64 mem a) := by
  simp only [load_size, inArena, HDR, MEMORY_SIZE]
  rw [if_pos ⟨h1, h2⟩]

theorem load_is_free_at (base head : Nat) (mem : Nat → Nat) (a : Nat) (h1 : base ≤ a)
    (h2 : a + 24 ≤ base + 4096) :
    load_is_free ⟨base, head, mem⟩ a = some (rd8 mem (a + 8)) := by
  simp only [load_is_free, inArena, HDR, MEMORY_SIZE]
  rw [if_pos ⟨h1, h2⟩]

theorem load_next_at (base head : Nat) (mem : Nat → Nat) (a : Nat) (h1 : base ≤ a)
    (h2 : a + 24 ≤ base + 4096) :
    load_next ⟨base, head, mem⟩ a = some (rd64 mem (a + 16)) := by
  simp only [load_next, inArena, HDR, MEMORY_SIZE]
  rw [if_pos ⟨h1, h2⟩]

theorem store_size_at (base head : Nat) (mem : Nat → Nat) (a v : Nat) (h1 : base ≤ a)
    (h2 : a + 24 ≤ base + 4096) :
    store_size ⟨base, head, mem⟩ a v = some ⟨base, head, wr64 mem a v⟩ := by
  simp only [store_size, inArena, HDR, MEMORY_SIZE]
  rw [if_pos ⟨h1, h2⟩]

theorem store_is_free_at (base head : Nat) (mem : Nat → Nat) (a v : Nat) (h1 : base ≤ a)
    (h2 : a + 24 ≤ base + 4096) :
    store_is_free ⟨base, head, mem⟩ a v = some ⟨base, head, wr8 mem (a + 8) v⟩ := by
  simp only [store_is_free, inArena, HDR, MEMORY_SIZE]
  rw [if_pos ⟨h1, h2⟩]

theorem store_next_at (base head : Nat) (mem : Nat → Nat) (a v : Nat) (h1 : base ≤ a)
    (h2 : a + 24 ≤ base + 4096) :
    store_next ⟨base, head, mem⟩ a v = some ⟨base, head, wr64 mem (a + 16) v⟩ := by
  simp only [store_next, inArena, HDR, MEMORY_SIZE]
  rw [if_pos ⟨h1, h2⟩]

/-! ## Laid-out segments -/

theorem Seg_span {m : Nat → Nat} {t : Nat} :
    ∀ {l : List Blk} {a e : Nat}, Seg m t a l e → a + span l = e
  | [], a, e, h => by
    simp only [Seg] at h
    simp [span, h]
  | b :: l, a, e, h => by
    have := Seg_span h.2
    simp only [span]
    omega

theorem hdrByte_range : ∀ {l : List Blk} {a x : Nat},
    hdrByte a l x → a ≤ x ∧ x < a + span l
  | [], a, x, h => by simp [hdrByte] at h
  | b :: l, a, x, h => by
    simp only [hdrByte] at h
    simp only [span]
    rcases h with h | h
    · omega
    · have := hdrByte_range h
      omega

theorem Hdr_congr {m m2 : Nat → Nat} {a : Nat} {b : Blk} {nx : Nat}
    (h : ∀ x, a ≤ x → x < a + 24 → m2 x = m x) (hh : Hdr m a b nx) : Hdr m2 a b nx := by
  obtain ⟨h1, h2, h3⟩ := hh
  refine ⟨?_, ?_, ?_⟩
  · rw [← h1]
    exact rd64_congr _ _ _ (fun x hx1 hx2 => h x hx1 (by omega))
  · rw [← h2]
    exact rd8_congr _ _ _ (h _ (by omega) (by omega))
  · rw [← h3]
    exact rd64_congr _ _ _ (fun x hx1 hx2 => h x (by omega) (by omega))

theorem Seg_congr_hdr {m m2 : Nat → Nat} {t : Nat} :
    ∀ {l : List Blk} {a e : Nat}, (∀ x, hdrByte a l x → m2 x = m x) →
      Seg m t a l e → Seg m2 t a l e
  | [], _, _, _, h => h
  | b :: l, a, e, hm, h => by
    refine ⟨Hdr_congr (fun x h1 h2 => hm x (Or.inl ⟨h1, h2⟩)) h.1, ?_⟩
    exact Seg_congr_hdr (fun x hx => hm x (Or.inr hx)) h.2

theorem Seg_congr {m m2 : Nat → Nat} {t : Nat} {l : List Blk} {a e : Nat}
    (hm : ∀ x, a ≤ x → x < e → m2 x = m x) (h : Seg m t a l e) : Seg m2 t a l e := by
  have hs := Seg_span h
  refine Seg_congr_hdr (fun x hx => ?_) h
  have := hdrByte_range hx
  exact hm x this.1 (by omega)

theorem nextPtr_append (t a : Nat) (l1 l2 : List Blk) :
    nextPtr t a (l1 ++ l2) = nextPtr (nextPtr t (a + span l1) l2) a l1 := by
  cases l1 <;> simp [nextPtr, span]

theorem Seg_append {m : Nat → Nat} {t : Nat} {l2 : List Blk} {e : Nat} {l1 : List Blk}
    {a : Nat} : Seg m t a (l1 ++ l2) e ↔
      Seg m (nextPtr t (a + span l1) l2) a l1 (a + span l1) ∧ Seg m t (a + span l1) l2 e := by
  induction l1 generalizing a with
  | nil => simp [Seg, span]
  | cons b l1 ih =>
    have e1 : a + span (b :: l1) = a + 24 + b.size + span l1 := by
      simp only [span]
      omega
    rw [e1]
    simp only [List.cons_append, Seg, List.append_eq]
    rw [ih, nextPtr_append]
    exact and_assoc.symm

theorem span_append (l1 l2 : List Blk) : span (l1 ++ l2) = span l1 + span l2 := by
  induction l1 with
  | nil => simp [span]
  | cons b l1 ih =>
    show span (b :: (l1 ++ l2)) = _
    simp only [span, ih]
    omega

theorem hdrByte_append (l1 l2 : List Blk) (a x : Nat) :
    hdrByte a (l1 ++ l2) x ↔ hdrByte a l1 x ∨ hdrByte (a + span l1) l2 x := by
  induction l1 generalizing a with
  | nil => simp [hdrByte, span]
  | cons b l1 ih =>
    have e1 : a + span (b :: l1) = a + 24 + b.size + span l1 := by
      simp only [span]
      omega
    simp only [List.cons_append, hdrByte, List.append_eq, ih, e1, or_assoc]

theorem span_length (l : List Blk) : 24 * l.length ≤ span l := by
  induction l with
  | nil => simp [span]
  | cons b l ih =>
    simp only [span, List.length_cons]
    omega

/-! ## The observed chain of a represented state -/

theorem walk_null (m : Nat → Nat) (fuel : Nat) : walk m fuel 0 = [] := by
  cases fuel <;> simp [walk]

theorem walk_of_Seg {m : Nat → Nat} {l : List Blk} {a e fuel : Nat}
    (h : Seg m 0 a l e) (ha : 0 < a) (hf : l.length ≤ fuel) :
    walk m fuel (nextPtr 0 a l) = layout 0 a l := by
  induction l generalizing a fuel with
  | nil => simp [nextPtr, walk_null, layout]
  | cons b l ih =>
    cases fuel with
    | zero => simp at hf
    | succ f =>
      obtain ⟨⟨h1, h2, h3⟩, h4⟩ := h
      have hne : a ≠ 0 := by omega
      have hl : l.length ≤ f := by simpa using hf
      have ih2 := ih h4 (by omega) hl
      have e0 : nextPtr 0 a (b :: l) = a := rfl
      rw [e0]
      simp only [walk, hne, if_false, layout, headerAt, h1, h2, h3]
      rw [ih2]

theorem contiguous_layout {l : List Blk} {a e : Nat} (hl : l ≠ []) (h : a + span l = e) :
    contiguous e (layout 0 a l) := by
  induction l generalizing a with
  | nil => exact absurd rfl hl
  | cons b l ih =>
    cases l with
    | nil =>
      simp only [span] at h
      simp only [layout, contiguous, nextPtr, HDR]
      constructor
      · trivial
      · omega
    | cons c l =>
      have h2 : a + 24 + b.size + span (c :: l) = e := by
        simp only [span] at h ⊢
        omega
      have := ih (a := a + 24 + b.size) (by simp) h2
      simp only [layout, contiguous, nextPtr, HDR] at this ⊢
      exact ⟨trivial, trivial, this⟩

theorem Rep_blocks {s : State} {l : List Blk} (h : Rep s l) :
    blocks s = layout 0 s.base l := by
  obtain ⟨h0, _, hh, hl, hs⟩ := h
  have hsp := Seg_span hs
  have hlen := span_length l
  have := @walk_of_Seg _ _ _ _ MEMORY_SIZE hs h0 (by simp only [MEMORY_SIZE]; omega)
  cases l with
  | nil => exact absurd rfl hl
  | cons b l =>
    simp only [nextPtr] at this
    simp only [blocks, hh, this]

theorem WF_of_Rep {s : State} {l : List Blk} (h : Rep s l) : WF s := by
  have hb := Rep_blocks h
  obtain ⟨h0, h1, hh, hl, hs⟩ := h
  refine ⟨h0, h1, hh, ?_⟩
  rw [hb]
  exact contiguous_layout hl (Seg_span hs)

theorem Seg_of_contiguous {m : Nat → Nat} {e : Nat} :
    ∀ (fuel a : Nat), contiguous e (walk m fuel a) →
      Seg m 0 a ((walk m fuel a).map toBlk) e ∧ walk m fuel a ≠ []
  | 0, a, h => by simp [walk, contiguous] at h
  | fuel + 1, a, h => by
    by_cases ha : a = 0
    · simp [walk, ha, contiguous] at h
    · simp only [walk, ha, if_false] at h ⊢
      refine ⟨?_, by simp⟩
      cases hw : walk m fuel (rd64 m (a + 16)) with
      | nil =>
        rw [hw] at h
        simp only [contiguous, headerAt, HDR] at h
        simp only [List.map, Seg, nextPtr, toBlk, Hdr, headerAt]
        exact ⟨⟨trivial, trivial, h.1⟩, h.2⟩
      | cons c l =>
        rw [hw] at h
        have ih := Seg_of_contiguous fuel (rd64 m (a + 16)) (by rw [hw]; exact h.2.2)
        rw [hw] at ih
        simp only [contiguous, headerAt, HDR] at h
        simp only [List.map, Seg, nextPtr, toBlk, Hdr, headerAt] at ih ⊢
        obtain ⟨h1, h2, _⟩ := h
        rw [h2, ← h1]
        exact ⟨⟨trivial, trivial, rfl⟩, ih.1⟩

theorem Rep_of_WF {s : State} (h : WF s) : ∃ l, Rep s l := by
  obtain ⟨h0, h1, hh, hc⟩ := h
  have := Seg_of_contiguous (m := s.mem) MEMORY_SIZE s.head hc
  refine ⟨(walk s.mem MEMORY_SIZE s.head).map toBlk, h0, h1, hh, ?_, ?_⟩
  · simpa using this.2
  · have h3 := this.1
    rw [hh] at h3 ⊢
    exact h3

theorem WF_iff_Rep (s : State) : WF s ↔ ∃ l, Rep s l :=
  ⟨Rep_of_WF, fun ⟨_, h⟩ => WF_of_Rep h⟩

/-! ## `init_allocator` -/

theorem init_allocator_eq (s : State) (hh : s.head = 0) :
    init_allocator s = some (initState s) := by
  obtain ⟨base, head, mem⟩ := s
  simp only at hh
  subst hh
  simp [init_allocator, store_size, store_is_free, store_next, initState, inArena, HDR,
    MEMORY_SIZE]

theorem Rep_initState (s : State) (h0 : 0 < s.base) (h1 : s.base + 4096 < W) :
    Rep (initState s) [⟨4072, 1⟩] := by
  refine ⟨h0, h1, rfl, by simp, ?_⟩
  simp only [initState, Seg, nextPtr, Hdr]
  refine ⟨⟨?_, ?_, ?_⟩, trivial⟩
  · rw [rd64_wr64_disj _ _ _ _ (by omega), rd64_wr8_disj _ _ _ _ (by omega), rd64_wr64_eq]
    decide
  · rw [rd8_wr64_disj _ _ _ _ (by omega), rd8_wr8_same]
  · rw [rd64_wr64_eq]
    decide

/-! ## `split_block` -/

theorem split_block_keep (s : State) (block r : Nat) (h1 : s.base ≤ block)
    (h2 : block + 24 ≤ s.base + 4096) (hr : r + 32 < W) (hs : rd64 s.mem block < r + 32) :
    split_block s block r = some s := by
  obtain ⟨base, head, mem⟩ := s
  simp only [W] at h1 h2 hs hr
  have e1 : add64 (add64 r HDR) 8 = r + 32 := by
    simp only [add64, HDR, W]
    omega
  simp only [split_block, load_size_at _ _ _ _ h1 h2, e1, hs, Option.bind_eq_bind,
    Option.some_bind, if_true, pure]

theorem split_block_cut (s : State) (block r : Nat) (h1 : s.base ≤ block)
    (h2 : block + 24 + rd64 s.mem block ≤ s.base + 4096) (hw : s.base + 4096 ≤ W)
    (hs : r + 32 ≤ rd64 s.mem block) :
    split_block s block r = some ⟨s.base, s.head,
      splitMem s.mem block r (rd64 s.mem block) (rd64 s.mem (block + 16))⟩ := by
  obtain ⟨base, head, mem⟩ := s
  simp only [W] at h1 h2 hs hw ⊢
  have e1 : add64 (add64 r HDR) 8 = r + 32 := by
    simp only [add64, HDR, W]
    omega
  have e2 : add64 (add64 block HDR) r = block + 24 + r := by
    simp only [add64, HDR, W]
    omega
  have e3 : sub64 (sub64 (rd64 mem block) r) HDR = rd64 mem block - r - 24 := by
    simp only [sub64, HDR, W]
    omega
  have h3 : ¬ rd64 mem block < r + 32 := by omega
  have h4 : block + 24 ≤ base + 4096 := by omega
  have h5 : base ≤ block + 24 + r := by omega
  have h6 : block + 24 + r + 24 ≤ base + 4096 := by omega
  have e4 : rd64 (wr8 (wr64 mem (block + 24 + r) (rd64 mem block - r - 24))
      (block + 24 + r + 8) 1) (block + 16) = rd64 mem (block + 16) := by
    rw [rd64_wr8_disj _ _ _ _ (by omega), rd64_wr64_disj _ _ _ _ (by omega)]
  simp only [split_block, load_size_at _ _ _ _ h1 h4, load_next_at _ _ _ _ h1 h4,
    store_size_at _ _ _ _ _ h5 h6, store_is_free_at _ _ _ _ _ h5 h6,
    store_next_at _ _ _ _ _ h5 h6, store_size_at _ _ _ _ _ h1 h4,
    store_next_at _ _ _ _ _ h1 h4, e1, e2, e3, h3, e4, Option.bind_eq_bind,
    Option.some_bind, if_false, splitMem]

theorem splitMem_frame (m : Nat → Nat) (block r bsize nx x : Nat)
    (h1 : x < block ∨ block + 24 ≤ x) (h2 : x < block + 24 + r ∨ block + 24 + r + 24 ≤ x) :
    splitMem m block r bsize nx x = m x := by
  unfold splitMem
  rw [wr64_other _ _ _ _ (by omega), wr64_other _ _ _ _ (by omega),
    wr64_other _ _ _ _ (by omega), wr8_other _ _ _ _ (by omega),
    wr64_other _ _ _ _ (by omega)]

theorem splitMem_fst (m : Nat → Nat) (block r bsize nx : Nat) (hr : block + 24 + r < W) :
    Hdr (splitMem m block r bsize nx) block ⟨r, rd8 m (block + 8)⟩ (block + 24 + r) := by
  unfold splitMem
  refine ⟨?_, ?_, ?_⟩
  · rw [rd64_wr64_disj _ _ _ _ (by omega), rd64_wr64_eq _ _ _ (by omega)]
  · rw [rd8_wr64_disj _ _ _ _ (by omega), rd8_wr64_disj _ _ _ _ (by omega),
      rd8_wr64_disj _ _ _ _ (by omega), rd8_wr8_ne _ _ _ _ (by omega),
      rd8_wr64_disj _ _ _ _ (by omega)]
  · rw [rd64_wr64_eq _ _ _ hr]

theorem splitMem_snd (m : Nat → Nat) (block r bsize nx : Nat) (hb : bsize < W) (hn : nx < W) :
    Hdr (splitMem m block r bsize nx) (block + 24 + r) ⟨bsize - r - 24, 1⟩ nx := by
  unfold splitMem
  refine ⟨?_, ?_, ?_⟩
  · rw [rd64_wr64_disj _ _ _ _ (by omega), rd64_wr64_disj _ _ _ _ (by omega),
      rd64_wr64_disj _ _ _ _ (by omega), rd64_wr8_disj _ _ _ _ (by omega),
      rd64_wr64_eq _ _ _ (by omega)]
  · rw [rd8_wr64_disj _ _ _ _ (by omega), rd8_wr64_disj _ _ _ _ (by omega),
      rd8_wr64_disj _ _ _ _ (by omega), rd8_wr8_same]
  · rw [rd64_wr64_disj _ _ _ _ (by omega), rd64_wr64_disj _ _ _ _ (by omega),
      rd64_wr64_eq _ _ _ hn]

/-! ## `find_free_block` -/

theorem block_fits_eq (base head : Nat) (mem : Nat → Nat) (a r : Nat) (b : Blk) (nx : Nat)
    (hh : Hdr mem a b nx) (h1 : base ≤ a) (h2 : a + 24 ≤ base + 4096) :
    block_fits ⟨base, head, mem⟩ a r = some (decide (fits r b)) := by
  obtain ⟨e1, e2, _⟩ := hh
  simp only [block_fits, load_is_free_at _ _ _ _ h1 h2, load_size_at _ _ _ _ h1 h2, e1, e2,
    Option.bind_eq_bind, Option.some_bind, pure, fits]
  by_cases hf : b.is_free = 0
  · simp [hf]
  · simp [hf]

theorem find_free_block_spec (s : State) (r : Nat) {l : List Blk} {a e fuel : Nat}
    (h : Seg s.mem 0 a l e) (h1 : s.base ≤ a) (h2 : e ≤ s.base + 4096) (h0 : 0 < a)
    (hf : l.length < fuel) :
    (find_free_block fuel s (nextPtr 0 a l) r = some 0 ∧ ∀ c ∈ l, ¬ fits r c) ∨
    (∃ l1 b l2, l = l1 ++ b :: l2 ∧ (∀ c ∈ l1, ¬ fits r c) ∧ fits r b ∧
      find_free_block fuel s (nextPtr 0 a l) r = some (a + span l1)) := by
  obtain ⟨base, head, mem⟩ := s
  simp only at h h1 h2
  induction l generalizing a fuel with
  | nil =>
    left
    cases fuel with
    | zero => simp at hf
    | succ f => simp [nextPtr, find_free_block]
  | cons b l ih =>
    cases fuel with
    | zero => simp at hf
    | succ f =>
      obtain ⟨hh, ht⟩ := h
      have hsp := Seg_span ht
      have hne : a ≠ 0 := by omega
      have hb2 : a + 24 ≤ base + 4096 := by omega
      have e0 : nextPtr 0 a (b :: l) = a := rfl
      have efit := block_fits_eq base head mem a r b _ hh h1 hb2
      rw [e0]
      by_cases hfit : fits r b
      · right
        refine ⟨[], b, l, rfl, by simp, hfit, ?_⟩
        simp only [find_free_block, hne, if_false, efit, hfit, decide_True,
          Option.bind_eq_bind, Option.some_bind, if_true, span, Nat.add_zero]
      · have hstep : find_free_block (f + 1) ⟨base, head, mem⟩ a r =
            find_free_block f ⟨base, head, mem⟩ (nextPtr 0 (a + 24 + b.size) l) r := by
          simp only [find_free_block, hne, if_false, efit, hfit, decide_False,
            Option.bind_eq_bind, Option.some_bind, load_next_at _ _ _ _ h1 hb2, hh.2.2]
          simp
        rw [hstep]
        have hl : l.length < f := by simpa using hf
        rcases ih (by omega) hl ht (by omega) with ⟨hr, hall⟩ | ⟨l1, c, l2, hl1, hall, hc, hr⟩
        · left
          refine ⟨hr, ?_⟩
          intro c hc
          rcases List.mem_cons.mp hc with rfl | hc
          · exact hfit
          · exact hall c hc
        · right
          refine ⟨b :: l1, c, l2, by simp [hl1], ?_, hc, ?_⟩
          · intro d hd
            rcases List.mem_cons.mp hd with rfl | hd
            · exact hfit
            · exact hall d hd
          · rw [hr]
            simp only [span]
            congr 1
            omega

/-! ## Local updates of a chain -/

theorem nextPtr_of_ne (t a : Nat) {l : List Blk} (h : l ≠ []) : nextPtr t a l = a := by
  cases l with
  | nil => exact absurd rfl h
  | cons b l => rfl

theorem Seg_replace {m m2 : Nat → Nat} {t a e : Nat} {l1 : List Blk} (ml : List Blk)
    {ml2 l2 : List Blk}
    (h : Seg m t a (l1 ++ (ml ++ l2)) e) (hne1 : ml ≠ []) (hne2 : ml2 ≠ [])
    (hsp : span ml2 = span ml)
    (hmid : Seg m2 (nextPtr t (a + span l1 + span ml) l2) (a + span l1) ml2
      (a + span l1 + span ml))
    (hfr : ∀ x, (x < a + span l1 ∨ a + span l1 + span ml ≤ x) → m2 x = m x) :
    Seg m2 t a (l1 ++ (ml2 ++ l2)) e := by
  obtain ⟨ha, hb⟩ := Seg_append.mp h
  obtain ⟨_, hd⟩ := Seg_append.mp hb
  have hsd := Seg_span hd
  rw [nextPtr_of_ne _ _ (by simp [hne1])] at ha
  refine Seg_append.mpr ⟨?_, ?_⟩
  · rw [nextPtr_of_ne _ _ (by simp [hne2])]
    exact Seg_congr (fun x _ hx => hfr x (Or.inl hx)) ha
  · refine Seg_append.mpr ⟨?_, ?_⟩
    · rw [hsp]
      exact hmid
    · rw [hsp]
      exact Seg_congr (fun x hx _ => hfr x (Or.inr hx)) hd

theorem span_splitBlk (r : Nat) (b : Blk) : span (splitBlk r b) = span [b] := by
  unfold splitBlk
  split
  · rfl
  · simp only [span]
    omega

theorem splitBlk_ne (r : Nat) (b : Blk) : splitBlk r b ≠ [] := by
  unfold splitBlk
  split <;> simp

theorem split_block_spec (s : State) (mid r : Nat) (b : Blk) (nx : Nat)
    (hh : Hdr s.mem mid b nx) (h1 : s.base ≤ mid) (h2 : mid + 24 + b.size ≤ s.base + 4096)
    (hw : s.base + 4096 < W) (hr : r ≤ b.size) :
    ∃ s2, split_block s mid r = some s2 ∧ s2.base = s.base ∧ s2.head = s.head ∧
      Seg s2.mem nx mid (splitBlk r b) (mid + 24 + b.size) ∧
      ∀ x, (x < mid ∨ mid + 24 + b.size ≤ x ∨ (mid + 24 ≤ x ∧ x < mid + 24 + r)) →
        s2.mem x = s.mem x := by
  have hnx : nx < W := by
    rw [← hh.2.2]
    exact rd64_lt _ _
  obtain ⟨e1, e2, e3⟩ := hh
  simp only [W] at hw hnx
  by_cases hs : b.size < r + 32
  · refine ⟨s, ?_, rfl, rfl, ?_, fun _ _ => rfl⟩
    · exact split_block_keep s mid r h1 (by omega) (by simp only [W]; omega) (by omega)
    · simp only [splitBlk, hs, if_true, Seg, nextPtr]
      exact ⟨⟨e1, e2, e3⟩, trivial⟩
  · refine ⟨_, split_block_cut s mid r h1 (by omega) (by simp only [W]; omega) (by omega),
      rfl, rfl, ?_, ?_⟩
    · simp only [splitBlk, hs, if_false, Seg, nextPtr, e1, e3]
      refine ⟨?_, ?_, by omega⟩
      · rw [← e2]
        exact splitMem_fst _ _ _ _ _ (by simp only [W]; omega)
      · exact splitMem_snd _ _ _ _ _ (by simp only [W]; omega) hnx
    · intro x hx
      exact splitMem_frame _ _ _ _ _ _ (by omega) (by omega)

theorem span_markHead (v : Nat) (l : List Blk) : span (markHead v l) = span l := by
  cases l <;> rfl

theorem markHead_ne (v : Nat) {l : List Blk} (h : l ≠ []) : markHead v l ≠ [] := by
  cases l with
  | nil => exact absurd rfl h
  | cons b l => simp [markHead]

theorem store_is_free_spec (s : State) (mid v t e : Nat) (l : List Blk)
    (hh : Seg s.mem t mid l e) (hl : l ≠ []) (h1 : s.base ≤ mid) (h2 : e ≤ s.base + 4096)
    (hv : v < 256) :
    ∃ s2, store_is_free s mid v = some s2 ∧ s2.base = s.base ∧ s2.head = s.head ∧
      Seg s2.mem t mid (markHead v l) e ∧ ∀ x, x ≠ mid + 8 → s2.mem x = s.mem x := by
  obtain ⟨base, head, mem⟩ := s
  cases l with
  | nil => exact absurd rfl hl
  | cons b l =>
    obtain ⟨⟨e1, e2, e3⟩, ht⟩ := hh
    have hsp := Seg_span ht
    simp only at h1 h2 e1 e2 e3 ht
    refine ⟨_, store_is_free_at _ _ _ _ _ h1 (by omega), rfl, rfl, ⟨⟨?_, ?_, ?_⟩, ?_⟩, ?_⟩
    · show rd64 (wr8 mem (mid + 8) v) mid = b.size
      rw [rd64_wr8_disj _ _ _ _ (by omega), e1]
    · show rd8 (wr8 mem (mid + 8) v) (mid + 8) = v
      rw [rd8_wr8_same, Nat.mod_eq_of_lt hv]
    · show rd64 (wr8 mem (mid + 8) v) (mid + 16) = _
      rw [rd64_wr8_disj _ _ _ _ (by omega), e3]
    · exact Seg_congr (fun x hx _ => wr8_other _ _ _ _ (by omega)) ht
    · intro x hx
      exact wr8_other _ _ _ _ hx

/-! ## `malloc` -/

theorem Rep_length {s : State} {l : List Blk} (h : Rep s l) : l.length < 4096 := by
  have h1 := Seg_span h.2.2.2.2
  have h2 := span_length l
  have h3 : l.length ≠ 0 := by
    intro h0
    exact h.2.2.2.1 (List.length_eq_zero.mp h0)
  omega

theorem Rep_split {s : State} {l1 l2 : List Blk} {b : Blk} (h : Rep s (l1 ++ b :: l2)) :
    Hdr s.mem (s.base + span l1) b (nextPtr 0 (s.base + span l1 + 24 + b.size) l2) ∧
      s.base + span l1 + 24 + b.size + span l2 = s.base + 4096 := by
  obtain ⟨_, hb⟩ := Seg_append.mp h.2.2.2.2
  exact ⟨hb.1, Seg_span hb.2⟩

theorem malloc_spec {s : State} {l : List Blk} (h : Rep s l) (n : Nat) (hn : n ≠ 0) :
    (malloc s n = some (s, 0) ∧ ∀ c ∈ l, ¬ fits (align8 n) c) ∨
    (∃ l1 b l2 s2, l = l1 ++ b :: l2 ∧ (∀ c ∈ l1, ¬ fits (align8 n) c) ∧
      fits (align8 n) b ∧ malloc s n = some (s2, s.base + span l1 + 24) ∧
      Rep s2 (l1 ++ (allocBlk (align8 n) b ++ l2)) ∧ s2.base = s.base ∧
      ∀ x, (x < s.base + span l1 ∨ s.base + span l1 + 24 + b.size ≤ x) →
        s2.mem x = s.mem x) := by
  have hlen := Rep_length h
  obtain ⟨h0, hw, hh, hl, hs⟩ := h
  have hhead : ¬ s.head = 0 := by omega
  have hfind := @find_free_block_spec s (align8 n) _ _ _ MEMORY_SIZE hs (le_refl _)
    (le_refl _) h0 hlen
  rw [nextPtr_of_ne _ _ hl, ← hh] at hfind
  rcases hfind with ⟨hf, hall⟩ | ⟨l1, b, l2, rfl, hall, hfit, hf⟩
  · left
    refine ⟨?_, hall⟩
    simp only [malloc, hn, if_false, hhead, pure, Option.bind_eq_bind, Option.some_bind, hf,
      if_true]
  · right
    obtain ⟨hhd, hsp⟩ := Rep_split ⟨h0, hw, hh, hl, hs⟩
    have hmid : s.head + span l1 ≠ 0 := by omega
    obtain ⟨s2, hsplit, hb2, hh2, hseg2, hfr2⟩ := split_block_spec s (s.base + span l1)
      (align8 n) b _ hhd (by omega) (by omega) hw hfit.2
    obtain ⟨s3, hstore, hb3, hh3, hseg3, hfr3⟩ := store_is_free_spec s2 (s.base + span l1) 0 _ _
      _ hseg2 (splitBlk_ne _ _) (by omega) (by omega) (by omega)
    have eadd : add64 (s.base + span l1) HDR = s.base + span l1 + 24 := by
      simp only [add64, HDR, W] at hw ⊢
      omega
    refine ⟨l1, b, l2, s3, rfl, hall, hfit, ?_, ?_, by rw [hb3, hb2], ?_⟩
    · simp only [malloc, hn, if_false, hhead, pure, Option.bind_eq_bind, Option.some_bind, hf,
        hmid]
      rw [hh]
      simp only [hsplit, hstore, Option.some_bind, eadd]
    · have key : ∀ x, (x < s.base + span l1 ∨ s.base + span l1 + span [b] ≤ x) →
          s3.mem x = s.mem x := by
        intro x hx
        simp only [span] at hx
        rw [hfr3 x (by omega), hfr2 x (by omega)]
      refine ⟨by rw [hb3, hb2]; exact h0, by rw [hb3, hb2]; exact hw,
        by rw [hh3, hh2, hb3, hb2]; exact hh, ?_, ?_⟩
      · intro hnil
        exact markHead_ne 0 (splitBlk_ne _ b)
          (List.append_eq_nil.mp (List.append_eq_nil.mp hnil).2).1
      rw [hb3, hb2]
      refine Seg_replace [b] hs (by simp) (markHead_ne _ (splitBlk_ne _ _)) ?_ ?_ key
      · rw [allocBlk, span_markHead, span_splitBlk]
      · have e1 : s.base + span l1 + span [b] = s.base + span l1 + 24 + b.size := by
          simp only [span]
          omega
        rw [e1]
        exact hseg3
    · intro x hx
      rw [hfr3 x (by omega), hfr2 x (by omega)]

/-! ## `merge_free_blocks` -/

theorem coalesce_ne (b : Blk) (l : List Blk) : coalesce b l ≠ [] := by
  induction l generalizing b with
  | nil => simp [coalesce]
  | cons c l ih =>
    simp only [coalesce]
    split
    · exact ih _
    · simp

theorem both_free_eq (base head : Nat) (mem : Nat → Nat) (a a2 : Nat) (b c : Blk)
    (n1 n2 : Nat) (hb : Hdr mem a b n1) (hc : Hdr mem a2 c n2) (h1 : base ≤ a)
    (h2 : a + 24 ≤ base + 4096) (h3 : base ≤ a2) (h4 : a2 + 24 ≤ base + 4096) :
    both_free ⟨base, head, mem⟩ a a2 = some (decide (b.is_free ≠ 0 ∧ c.is_free ≠ 0)) := by
  simp only [both_free, load_is_free_at _ _ _ _ h1 h2, load_is_free_at _ _ _ _ h3 h4, hb.2.1,
    hc.2.1, Option.bind_eq_bind, Option.some_bind, pure]
  by_cases hf : b.is_free = 0
  · simp [hf]
  · simp [hf]

theorem merge_loop_spec (base head : Nat) {l : List Blk} :
    ∀ (mem : Nat → Nat) (b : Blk) (a e fuel : Nat), Seg mem 0 a (b :: l) e → base ≤ a →
      e ≤ base + 4096 → 0 < a → l.length < fuel →
      ∃ m2, merge_loop fuel ⟨base, head, mem⟩ a = some ⟨base, head, m2⟩ ∧
        Seg m2 0 a (coalesce b l) e ∧ ∀ x, ¬ hdrByte a (b :: l) x → m2 x = mem x := by
  induction l with
  | nil =>
    intro mem b a e fuel h h1 h2 h0 hf
    obtain ⟨hh, ht⟩ := h
    simp only [Seg] at ht
    cases fuel with
    | zero => simp at hf
    | succ f =>
      have hne : a ≠ 0 := by omega
      refine ⟨mem, ?_, ⟨hh, ht⟩, fun _ _ => rfl⟩
      simp only [merge_loop, hne, if_false, load_next_at _ _ _ _ h1 (show a + 24 ≤ _ by omega),
        hh.2.2, nextPtr, Option.bind_eq_bind, Option.some_bind, if_true]
  | cons c l ih =>
    intro mem b a e fuel h h1 h2 h0 hf
    obtain ⟨hb, hc, ht⟩ := h
    have hsp := Seg_span ht
    cases fuel with
    | zero => simp at hf
    | succ f =>
      have hl : l.length < f := by simpa using hf
      have hne : a ≠ 0 := by omega
      have hne2 : a + 24 + b.size ≠ 0 := by omega
      have ha2 : a + 24 ≤ base + 4096 := by omega
      have hc1 : base ≤ a + 24 + b.size := by omega
      have hc2 : a + 24 + b.size + 24 ≤ base + 4096 := by omega
      have enx : nextPtr 0 (a + 24 + b.size) (c :: l) = a + 24 + b.size := rfl
      rw [enx] at hb
      have hboth := both_free_eq base head mem a (a + 24 + b.size) b c _ _ hb hc h1 ha2 hc1 hc2
      by_cases hfree : b.is_free ≠ 0 ∧ c.is_free ≠ 0
      · have eadd : add64 b.size (add64 HDR c.size) = b.size + 24 + c.size := by
          simp only [add64, HDR, W]
          omega
        have er1 : rd64 (wr64 mem a (b.size + 24 + c.size)) (a + 16) = a + 24 + b.size := by
          rw [rd64_wr64_disj _ _ _ _ (by omega), hb.2.2]
        have er2 : rd64 (wr64 mem a (b.size + 24 + c.size)) (a + 24 + b.size + 16) =
            nextPtr 0 (a + 24 + b.size + 24 + c.size) l := by
          rw [rd64_wr64_disj _ _ _ _ (by omega), hc.2.2]
        have hnn : nextPtr 0 (a + 24 + b.size + 24 + c.size) l < W := by
          rw [← hc.2.2]
          exact rd64_lt _ _
        have hseg : Seg (wr64 (wr64 mem a (b.size + 24 + c.size)) (a + 16)
            (nextPtr 0 (a + 24 + b.size + 24 + c.size) l)) 0 a
            (⟨b.size + 24 + c.size, b.is_free⟩ :: l) e := by
          have ea : a + 24 + (b.size + 24 + c.size) = a + 24 + b.size + 24 + c.size := by omega
          simp only [Seg, ea]
          refine ⟨⟨?_, ?_, ?_⟩, ?_⟩
          · rw [rd64_wr64_disj _ _ _ _ (by omega), rd64_wr64_eq _ _ _ (by simp only [W]; omega)]
          · rw [rd8_wr64_disj _ _ _ _ (by omega), rd8_wr64_disj _ _ _ _ (by omega), hb.2.1]
          · rw [rd64_wr64_eq _ _ _ hnn]
          · refine Seg_congr (fun x hx _ => ?_) ht
            rw [wr64_other _ _ _ _ (by omega), wr64_other _ _ _ _ (by omega)]
        obtain ⟨m2, hrun, hseg2, hfr⟩ := ih _ _ a e f hseg h1 h2 h0 hl
        refine ⟨m2, ?_, ?_, ?_⟩
        · have hd : decide (b.is_free ≠ 0 ∧ c.is_free ≠ 0) = true := decide_eq_true hfree
          simp only [merge_loop, hne, if_false, load_next_at _ _ _ _ h1 ha2, hb.2.2, hne2,
            hboth, hd, load_size_at _ _ _ _ h1 ha2,
            load_size_at _ _ _ _ hc1 hc2, hb.1, hc.1, eadd, store_size_at _ _ _ _ _ h1 ha2,
            load_next_at _ _ _ _ hc1 hc2, er1, er2, store_next_at _ _ _ _ _ h1 ha2,
            Option.bind_eq_bind, Option.some_bind, if_true, and_self]
          exact hrun
        · simp only [coalesce]
          rw [if_pos hfree]
          exact hseg2
        · intro x hx
          have hx1 : ¬ (a ≤ x ∧ x < a + 24) := fun h => hx (Or.inl h)
          have hx2 : ¬ hdrByte a (⟨b.size + 24 + c.size, b.is_free⟩ :: l) x := by
            intro h
            rcases h with h | h
            · exact hx1 h
            · apply hx
              right
              right
              have ea : a + 24 + (b.size + 24 + c.size) = a + 24 + b.size + 24 + c.size := by
                omega
              simp only [ea] at h
              exact h
          rw [hfr x hx2, wr64_other _ _ _ _ (by omega), wr64_other _ _ _ _ (by omega)]
      · obtain ⟨m2, hrun, hseg2, hfr⟩ := ih mem c (a + 24 + b.size) e f ⟨hc, ht⟩ hc1 h2
          (by omega) hl
        refine ⟨m2, ?_, ?_, ?_⟩
        · have hd : decide (b.is_free ≠ 0 ∧ c.is_free ≠ 0) = false := decide_eq_false hfree
          simp only [merge_loop, hne, if_false, load_next_at _ _ _ _ h1 ha2, hb.2.2, hne2,
            hboth, hd, Option.bind_eq_bind, Option.some_bind]
          exact hrun
        · simp only [coalesce]
          rw [if_neg hfree]
          simp only [Seg]
          refine ⟨?_, hseg2⟩
          rw [nextPtr_of_ne _ _ (coalesce_ne _ _)]
          exact Hdr_congr (fun x hx1 hx2 => hfr x (fun h => by
            have := hdrByte_range h
            omega)) hb
        · intro x hx
          exact hfr x (fun h => hx (Or.inr h))

theorem coalesceAll_ne {l : List Blk} (h : l ≠ []) : coalesceAll l ≠ [] := by
  cases l with
  | nil => exact absurd rfl h
  | cons b l => exact coalesce_ne b l

theorem merge_free_blocks_spec {s : State} {l : List Blk} (h : Rep s l) :
    ∃ s2, merge_free_blocks s = some s2 ∧ Rep s2 (coalesceAll l) ∧ s2.base = s.base ∧
      ∀ x, ¬ hdrByte s.base l x → s2.mem x = s.mem x := by
  have hlen := Rep_length h
  obtain ⟨h0, hw, hh, hl, hs⟩ := h
  obtain ⟨base, head, mem⟩ := s
  simp only at h0 hw hh hs
  subst hh
  cases l with
  | nil => exact absurd rfl hl
  | cons b l =>
    have hl2 : l.length < MEMORY_SIZE := by
      simp only [List.length_cons, MEMORY_SIZE] at hlen ⊢
      omega
    obtain ⟨m2, hrun, hseg, hfr⟩ := merge_loop_spec head head mem b head _ MEMORY_SIZE hs
      (le_refl _) (le_refl _) h0 hl2
    exact ⟨_, hrun, ⟨h0, hw, rfl, coalesce_ne b l, hseg⟩, rfl, hfr⟩

/-! ## `free` -/

theorem free_spec {s : State} {l1 l2 : List Blk} {b : Blk} (h : Rep s (l1 ++ b :: l2)) :
    ∃ s2, free s (s.base + span l1 + 24) = some s2 ∧
      Rep s2 (coalesceAll (l1 ++ ⟨b.size, 1⟩ :: l2)) ∧ s2.base = s.base ∧
      ∀ x, ¬ hdrByte s.base (l1 ++ b :: l2) x → s2.mem x = s.mem x := by
  obtain ⟨hhd, hsp⟩ := Rep_split h
  obtain ⟨h0, hw, hh, hl, hs⟩ := h
  obtain ⟨_, hmid⟩ := Seg_append.mp hs
  have hp : ¬ s.base + span l1 + 24 = 0 := by omega
  have esub : sub64 (s.base + span l1 + 24) HDR = s.base + span l1 := by
    simp only [sub64, HDR, W]
    omega
  obtain ⟨s2, hstore, hb2, hh2, hseg2, hfr2⟩ := store_is_free_spec s (s.base + span l1) 1 _ _
    _ hmid (by simp) (by omega) (le_refl _) (by omega)
  have hrep2 : Rep s2 (l1 ++ ([⟨b.size, 1⟩] ++ l2)) := by
    refine ⟨by rw [hb2]; exact h0, by rw [hb2]; exact hw, by rw [hh2, hb2]; exact hh,
      by simp, ?_⟩
    rw [hb2]
    refine Seg_replace [b] hs (by simp) (by simp) rfl ?_ ?_
    · have e1 : s.base + span l1 + span [b] = s.base + span l1 + 24 + b.size := by
        simp only [span]
        omega
      rw [e1]
      have hseg3 := (@Seg_append _ _ l2 _ [⟨b.size, 1⟩] _).mp hseg2
      have e2 : s.base + span l1 + span [(⟨b.size, 1⟩ : Blk)] =
          s.base + span l1 + 24 + b.size := by
        simp only [span]
        omega
      rw [e2] at hseg3
      exact hseg3.1
    · intro x hx
      simp only [span] at hx
      exact hfr2 x (by omega)
  obtain ⟨s3, hmerge, hrep3, hb3, hfr3⟩ := merge_free_blocks_spec hrep2
  refine ⟨s3, ?_, hrep3, by rw [hb3, hb2], ?_⟩
  · simp only [free, hp, if_false, esub, hstore, Option.bind_eq_bind, Option.some_bind]
    exact hmerge
  · intro x hx
    have hx1 : ¬ hdrByte s2.base (l1 ++ ([⟨b.size, 1⟩] ++ l2)) x := by
      rw [hb2]
      intro hc
      apply hx
      rw [hdrByte_append] at hc ⊢
      exact hc
    have hx2 : x ≠ s.base + span l1 + 8 := by
      intro hc
      apply hx
      rw [hdrByte_append]
      right
      left
      omega
    rw [hfr3 x hx1, hfr2 x hx2]

/-! ## `realloc` -/

theorem merge_step_seg {mem : Nat → Nat} {t a e : Nat} {b c : Blk} {l : List Blk}
    (h : Seg mem t a (b :: c :: l) e) (he : e < W) :
    Seg (wr64 (wr64 mem a (b.size + 24 + c.size)) (a + 16)
      (nextPtr t (a + 24 + b.size + 24 + c.size) l)) t a
      (⟨b.size + 24 + c.size, b.is_free⟩ :: l) e := by
  obtain ⟨hb, hc, ht⟩ := h
  have hsp := Seg_span ht
  have hnn : nextPtr t (a + 24 + b.size + 24 + c.size) l < W := by
    rw [← hc.2.2]
    exact rd64_lt _ _
  have ea : a + 24 + (b.size + 24 + c.size) = a + 24 + b.size + 24 + c.size := by omega
  simp only [Seg, ea]
  simp only [W] at he
  refine ⟨⟨?_, ?_, ?_⟩, ?_⟩
  · rw [rd64_wr64_disj _ _ _ _ (by omega), rd64_wr64_eq _ _ _ (by simp only [W]; omega)]
  · rw [rd8_wr64_disj _ _ _ _ (by omega), rd8_wr64_disj _ _ _ _ (by omega), hb.2.1]
  · rw [rd64_wr64_eq _ _ _ hnn]
  · refine Seg_congr (fun x hx _ => ?_) ht
    rw [wr64_other _ _ _ _ (by omega), wr64_other _ _ _ _ (by omega)]

theorem can_grow_eq (base head : Nat) (mem : Nat → Nat) (a e r : Nat) (b : Blk)
    (l : List Blk) (h : Seg mem 0 a (b :: l) e) (h1 : base ≤ a) (h2 : e ≤ base + 4096)
    (h0 : 0 < a) :
    can_grow ⟨base, head, mem⟩ a r = some (decide (canGrow r b l)) := by
  obtain ⟨hb, ht⟩ := h
  have hsp := Seg_span ht
  have ha2 : a + 24 ≤ base + 4096 := by omega
  cases l with
  | nil =>
    simp only [can_grow, load_next_at _ _ _ _ h1 ha2, hb.2.2, nextPtr, Option.bind_eq_bind,
      Option.some_bind, if_true, pure, canGrow, decide_False]
  | cons c l =>
    obtain ⟨hc, ht2⟩ := ht
    have hsp2 := Seg_span ht2
    simp only [span] at hsp
    have hne : a + 24 + b.size ≠ 0 := by omega
    have hc1 : base ≤ a + 24 + b.size := by omega
    have hc2 : a + 24 + b.size + 24 ≤ base + 4096 := by omega
    have eadd : add64 (add64 b.size HDR) c.size = b.size + 24 + c.size := by
      simp only [add64, HDR, W]
      omega
    simp only [can_grow, load_next_at _ _ _ _ h1 ha2, hb.2.2, nextPtr, Option.bind_eq_bind,
      Option.some_bind, hne, if_false, load_is_free_at _ _ _ _ hc1 hc2, hc.2.1,
      load_size_at _ _ _ _ h1 ha2, load_size_at _ _ _ _ hc1 hc2, hb.1, hc.1, eadd, pure,
      canGrow]
    by_cases hf : c.is_free = 0
    · simp [hf]
    · simp [hf]

theorem realloc_shrink_spec {s : State} {l1 l2 : List Blk} {b : Blk}
    (h : Rep s (l1 ++ b :: l2)) (n : Nat) (hn : n ≠ 0) (hr : align8 n ≤ b.size) :
    ∃ s2, realloc s (s.base + span l1 + 24) n = some (s2, s.base + span l1 + 24) ∧
      Rep s2 (l1 ++ (splitBlk (align8 n) b ++ l2)) ∧ s2.base = s.base ∧
      ∀ x, (x < s.base + span l1 ∨ s.base + span l1 + 24 + b.size ≤ x ∨
        (s.base + span l1 + 24 ≤ x ∧ x < s.base + span l1 + 24 + align8 n)) →
        s2.mem x = s.mem x := by
  obtain ⟨hhd, hsp⟩ := Rep_split h
  obtain ⟨h0, hw, hh, hl, hs⟩ := h
  have hp : ¬ s.base + span l1 + 24 = 0 := by omega
  have esub : sub64 (s.base + span l1 + 24) HDR = s.base + span l1 := by
    simp only [sub64, HDR, W]
    omega
  obtain ⟨s2, hsplit, hb2, hh2, hseg2, hfr2⟩ := split_block_spec s (s.base + span l1)
    (align8 n) b _ hhd (by omega) (by omega) hw hr
  have hload : load_size s (s.base + span l1) = some b.size := by
    obtain ⟨base, head, mem⟩ := s
    rw [load_size_at _ _ _ _ (by simp only; omega) (by simp only at hsp ⊢; omega)]
    exact congrArg some hhd.1
  refine ⟨s2, ?_, ?_, hb2, hfr2⟩
  · simp only [realloc, hp, hn, if_false, esub, hload, hr, if_true, hsplit,
      Option.bind_eq_bind, Option.some_bind, pure]
  · refine ⟨by rw [hb2]; exact h0, by rw [hb2]; exact hw, by rw [hh2, hb2]; exact hh, ?_, ?_⟩
    · intro hnil
      exact splitBlk_ne _ b (List.append_eq_nil.mp (List.append_eq_nil.mp hnil).2).1
    · rw [hb2]
      refine Seg_replace [b] hs (by simp) (splitBlk_ne _ _) (span_splitBlk _ _) ?_ ?_
      · have e1 : s.base + span l1 + span [b] = s.base + span l1 + 24 + b.size := by
          simp only [span]
          omega
        rw [e1]
        exact hseg2
      · intro x hx
        simp only [span] at hx
        exact hfr2 x (by omega)

theorem realloc_grow_spec {s : State} {l1 l2 : List Blk} {b c : Blk}
    (h : Rep s (l1 ++ b :: c :: l2)) (n : Nat) (hn : n ≠ 0) (hr : b.size < align8 n)
    (hg : canGrow (align8 n) b (c :: l2)) :
    ∃ s2, realloc s (s.base + span l1 + 24) n = some (s2, s.base + span l1 + 24) ∧
      Rep s2 (l1 ++ (splitBlk (align8 n) ⟨b.size + 24 + c.size, b.is_free⟩ ++ l2)) ∧
      s2.base = s.base ∧
      ∀ x, (x < s.base + span l1 ∨ s.base + span l1 + 24 + b.size + 24 + c.size ≤ x ∨
        (s.base + span l1 + 24 ≤ x ∧ x < s.base + span l1 + 24 + b.size)) →
        s2.mem x = s.mem x := by
  obtain ⟨hhd, hsp⟩ := Rep_split h
  obtain ⟨h0, hw, hh, hl, hs⟩ := h
  obtain ⟨_, hmid⟩ := Seg_append.mp hs
  obtain ⟨base, head, mem⟩ := s
  simp only [span] at hsp
  simp only at h0 hw hh hs hmid hhd hsp ⊢
  have hp : ¬ base + span l1 + 24 = 0 := by omega
  have esub : sub64 (base + span l1 + 24) HDR = base + span l1 := by
    simp only [sub64, HDR, W]
    omega
  have h1 : base ≤ base + span l1 := by omega
  have h2 : base + span l1 + 24 ≤ base + 4096 := by omega
  have hc1 : base ≤ base + span l1 + 24 + b.size := by omega
  have hc2 : base + span l1 + 24 + b.size + 24 ≤ base + 4096 := by omega
  have hnr : ¬ align8 n ≤ b.size := by omega
  have hcan := can_grow_eq base head mem _ _ (align8 n) b _ hmid h1 (le_refl _) (by omega)
  have hd : decide (canGrow (align8 n) b (c :: l2)) = true := decide_eq_true hg
  have hmerged := merge_step_seg hmid (by simp only [W]; omega)
  obtain ⟨hb, hc, ht⟩ := hmid
  have enx : nextPtr 0 (base + span l1 + 24 + b.size) (c :: l2) =
      base + span l1 + 24 + b.size := rfl
  rw [enx] at hb
  have eadd : add64 b.size (add64 HDR c.size) = b.size + 24 + c.size := by
    simp only [add64, HDR, W]
    omega
  have er1 : rd64 (wr64 mem (base + span l1) (b.size + 24 + c.size)) (base + span l1 + 16) =
      base + span l1 + 24 + b.size := by
    rw [rd64_wr64_disj _ _ _ _ (by omega), hb.2.2]
  have er2 : rd64 (wr64 mem (base + span l1) (b.size + 24 + c.size))
      (base + span l1 + 24 + b.size + 16) =
      nextPtr 0 (base + span l1 + 24 + b.size + 24 + c.size) l2 := by
    rw [rd64_wr64_disj _ _ _ _ (by omega), hc.2.2]
  obtain ⟨s3, hsplit, hb3, hh3, hseg3, hfr3⟩ := split_block_spec
    ⟨base, head, wr64 (wr64 mem (base + span l1) (b.size + 24 + c.size)) (base + span l1 + 16)
      (nextPtr 0 (base + span l1 + 24 + b.size + 24 + c.size) l2)⟩
    (base + span l1) (align8 n) ⟨b.size + 24 + c.size, b.is_free⟩ _ hmerged.1 h1
    (by simp only; omega) hw hg.2
  simp only at hb3 hh3 hseg3 hfr3
  have key : ∀ x, (x < base + span l1 ∨ base + span l1 + 24 + b.size + 24 + c.size ≤ x ∨
      (base + span l1 + 24 ≤ x ∧ x < base + span l1 + 24 + b.size)) → s3.mem x = mem x := by
    intro x hx
    rw [hfr3 x (by omega), wr64_other _ _ _ _ (by omega), wr64_other _ _ _ _ (by omega)]
  refine ⟨s3, ?_, ?_, hb3, key⟩
  · simp only [realloc, hp, hn, if_false, esub, load_size_at _ _ _ _ h1 h2, hb.1, hnr, hcan,
      hd, if_true, load_next_at _ _ _ _ h1 h2, hb.2.2, load_size_at _ _ _ _ hc1 hc2, hc.1,
      eadd, store_size_at _ _ _ _ _ h1 h2, er1, load_next_at _ _ _ _ hc1 hc2, er2,
      store_next_at _ _ _ _ _ h1 h2, hsplit, Option.bind_eq_bind, Option.some_bind, pure]
  · refine ⟨by rw [hb3]; exact h0, by rw [hb3]; exact hw, by rw [hh3, hb3]; exact hh, ?_, ?_⟩
    · intro hnil
      exact splitBlk_ne _ _ (List.append_eq_nil.mp (List.append_eq_nil.mp hnil).2).1
    · rw [hb3]
      have hs2 : Seg mem 0 base (l1 ++ ([b, c] ++ l2)) (base + 4096) := hs
      refine Seg_replace [b, c] hs2 (by simp) (splitBlk_ne _ _) ?_ ?_ ?_
      · rw [span_splitBlk]
        simp only [span]
        omega
      · have e1 : base + span l1 + span [b, c] = base + span l1 + 24 + b.size + 24 + c.size := by
          simp only [span]
          omega
        have e2 : base + span l1 + 24 + (b.size + 24 + c.size) =
            base + span l1 + 24 + b.size + 24 + c.size := by omega
        rw [e1]
        rw [e2] at hseg3
        exact hseg3
      · intro x hx
        simp only [span] at hx
        exact key x (by omega)

/-! ## Byte loops -/

theorem load8_at (base head : Nat) (mem : Nat → Nat) (a : Nat) (h1 : base ≤ a)
    (h2 : a + 1 ≤ base + 4096) : load8 ⟨base, head, mem⟩ a = some (rd8 mem a) := by
  simp only [load8, inArena, MEMORY_SIZE]
  rw [if_pos ⟨h1, h2⟩]

theorem store8_at (base head : Nat) (mem : Nat → Nat) (a v : Nat) (h1 : base ≤ a)
    (h2 : a + 1 ≤ base + 4096) :
    store8 ⟨base, head, mem⟩ a v = some ⟨base, head, wr8 mem a v⟩ := by
  simp only [store8, inArena, MEMORY_SIZE]
  rw [if_pos ⟨h1, h2⟩]

theorem store8_fault (base head : Nat) (mem : Nat → Nat) (a v : Nat)
    (h : ¬ (base ≤ a ∧ a + 1 ≤ base + 4096)) : store8 ⟨base, head, mem⟩ a v = none := by
  simp only [store8, inArena, MEMORY_SIZE]
  rw [if_neg h]

theorem copy_loop_spec (base head dst src : Nat) :
    ∀ (k : Nat) (mem : Nat → Nat) (i : Nat), base ≤ src + i → src + i + k ≤ base + 4096 →
      base ≤ dst + i → dst + i + k ≤ base + 4096 →
      ∃ m2, copy_loop dst src k ⟨base, head, mem⟩ i = some ⟨base, head, m2⟩ ∧
        (∀ x, (x < dst + i ∨ dst + i + k ≤ x) → m2 x = mem x) ∧
        ((dst + i + k ≤ src + i ∨ src + i + k ≤ dst + i) →
          ∀ j, j < k → rd8 m2 (dst + i + j) = rd8 mem (src + i + j)) := by
  intro k
  induction k with
  | zero =>
    intro mem i _ _ _ _
    exact ⟨mem, rfl, fun _ _ => rfl, fun _ j hj => absurd hj (Nat.not_lt_zero j)⟩
  | succ k ih =>
    intro mem i h1 h2 h3 h4
    obtain ⟨m2, hrun, hfr, hcp⟩ := ih (wr8 mem (dst + i) (rd8 mem (src + i))) (i + 1)
      (by omega) (by omega) (by omega) (by omega)
    refine ⟨m2, ?_, ?_, ?_⟩
    · simp only [copy_loop, load8_at _ _ _ _ h1 (show src + i + 1 ≤ _ by omega),
        store8_at _ _ _ _ _ h3 (show dst + i + 1 ≤ _ by omega), Option.bind_eq_bind,
        Option.some_bind]
      exact hrun
    · intro x hx
      rw [hfr x (by omega), wr8_other _ _ _ _ (by omega)]
    · intro hd j hj
      cases j with
      | zero =>
        have e1 : m2 (dst + i) = wr8 mem (dst + i) (rd8 mem (src + i)) (dst + i) :=
          hfr _ (by omega)
        rw [Nat.add_zero, Nat.add_zero, rd8_congr _ _ _ e1, rd8_wr8_same]
        exact Nat.mod_eq_of_lt (rd8_lt _ _)
      | succ j =>
        have e2 := hcp (by omega) j (by omega)
        have e3 : dst + i + (j + 1) = dst + (i + 1) + j := by omega
        have e4 : src + i + (j + 1) = src + (i + 1) + j := by omega
        rw [e3, e4, e2, rd8_wr8_ne _ _ _ _ (by omega)]

theorem zero_loop_spec (base head p : Nat) :
    ∀ (k : Nat) (mem : Nat → Nat) (i : Nat), base ≤ p + i → p + i + k ≤ base + 4096 →
      ∃ m2, zero_loop p k ⟨base, head, mem⟩ i = some ⟨base, head, m2⟩ ∧
        ∀ x, m2 x = if p + i ≤ x ∧ x < p + i + k then 0 else mem x := by
  intro k
  induction k with
  | zero =>
    intro mem i _ _
    refine ⟨mem, rfl, fun x => ?_⟩
    rw [if_neg (by omega)]
  | succ k ih =>
    intro mem i h1 h2
    obtain ⟨m2, hrun, hval⟩ := ih (wr8 mem (p + i) 0) (i + 1) (by omega) (by omega)
    refine ⟨m2, ?_, ?_⟩
    · simp only [zero_loop, store8_at _ _ _ _ _ h1 (show p + i + 1 ≤ _ by omega),
        Option.bind_eq_bind, Option.some_bind]
      exact hrun
    · intro x
      rw [hval x]
      by_cases hx : x = p + i
      · subst hx
        rw [if_neg (by omega), if_pos (by omega)]
        simp [wr8]
      · rw [wr8_other _ _ _ _ hx]
        by_cases hx2 : p + i ≤ x ∧ x < p + i + (k + 1)
        · rw [if_pos hx2, if_pos (by omega)]
        · rw [if_neg hx2, if_neg (by omega)]

theorem zero_loop_fault (base head p : Nat) :
    ∀ (k : Nat) (mem : Nat → Nat) (i : Nat), k ≠ 0 →
      ¬ (base ≤ p + i ∧ p + i + k ≤ base + 4096) →
      zero_loop p k ⟨base, head, mem⟩ i = none := by
  intro k
  induction k with
  | zero =>
    intro mem i hk _
    exact absurd rfl hk
  | succ k ih =>
    intro mem i _ hb
    by_cases h1 : base ≤ p + i ∧ p + i + 1 ≤ base + 4096
    · simp only [zero_loop, store8_at _ _ _ _ _ h1.1 h1.2, Option.bind_eq_bind,
        Option.some_bind]
      exact ih _ _ (by omega) (by omega)
    · simp only [zero_loop, store8_fault _ _ _ _ _ h1, Option.bind_eq_bind, Option.none_bind]

/-! ## `realloc`: the allocate, copy and release branch -/

theorem two_splits {l1 l2 k1 k2 : List Blk} {b f : Blk} (h : l1 ++ b :: l2 = k1 ++ f :: k2)
    (hne : b ≠ f) (ml : List Blk) (hml : span ml = span [f]) :
    ∃ j1 j2, k1 ++ (ml ++ k2) = j1 ++ b :: j2 ∧ span j1 = span l1 ∧
      (span l1 + 24 + b.size ≤ span k1 ∨ span k1 + 24 + f.size ≤ span l1) ∧
      ∀ c, c ∈ j1 ++ j2 → c ∈ l1 ++ l2 ∨ c ∈ ml := by
  rcases List.append_eq_append_iff.mp h with ⟨a, hk, hb⟩ | ⟨c, hl, hf⟩
  · rcases List.cons_eq_append_iff.mp hb with ⟨_, hbf⟩ | ⟨j, rfl, rfl⟩
    · exact absurd (List.cons.inj hbf).1.symm hne
    · refine ⟨l1, j ++ (ml ++ k2), by simp [hk], rfl, Or.inl ?_, ?_⟩
      · rw [hk, span_append]
        simp only [span]
        omega
      · intro c hc
        simp only [List.mem_append, List.mem_cons] at hc ⊢
        tauto
  · rcases List.cons_eq_append_iff.mp hf with ⟨_, hbf⟩ | ⟨j, rfl, rfl⟩
    · exact absurd (List.cons.inj hbf).1 hne
    · refine ⟨k1 ++ (ml ++ j), l2, by simp, ?_, Or.inr ?_, ?_⟩
      · rw [hl, span_append, span_append, span_append, hml]
        simp only [span]
        omega
      · rw [hl, span_append]
        simp only [span]
        omega
      · intro c hc
        subst hl
        simp only [List.mem_append, List.mem_cons] at hc ⊢
        tauto

theorem span_allocBlk (r : Nat) (f : Blk) : span (allocBlk r f) = span [f] := by
  rw [allocBlk, span_markHead, span_splitBlk]

theorem hdrByte_allocBlk {a r x : Nat} {f : Blk} {k2 : List Blk} (hr : r ≤ f.size)
    (h : hdrByte a (allocBlk r f ++ k2) x) : x < a + 24 ∨ a + 24 + r ≤ x := by
  rw [hdrByte_append, span_allocBlk] at h
  rcases h with h | h
  · unfold allocBlk splitBlk at h
    split at h
    · simp only [markHead, hdrByte, or_false] at h
      omega
    · simp only [markHead, hdrByte, or_false] at h
      omega
  · have := hdrByte_range h
    simp only [span] at this
    omega

theorem realloc_move_spec {s : State} {l1 l2 : List Blk} {b : Blk}
    (h : Rep s (l1 ++ b :: l2)) (hb0 : b.is_free = 0) (n : Nat) (hr : b.size < align8 n)
    (hg : ¬ canGrow (align8 n) b l2) :
    (realloc s (s.base + span l1 + 24) n = some (s, 0) ∧
      ∀ c ∈ l1 ++ b :: l2, ¬ fits (align8 n) c) ∨
    (∃ k1 f k2 j1 j2 s4, l1 ++ b :: l2 = k1 ++ f :: k2 ∧ (∀ c ∈ k1, ¬ fits (align8 n) c) ∧
      fits (align8 n) f ∧ k1 ++ (allocBlk (align8 n) f ++ k2) = j1 ++ b :: j2 ∧
      span j1 = span l1 ∧
      realloc s (s.base + span l1 + 24) n = some (s4, s.base + span k1 + 24) ∧
      Rep s4 (coalesceAll (j1 ++ ⟨b.size, 1⟩ :: j2)) ∧ s4.base = s.base ∧
      ∀ j, j < b.size →
        rd8 s4.mem (s.base + span k1 + 24 + j) = rd8 s.mem (s.base + span l1 + 24 + j)) := by
  have hn : n ≠ 0 := by
    intro h0
    subst h0
    have : align8 0 = 0 := by decide
    omega
  have hr0 : align8 n ≠ 0 := by omega
  obtain ⟨hhd, hsp⟩ := Rep_split h
  have hmid := (Seg_append.mp h.2.2.2.2).2
  have hmal := malloc_spec h (align8 n) hr0
  rw [align8_idem] at hmal
  have h0 := h.1
  have hw := h.2.1
  have hp : ¬ s.base + span l1 + 24 = 0 := by omega
  have esub : sub64 (s.base + span l1 + 24) HDR = s.base + span l1 := by
    simp only [sub64, HDR, W] at hw ⊢
    omega
  have hnr : ¬ align8 n ≤ b.size := by omega
  have hload : load_size s (s.base + span l1) = some b.size := by
    obtain ⟨base, head, mem⟩ := s
    rw [load_size_at _ _ _ _ (by simp only; omega) (by simp only at hsp ⊢; omega)]
    exact congrArg some hhd.1
  have hcan : can_grow s (s.base + span l1) (align8 n) = some false := by
    obtain ⟨base, head, mem⟩ := s
    rw [can_grow_eq base head mem _ _ (align8 n) b _ hmid (by simp only; omega) (le_refl _)
      (by simp only at h0 ⊢; omega)]
    exact congrArg some (decide_eq_false hg)
  rcases hmal with ⟨hm, hall⟩ | ⟨k1, f, k2, s2, hl, hall, hfit, hm, hrep2, hb2, hfr2⟩
  · left
    refine ⟨?_, hall⟩
    simp only [realloc, hp, hn, if_false, esub, hload, hnr, hcan, hm, Option.bind_eq_bind,
      Option.some_bind, pure, if_true, Bool.false_eq_true]
  · right
    have hne : b ≠ f := by
      intro hbf
      rw [← hbf] at hfit
      exact hfit.1 hb0
    obtain ⟨j1, j2, hj, hsj, hord, _⟩ := two_splits hl hne (allocBlk (align8 n) f)
      (span_allocBlk _ _)
    have hspk : s.base + span k1 + 24 + f.size + span k2 = s.base + 4096 := by
      have := Seg_span h.2.2.2.2
      rw [hl, span_append] at this
      simp only [span] at this
      omega
    have hrep2b := hrep2
    rw [hj] at hrep2
    obtain ⟨hhd2, hsp2⟩ := Rep_split hrep2
    obtain ⟨base2, head2, mem2⟩ := s2
    simp only at hb2 hfr2 hhd2 hsp2
    subst hb2
    have hp2 : ¬ s.base + span k1 + 24 = 0 := by omega
    have hload2 : load_size ⟨s.base, head2, mem2⟩ (s.base + span l1) = some b.size := by
      rw [load_size_at _ _ _ _ (by omega) (by omega), ← hsj]
      exact congrArg some hhd2.1
    obtain ⟨m3, hcopy, hfr3, hcp3⟩ := copy_loop_spec s.base head2 (s.base + span k1 + 24)
      (s.base + span l1 + 24) b.size mem2 0 (by omega) (by omega) (by omega)
      (by have := hfit.2; omega)
    have hrep3 : Rep ⟨s.base, head2, m3⟩ (j1 ++ b :: j2) := by
      refine ⟨hrep2.1, hrep2.2.1, hrep2.2.2.1, hrep2.2.2.2.1, ?_⟩
      refine Seg_congr_hdr (fun x hx => ?_) hrep2.2.2.2.2
      apply hfr3
      simp only at hx ⊢
      rw [← hj, hdrByte_append] at hx
      rcases hx with hx | hx
      · have := hdrByte_range hx
        omega
      · have := hdrByte_allocBlk hfit.2 hx
        omega
    obtain ⟨s4, hfree, hrep4, hb4, hfr4⟩ := free_spec hrep3
    simp only at hfree hb4 hfr4
    rw [hsj] at hfree
    refine ⟨k1, f, k2, j1, j2, s4, hl, hall, hfit, hj, hsj, ?_, hrep4, hb4, ?_⟩
    · simp only [realloc, hp, hn, if_false, esub, hload, hnr, hcan, hm, Option.bind_eq_bind,
        Option.some_bind, pure, hp2, hload2, hr, if_true, hcopy, hfree, Bool.false_eq_true]
    · intro j hj2
      have hx : ¬ hdrByte s.base (j1 ++ b :: j2) (s.base + span k1 + 24 + j) := by
        intro hx
        rw [← hj, hdrByte_append] at hx
        rcases hx with hx | hx
        · have := hdrByte_range hx
          omega
        · have := hdrByte_allocBlk hfit.2 hx
          omega
      have hfs := hfit.2
      have e1 := hcp3 (by omega) j hj2
      simp only [Nat.add_zero] at e1
      rw [rd8_congr _ _ _ (hfr4 _ hx), e1]
      exact rd8_congr _ _ _ (hfr2 _ (by omega))

/-! ## Live pointers -/

theorem layout_map (t : Nat) (l : List Blk) (a : Nat) : (layout t a l).map toBlk = l := by
  induction l generalizing a with
  | nil => rfl
  | cons b l ih => simp [layout, toBlk, ih]

theorem mem_layout {t : Nat} {l : List Blk} {a : Nat} {x : Block} :
    x ∈ layout t a l ↔ ∃ l1 b l2, l = l1 ++ b :: l2 ∧
      x = ⟨a + span l1, b.size, b.is_free, nextPtr t (a + span l1 + 24 + b.size) l2⟩ := by
  induction l generalizing a with
  | nil => simp [layout]
  | cons c l ih =>
    simp only [layout, List.mem_cons, ih]
    constructor
    · rintro (rfl | ⟨l1, b, l2, rfl, rfl⟩)
      · exact ⟨[], c, l, rfl, by simp [span]⟩
      · refine ⟨c :: l1, b, l2, rfl, ?_⟩
        have e : a + span (c :: l1) = a + 24 + c.size + span l1 := by
          simp only [span]
          omega
        rw [e]
    · rintro ⟨l1, b, l2, hl, rfl⟩
      cases l1 with
      | nil =>
        left
        obtain ⟨rfl, rfl⟩ := List.cons.inj hl
        simp [span]
      | cons d l1 =>
        right
        obtain ⟨rfl, rfl⟩ := List.cons.inj hl
        refine ⟨l1, b, l2, rfl, ?_⟩
        have e : a + span (c :: l1) = a + 24 + c.size + span l1 := by
          simp only [span]
          omega
        rw [e]

theorem Live_iff {s : State} {l : List Blk} (h : Rep s l) (p : Nat) :
    Live s p ↔ ∃ l1 b l2, l = l1 ++ b :: l2 ∧ b.is_free = 0 ∧ p = s.base + span l1 + 24 := by
  unfold Live
  rw [Rep_blocks h]
  constructor
  · rintro ⟨x, hx, hf, rfl⟩
    obtain ⟨l1, b, l2, hl, rfl⟩ := mem_layout.mp hx
    exact ⟨l1, b, l2, hl, hf, rfl⟩
  · rintro ⟨l1, b, l2, hl, hf, rfl⟩
    exact ⟨_, mem_layout.mpr ⟨l1, b, l2, hl, rfl⟩, hf, rfl⟩

/-! ## Every call is a step on the chain -/

theorem malloc_step {s : State} {l : List Blk} (h : Rep s l) (n : Nat) :
    ∃ s2 p l2, malloc s n = some (s2, p) ∧ Rep s2 l2 ∧ AbsStep l l2 ∧ s2.base = s.base ∧
      (p = 0 ∨ ∃ l1 b l3, l = l1 ++ b :: l3 ∧ p = s.base + span l1 + 24) := by
  by_cases hn : n = 0
  · refine ⟨s, 0, l, ?_, h, AbsStep.refl l, rfl, Or.inl rfl⟩
    simp [malloc, hn]
  · rcases malloc_spec h n hn with ⟨hm, _⟩ | ⟨l1, b, l2, s2, rfl, _, hfit, hm, hrep, hb, _⟩
    · exact ⟨s, 0, l, hm, h, AbsStep.refl l, rfl, Or.inl rfl⟩
    · exact ⟨s2, _, _, hm, hrep, AbsStep.alloc l1 b l2 _ (align8_mod n) hfit, hb,
        Or.inr ⟨l1, b, l2, rfl, rfl⟩⟩

theorem free_step {s : State} {l : List Blk} (h : Rep s l) (p : Nat) (hp : ValidPtr s p) :
    ∃ s2 l2, free s p = some s2 ∧ Rep s2 l2 ∧ AbsStep l l2 ∧ s2.base = s.base := by
  rcases hp with rfl | hp
  · exact ⟨s, l, by simp [free], h, AbsStep.refl l, rfl⟩
  · obtain ⟨l1, b, l2, rfl, _, rfl⟩ := (Live_iff h p).mp hp
    obtain ⟨s2, hf, hrep, hb, _⟩ := free_spec h
    exact ⟨s2, _, hf, hrep, AbsStep.release l1 b l2, hb⟩

theorem realloc_step {s : State} {l : List Blk} (h : Rep s l) (p n : Nat)
    (hp : ValidPtr s p) :
    ∃ s2 q l2, realloc s p n = some (s2, q) ∧ Rep s2 l2 ∧ AbsStep l l2 ∧ s2.base = s.base := by
  rcases hp with rfl | hp
  · obtain ⟨s2, q, l2, hm, hrep, hst, hb, _⟩ := malloc_step h n
    exact ⟨s2, q, l2, by simpa [realloc] using hm, hrep, hst, hb⟩
  · obtain ⟨l1, b, l2, rfl, hb0, rfl⟩ := (Live_iff h p).mp hp
    have hp0 : ¬ s.base + span l1 + 24 = 0 := by omega
    by_cases hn : n = 0
    · obtain ⟨s2, hf, hrep, hb, _⟩ := free_spec h
      refine ⟨s2, 0, _, ?_, hrep, AbsStep.release l1 b l2, hb⟩
      simp only [realloc, hp0, hn, if_false, if_true, hf, Option.bind_eq_bind,
        Option.some_bind, pure]
    · by_cases hr : align8 n ≤ b.size
      · obtain ⟨s2, hre, hrep, hb, _⟩ := realloc_shrink_spec h n hn hr
        exact ⟨s2, _, _, hre, hrep, AbsStep.shrink l1 b l2 _ (align8_mod n) hr, hb⟩
      · by_cases hg : canGrow (align8 n) b l2
        · cases l2 with
          | nil => exact absurd hg (by simp [canGrow])
          | cons c l2 =>
            obtain ⟨s2, hre, hrep, hb, _⟩ := realloc_grow_spec h n hn (by omega) hg
            exact ⟨s2, _, _, hre, hrep, AbsStep.grow l1 b c l2 _ (align8_mod n) hg.2, hb⟩
        · rcases realloc_move_spec h hb0 n (by omega) hg with
            ⟨hre, _⟩ | ⟨k1, f, k2, j1, j2, s4, hl, _, hfit, hj, _, hre, hrep, hb, _⟩
          · exact ⟨s, 0, _, hre, h, AbsStep.refl _, rfl⟩
          · refine ⟨s4, _, _, hre, hrep, ?_, hb⟩
            refine AbsStep.trans _ (k1 ++ (allocBlk (align8 n) f ++ k2)) _ ?_ ?_
            · rw [hl]
              exact AbsStep.alloc k1 f k2 _ (align8_mod n) hfit
            · rw [hj]
              exact AbsStep.release j1 b j2

/-! ## `calloc` -/

theorem align8_ge (n : Nat) (h : n + 7 < W) : n ≤ align8 n := by
  rw [align8_small n h]
  omega

theorem calloc_total_eq {num size : Nat}
    (hrej : ¬ (size ≠ 0 ∧ mul64 num size / size ≠ num)) : mul64 num size = num * size := by
  by_cases hs : size = 0
  · subst hs
    simp [mul64]
  · have h1 : mul64 num size / size = num := by
      by_contra hne
      exact hrej ⟨hs, hne⟩
    have h2 : mul64 num size < W := Nat.mod_lt _ (by decide)
    have h3 := Nat.div_mul_le_self (mul64 num size) size
    rw [h1] at h3
    unfold mul64
    exact Nat.mod_eq_of_lt (by omega)

theorem calloc_cases {s s2 : State} {num size p : Nat}
    (hc : calloc s num size = some (s2, p)) :
    ((size ≠ 0 ∧ mul64 num size / size ≠ num) ∧ s2 = s ∧ p = 0) ∨
    (¬ (size ≠ 0 ∧ mul64 num size / size ≠ num) ∧
      ((malloc s (mul64 num size) = some (s2, 0) ∧ p = 0) ∨
        (p ≠ 0 ∧ ∃ s1, malloc s (mul64 num size) = some (s1, p) ∧
          zero_loop p (mul64 num size) s1 0 = some s2))) := by
  unfold calloc at hc
  simp only at hc
  by_cases hrej : size ≠ 0 ∧ mul64 num size / size ≠ num
  · left
    rw [if_pos hrej] at hc
    obtain ⟨rfl, rfl⟩ := Prod.mk.inj (Option.some.inj hc)
    exact ⟨hrej, rfl, rfl⟩
  · right
    refine ⟨hrej, ?_⟩
    rw [if_neg hrej] at hc
    cases hm : malloc s (mul64 num size) with
    | none => simp [hm] at hc
    | some r =>
      obtain ⟨s1, p1⟩ := r
      simp only [hm, Option.bind_eq_bind, Option.some_bind] at hc
      by_cases hp1 : p1 = 0
      · left
        subst hp1
        simp only [ne_eq, not_true_eq_false, if_false, pure] at hc
        obtain ⟨rfl, rfl⟩ := Prod.mk.inj (Option.some.inj hc)
        exact ⟨rfl, rfl⟩
      · right
        simp only [ne_eq, hp1, not_false_eq_true, if_true] at hc
        cases hz : zero_loop p1 (mul64 num size) s1 0 with
        | none => simp [hz] at hc
        | some s3 =>
          simp only [hz, Option.some_bind, pure] at hc
          obtain ⟨rfl, rfl⟩ := Prod.mk.inj (Option.some.inj hc)
          exact ⟨hp1, s1, rfl, hz⟩

theorem calloc_spec {s s2 : State} {l : List Blk} {num size p : Nat} (h : Rep s l)
    (hc : calloc s num size = some (s2, p)) :
    (p = 0 ∧ s2 = s) ∨
    (p ≠ 0 ∧ ¬ (size ≠ 0 ∧ mul64 num size / size ≠ num) ∧
      ∃ s1 l1 b l3, malloc s (mul64 num size) = some (s1, p) ∧ l = l1 ++ b :: l3 ∧
        fits (align8 (mul64 num size)) b ∧ mul64 num size ≤ align8 (mul64 num size) ∧
        p = s.base + span l1 + 24 ∧
        Rep s1 (l1 ++ (allocBlk (align8 (mul64 num size)) b ++ l3)) ∧
        Rep s2 (l1 ++ (allocBlk (align8 (mul64 num size)) b ++ l3)) ∧ s1.base = s.base ∧
        s2.base = s.base ∧ ∀ i, i < mul64 num size → rd8 s2.mem (p + i) = 0) := by
  have hbase := h.1
  rcases calloc_cases hc with ⟨_, rfl, rfl⟩ | ⟨hrej, ⟨hm, rfl⟩ | ⟨hp, s1, hm, hz⟩⟩
  · exact Or.inl ⟨rfl, rfl⟩
  · left
    refine ⟨rfl, ?_⟩
    by_cases ht : mul64 num size = 0
    · rw [ht] at hm
      simp only [malloc, if_true] at hm
      exact (Prod.mk.inj (Option.some.inj hm)).1.symm
    · rcases malloc_spec h _ ht with ⟨hm2, _⟩ | ⟨l1, b, l2, s3, _, _, _, hm2, _⟩
      · rw [hm2] at hm
        exact (Prod.mk.inj (Option.some.inj hm)).1.symm
      · rw [hm2] at hm
        have := (Prod.mk.inj (Option.some.inj hm)).2
        omega
  · right
    refine ⟨hp, hrej, ?_⟩
    have ht : mul64 num size ≠ 0 := by
      intro ht
      rw [ht] at hm
      simp only [malloc, if_true] at hm
      exact hp (Prod.mk.inj (Option.some.inj hm)).2.symm
    rcases malloc_spec h _ ht with ⟨hm2, _⟩ | ⟨l1, b, l3, s3, hl, _, hfit, hm2, hrep, hb3, _⟩
    · rw [hm2] at hm
      exact absurd (Prod.mk.inj (Option.some.inj hm)).2.symm hp
    · rw [hm2] at hm
      obtain ⟨rfl, rfl⟩ := Prod.mk.inj (Option.some.inj hm)
      obtain ⟨base3, head3, mem3⟩ := s3
      simp only at hb3
      subst hb3
      have hsp := Seg_span hrep.2.2.2.2
      rw [span_append, span_append, span_allocBlk] at hsp
      simp only [span] at hsp
      by_cases hin : s.base ≤ s.base + span l1 + 24 + 0 ∧
          s.base + span l1 + 24 + 0 + mul64 num size ≤ s.base + 4096
      · obtain ⟨m2, hrun, hval⟩ := zero_loop_spec s.base head3 (s.base + span l1 + 24)
          (mul64 num size) mem3 0 hin.1 hin.2
        rw [hrun] at hz
        have hs2 := Option.some.inj hz
        subst hs2
        have hge : mul64 num size ≤ align8 (mul64 num size) := by
          apply align8_ge
          simp only [W]
          omega
        have hfs := hfit.2
        refine ⟨_, l1, b, l3, hm2, hl, hfit, hge, rfl, hrep, ?_, rfl, rfl, ?_⟩
        · refine ⟨hrep.1, hrep.2.1, hrep.2.2.1, hrep.2.2.2.1, ?_⟩
          refine Seg_congr_hdr (fun x hx => ?_) hrep.2.2.2.2
          simp only at hx ⊢
          rw [hval x, if_neg]
          rw [hdrByte_append] at hx
          rcases hx with hx | hx
          · have := hdrByte_range hx
            omega
          · have := hdrByte_allocBlk hfit.2 hx
            omega
        · intro i hi
          simp only [rd8]
          rw [hval, if_pos (by omega)]
      · rw [zero_loop_fault _ _ _ _ _ _ ht hin] at hz
        exact absurd hz (by simp)

/-! ## `calloc` returns -/

theorem calloc_reject_of_overflow {num size : Nat} (h : W ≤ num * size) :
    size ≠ 0 ∧ mul64 num size / size ≠ num := by
  by_contra hrej
  have h1 := calloc_total_eq hrej
  have h2 : mul64 num size < W := Nat.mod_lt _ (by decide)
  omega

theorem calloc_accept_of_small {num size : Nat} (h : num * size < W) :
    ¬ (size ≠ 0 ∧ mul64 num size / size ≠ num) := by
  rintro ⟨hs, hne⟩
  apply hne
  unfold mul64
  rw [Nat.mod_eq_of_lt h]
  exact Nat.mul_div_cancel _ (Nat.pos_of_ne_zero hs)

theorem calloc_returns {s : State} {l : List Blk} (h : Rep s l) (num size : Nat)
    (hr : W ≤ num * size ∨ num * size + 7 < W) :
    ∃ s2 p, calloc s num size = some (s2, p) ∧
      (p ≠ 0 ↔ num * size ≠ 0 ∧ num * size < W ∧ ∃ b ∈ l, fits (align8 (num * size)) b) := by
  rcases hr with hr | hr
  · have hrej := calloc_reject_of_overflow hr
    refine ⟨s, 0, ?_, ?_⟩
    · unfold calloc
      simp only
      rw [if_pos hrej]
    · constructor
      · intro h0
        exact absurd rfl h0
      · rintro ⟨_, hlt, _⟩
        omega
  · have hlt : num * size < W := by omega
    have hrej := calloc_accept_of_small hlt
    have ht : mul64 num size = num * size := calloc_total_eq hrej
    by_cases h0 : num * size = 0
    · refine ⟨s, 0, ?_, ?_⟩
      · unfold calloc
        simp only
        rw [if_neg hrej, ht, h0]
        simp [malloc]
      · constructor
        · intro hp
          exact absurd rfl hp
        · rintro ⟨hne, _⟩
          exact absurd h0 hne
    · rcases malloc_spec h _ h0 with ⟨hm, hall⟩ | ⟨l1, b, l2, s2, hl, _, hfit, hm, hrep, hb, _⟩
      · refine ⟨s, 0, ?_, ?_⟩
        · unfold calloc
          simp only
          rw [if_neg hrej, ht, hm]
          simp
        · constructor
          · intro hp
            exact absurd rfl hp
          · rintro ⟨_, _, b, hb, hfit⟩
            exact absurd hfit (hall b hb)
      · have hge := align8_ge (num * size) hr
        have hfs := hfit.2
        subst hl
        have hsp := (Rep_split h).2
        obtain ⟨base2, head2, mem2⟩ := s2
        simp only at hb
        subst hb
        obtain ⟨m3, hrun, _⟩ := zero_loop_spec s.base head2 (s.base + span l1 + 24)
          (num * size) mem2 0 (by omega) (by omega)
        have hbase := h.1
        refine ⟨⟨s.base, head2, m3⟩, s.base + span l1 + 24, ?_, ?_⟩
        · unfold calloc
          simp only
          rw [if_neg hrej, ht, hm]
          have hp : s.base + span l1 + 24 ≠ 0 := by omega
          simp only [Option.bind_eq_bind, Option.some_bind, ne_eq, hp, not_false_eq_true,
            if_true, hrun, pure]
        · constructor
          · intro _
            exact ⟨h0, hlt, b, by simp, hfit⟩
          · intro _
            omega

/-! ## Facts about the observed chain -/

theorem layout_append (t : Nat) (l1 l2 : List Blk) (a : Nat) :
    layout t a (l1 ++ l2) =
      layout (nextPtr t (a + span l1) l2) a l1 ++ layout t (a + span l1) l2 := by
  induction l1 generalizing a with
  | nil => simp [layout, span]
  | cons b l1 ih =>
    have e1 : a + span (b :: l1) = a + 24 + b.size + span l1 := by
      simp only [span]
      omega
    rw [e1]
    simp only [List.cons_append, layout, List.append_eq, ih, nextPtr_append]

theorem toBlk_mem_of_layout {t a : Nat} {l : List Blk} {x : Block} (h : x ∈ layout t a l) :
    toBlk x ∈ l := by
  have := List.mem_map_of_mem toBlk h
  rwa [layout_map] at this

theorem layout_sum (t : Nat) (l : List Blk) (a : Nat) :
    ((layout t a l).map fun b => HDR + b.size).sum = span l := by
  induction l generalizing a with
  | nil => rfl
  | cons b l ih => simp [layout, span, ih, HDR]

theorem allocBlk_cons (r : Nat) (b : Blk) :
    ∃ sz rest, allocBlk r b = ⟨sz, 0⟩ :: rest ∧ (sz = r ∨ sz = b.size) := by
  unfold allocBlk splitBlk
  split
  · exact ⟨b.size, [], rfl, Or.inr rfl⟩
  · exact ⟨r, _, rfl, Or.inl rfl⟩

theorem WF_sum {s : State} (h : WF s) :
    ((blocks s).map fun b => HDR + b.size).sum = MEMORY_SIZE := by
  obtain ⟨l, hr⟩ := Rep_of_WF h
  rw [Rep_blocks hr, layout_sum]
  have := Seg_span hr.2.2.2.2
  simp only [MEMORY_SIZE]
  omega

theorem malloc_exhausted_no_wrap (s : State) (n : Nat) (hwf : WF s) (hn : n + 7 < W)
    (hex : freeCapacity s < n) : malloc s n = some (s, 0) := by
  obtain ⟨l, hr⟩ := Rep_of_WF hwf
  have h0 : n ≠ 0 := by omega
  rcases malloc_spec hr n h0 with ⟨hm, _⟩ | ⟨l1, b, l2, s2, hl, _, hfit, _⟩
  · exact hm
  · exfalso
    have hmem : (⟨s.base + span l1, b.size, b.is_free,
        nextPtr 0 (s.base + span l1 + 24 + b.size) l2⟩ : Block) ∈ blocks s := by
      rw [Rep_blocks hr]
      exact mem_layout.mpr ⟨l1, b, l2, hl, rfl⟩
    have hsum : b.size ≤ freeCapacity s := by
      unfold freeCapacity
      apply List.le_sum_of_mem
      refine List.mem_map.mpr ⟨_, List.mem_filter.mpr ⟨hmem, ?_⟩, rfl⟩
      simpa using hfit.1
    have := align8_ge n hn
    have := hfit.2
    omega

/-! ## Sizes stay multiples of 8 -/

theorem Sz8_append {l1 l2 : List Blk} : Sz8 (l1 ++ l2) ↔ Sz8 l1 ∧ Sz8 l2 := by
  simp only [Sz8, List.mem_append]
  constructor
  · exact fun h => ⟨fun b hb => h b (Or.inl hb), fun b hb => h b (Or.inr hb)⟩
  · rintro ⟨h1, h2⟩ b (hb | hb)
    · exact h1 b hb
    · exact h2 b hb

theorem Sz8_cons {b : Blk} {l : List Blk} : Sz8 (b :: l) ↔ b.size % 8 = 0 ∧ Sz8 l := by
  simp [Sz8]

theorem Sz8_splitBlk {r : Nat} {b : Blk} (hr : r % 8 = 0) (hb : b.size % 8 = 0) :
    Sz8 (splitBlk r b) := by
  unfold splitBlk
  split
  · exact Sz8_cons.mpr ⟨hb, by simp [Sz8]⟩
  · refine Sz8_cons.mpr ⟨hr, Sz8_cons.mpr ⟨?_, by simp [Sz8]⟩⟩
    show (b.size - r - 24) % 8 = 0
    omega

theorem Sz8_markHead {v : Nat} {l : List Blk} (h : Sz8 l) : Sz8 (markHead v l) := by
  cases l with
  | nil => exact h
  | cons b l =>
    rw [Sz8_cons] at h
    exact Sz8_cons.mpr ⟨h.1, h.2⟩

theorem Sz8_coalesce {l : List Blk} : ∀ {b : Blk}, Sz8 (b :: l) → Sz8 (coalesce b l) := by
  induction l with
  | nil =>
    intro b h
    exact h
  | cons c l ih =>
    intro b h
    obtain ⟨hb, hc, hl⟩ := Sz8_cons.mp h |>.imp_right Sz8_cons.mp
    simp only [coalesce]
    split
    · apply ih
      refine Sz8_cons.mpr ⟨?_, hl⟩
      show (b.size + 24 + c.size) % 8 = 0
      omega
    · exact Sz8_cons.mpr ⟨hb, ih (Sz8_cons.mpr ⟨hc, hl⟩)⟩

theorem Sz8_coalesceAll {l : List Blk} (h : Sz8 l) : Sz8 (coalesceAll l) := by
  cases l with
  | nil => exact h
  | cons b l => exact Sz8_coalesce h

theorem AbsStep_Sz8 {l l2 : List Blk} (h : AbsStep l l2) : Sz8 l → Sz8 l2 := by
  induction h with
  | refl l => exact id
  | alloc l1 b l2 r hr hfit =>
    intro h
    obtain ⟨h1, h2⟩ := Sz8_append.mp h
    obtain ⟨hb, h3⟩ := Sz8_cons.mp h2
    exact Sz8_append.mpr ⟨h1, Sz8_append.mpr ⟨Sz8_markHead (Sz8_splitBlk hr hb), h3⟩⟩
  | release l1 b l2 =>
    intro h
    obtain ⟨h1, h2⟩ := Sz8_append.mp h
    obtain ⟨hb, h3⟩ := Sz8_cons.mp h2
    exact Sz8_coalesceAll (Sz8_append.mpr ⟨h1, Sz8_cons.mpr ⟨hb, h3⟩⟩)
  | shrink l1 b l2 r hr hle =>
    intro h
    obtain ⟨h1, h2⟩ := Sz8_append.mp h
    obtain ⟨hb, h3⟩ := Sz8_cons.mp h2
    exact Sz8_append.mpr ⟨h1, Sz8_append.mpr ⟨Sz8_splitBlk hr hb, h3⟩⟩
  | grow l1 b c l2 r hr hle =>
    intro h
    obtain ⟨h1, h2⟩ := Sz8_append.mp h
    obtain ⟨hb, h3⟩ := Sz8_cons.mp h2
    obtain ⟨hc, h4⟩ := Sz8_cons.mp h3
    refine Sz8_append.mpr ⟨h1, Sz8_append.mpr ⟨Sz8_splitBlk hr ?_, h4⟩⟩
    show (b.size + 24 + c.size) % 8 = 0
    omega
  | trans l l2 l3 _ _ ih1 ih2 => exact fun h => ih2 (ih1 h)

theorem span_Sz8 {l : List Blk} (h : Sz8 l) : span l % 8 = 0 := by
  induction l with
  | nil => rfl
  | cons b l ih =>
    obtain ⟨hb, hl⟩ := Sz8_cons.mp h
    have := ih hl
    simp only [span]
    omega

/-! ## The first call -/

theorem blocks_uninit {s : State} (h : s.head = 0) : blocks s = [] := by
  simp [blocks, h, walk_null]

theorem not_Live_uninit {s : State} (h : s.head = 0) (p : Nat) : ¬ Live s p := by
  simp [Live, blocks_uninit h]

theorem initState_head (s : State) (h0 : 0 < s.base) : (initState s).head ≠ 0 := by
  simp only [initState]
  omega

theorem malloc_uninit {s : State} (hh : s.head = 0) (h0 : 0 < s.base) {n : Nat} (hn : n ≠ 0) :
    malloc s n = malloc (initState s) n := by
  have h1 := initState_head s h0
  simp only [malloc, hn, if_false, hh, if_true, init_allocator_eq s hh, h1,
    Option.bind_eq_bind, Option.some_bind, pure]

theorem malloc_from_uninit {s s2 : State} {n p : Nat} (hh : s.head = 0) (h0 : 0 < s.base)
    (hm : malloc s n = some (s2, p)) :
    (s2 = s ∧ p = 0 ∧ n = 0) ∨ (n ≠ 0 ∧ malloc (initState s) n = some (s2, p)) := by
  by_cases hn : n = 0
  · left
    subst hn
    simp only [malloc, if_true] at hm
    obtain ⟨rfl, rfl⟩ := Prod.mk.inj (Option.some.inj hm)
    exact ⟨rfl, rfl, rfl⟩
  · right
    rw [malloc_uninit hh h0 hn] at hm
    exact ⟨hn, hm⟩

/-! ## Reachable states -/

theorem calloc_step {s s2 : State} {l : List Blk} {num size p : Nat} (h : Rep s l)
    (hc : calloc s num size = some (s2, p)) :
    ∃ l2, Rep s2 l2 ∧ AbsStep l l2 ∧ s2.base = s.base ∧
      (p = 0 ∨ ∃ l1 b l3, l = l1 ++ b :: l3 ∧ p = s.base + span l1 + 24) := by
  rcases calloc_spec h hc with
    ⟨hp, rfl⟩ | ⟨_, _, s1, l1, b, l3, _, hl, hfit, _, hp, _, hrep, _, hb, _⟩
  · exact ⟨l, h, AbsStep.refl l, rfl, Or.inl hp⟩
  · refine ⟨_, hrep, ?_, hb, Or.inr ⟨l1, b, l3, hl, hp⟩⟩
    rw [hl]
    exact AbsStep.alloc l1 b l3 _ (align8_mod _) hfit

theorem reachable_inv {base : Nat} (hb : 0 < base) (hw : base + 4096 < W) {s : State}
    (h : Reachable base s) : s.base = base ∧ (s.head = 0 ∨ ∃ l, Rep s l ∧ Sz8 l) := by
  have hfresh : ∀ s0 : State, s0.base = base → s0.head = 0 →
      Rep (initState s0) [⟨4072, 1⟩] ∧ Sz8 [⟨4072, 1⟩] := by
    intro s0 hb0 _
    refine ⟨Rep_initState s0 (by omega) (by simp only [W] at hw ⊢; omega), ?_⟩
    simp [Sz8]
  induction h with
  | start => exact ⟨rfl, Or.inl rfl⟩
  | @by_malloc s s2 n p _ _ hm ih =>
    obtain ⟨hbs, hcase⟩ := ih
    have key : ∀ (t : State) (l : List Blk), t.base = base → Rep t l → Sz8 l →
        malloc t n = some (s2, p) → s2.base = base ∧ ∃ l2, Rep s2 l2 ∧ Sz8 l2 := by
      intro t l htb hrep hsz hmt
      obtain ⟨s3, q, l2, hm2, hrep2, hst, hb2, _⟩ := malloc_step hrep n
      rw [hm2] at hmt
      obtain ⟨rfl, rfl⟩ := Prod.mk.inj (Option.some.inj hmt)
      exact ⟨by rw [hb2, htb], l2, hrep2, AbsStep_Sz8 hst hsz⟩
    rcases hcase with hh | ⟨l, hrep, hsz⟩
    · by_cases hn : n = 0
      · subst hn
        simp only [malloc, if_true] at hm
        obtain ⟨rfl, rfl⟩ := Prod.mk.inj (Option.some.inj hm)
        exact ⟨hbs, Or.inl hh⟩
      · rw [malloc_uninit hh (by omega) hn] at hm
        obtain ⟨hr0, hs0⟩ := hfresh s hbs hh
        obtain ⟨h1, h2⟩ := key (initState s) _ hbs hr0 hs0 hm
        exact ⟨h1, Or.inr h2⟩
    · obtain ⟨h1, h2⟩ := key s l hbs hrep hsz hm
      exact ⟨h1, Or.inr h2⟩
  | @by_calloc s s2 num size p _ _ _ hc ih =>
    obtain ⟨hbs, hcase⟩ := ih
    have key : ∀ (t : State) (l : List Blk), t.base = base → Rep t l → Sz8 l →
        calloc t num size = some (s2, p) → s2.base = base ∧ ∃ l2, Rep s2 l2 ∧ Sz8 l2 := by
      intro t l htb hrep hsz hct
      obtain ⟨l2, hrep2, hst, hb2, _⟩ := calloc_step hrep hct
      exact ⟨by rw [hb2, htb], l2, hrep2, AbsStep_Sz8 hst hsz⟩
    rcases hcase with hh | ⟨l, hrep, hsz⟩
    · obtain ⟨hr0, hs0⟩ := hfresh s hbs hh
      rcases calloc_cases hc with ⟨_, rfl, rfl⟩ | ⟨hrej, ⟨hm, rfl⟩ | ⟨hp, s1, hm, hz⟩⟩
      · exact ⟨hbs, Or.inl hh⟩
      · rcases malloc_from_uninit hh (by omega) hm with ⟨rfl, _, _⟩ | ⟨_, hm2⟩
        · exact ⟨hbs, Or.inl hh⟩
        · obtain ⟨s3, q, l2, hm3, hrep2, hst, hb2, _⟩ := malloc_step hr0 (mul64 num size)
          rw [hm3] at hm2
          obtain ⟨rfl, rfl⟩ := Prod.mk.inj (Option.some.inj hm2)
          exact ⟨by rw [hb2]; exact hbs, Or.inr ⟨l2, hrep2, AbsStep_Sz8 hst hs0⟩⟩
      · rcases malloc_from_uninit hh (by omega) hm with ⟨_, hp0, _⟩ | ⟨_, hm2⟩
        · exact absurd hp0 hp
        · have hc2 : calloc (initState s) num size = some (s2, p) := by
            simp only [calloc, hrej, if_false, hm2, Option.bind_eq_bind, Option.some_bind,
              ne_eq, hp, not_false_eq_true, if_true, hz, pure]
          obtain ⟨h1, h2⟩ := key (initState s) _ hbs hr0 hs0 hc2
          exact ⟨h1, Or.inr h2⟩
    · obtain ⟨h1, h2⟩ := key s l hbs hrep hsz hc
      exact ⟨h1, Or.inr h2⟩
  | @by_free s s2 p _ hp hf ih =>
    obtain ⟨hbs, hcase⟩ := ih
    rcases hcase with hh | ⟨l, hrep, hsz⟩
    · rcases hp with rfl | hp
      · simp only [free, if_true] at hf
        rw [← Option.some.inj hf]
        exact ⟨hbs, Or.inl hh⟩
      · exact absurd hp (not_Live_uninit hh p)
    · obtain ⟨s3, l2, hf2, hrep2, hst, hb2⟩ := free_step hrep p hp
      rw [hf2] at hf
      rw [← Option.some.inj hf]
      exact ⟨by rw [hb2, hbs], Or.inr ⟨l2, hrep2, AbsStep_Sz8 hst hsz⟩⟩
  | @by_realloc s s2 p n q _ hp _ hre ih =>
    obtain ⟨hbs, hcase⟩ := ih
    rcases hcase with hh | ⟨l, hrep, hsz⟩
    · rcases hp with rfl | hp
      · simp only [realloc, if_true] at hre
        by_cases hn : n = 0
        · subst hn
          simp only [malloc, if_true] at hre
          obtain ⟨rfl, rfl⟩ := Prod.mk.inj (Option.some.inj hre)
          exact ⟨hbs, Or.inl hh⟩
        · rw [malloc_uninit hh (by omega) hn] at hre
          obtain ⟨hr0, hs0⟩ := hfresh s hbs hh
          obtain ⟨s3, q2, l2, hm2, hrep2, hst, hb2, _⟩ := malloc_step hr0 n
          rw [hm2] at hre
          obtain ⟨rfl, rfl⟩ := Prod.mk.inj (Option.some.inj hre)
          exact ⟨by rw [hb2]; exact hbs, Or.inr ⟨l2, hrep2, AbsStep_Sz8 hst hs0⟩⟩
      · exact absurd hp (not_Live_uninit hh p)
    · obtain ⟨s3, q2, l2, hre2, hrep2, hst, hb2⟩ := realloc_step hrep p n hp
      rw [hre2] at hre
      obtain ⟨rfl, rfl⟩ := Prod.mk.inj (Option.some.inj hre)
      exact ⟨by rw [hb2, hbs], Or.inr ⟨l2, hrep2, AbsStep_Sz8 hst hsz⟩⟩

/-! ## Positions of the blocks -/

theorem layout_bounds {t a : Nat} {l : List Blk} {x : Block} (h : x ∈ layout t a l) :
    a ≤ x.addr ∧ x.addr + 24 + x.size ≤ a + span l := by
  obtain ⟨l1, b, l2, rfl, rfl⟩ := mem_layout.mp h
  rw [span_append]
  simp only [span]
  omega

theorem layout_pairwise (t : Nat) (l : List Blk) (a : Nat) :
    (layout t a l).Pairwise fun x y => x.addr + 24 + x.size ≤ y.addr := by
  induction l generalizing a with
  | nil => exact List.Pairwise.nil
  | cons b l ih =>
    simp only [layout]
    refine List.Pairwise.cons (fun y hy => ?_) (ih _)
    exact (layout_bounds hy).1

/-! ## Coalescing -/

theorem coalesce_head (l : List Blk) :
    ∀ b : Blk, ∃ sz rest, coalesce b l = ⟨sz, b.is_free⟩ :: rest := by
  induction l with
  | nil => exact fun b => ⟨b.size, [], rfl⟩
  | cons c l ih =>
    intro b
    simp only [coalesce]
    split
    · exact ih _
    · exact ⟨b.size, _, rfl⟩

theorem coalesce_chain (l : List Blk) :
    ∀ b : Blk, List.Chain' (fun x y : Blk => ¬ (x.is_free ≠ 0 ∧ y.is_free ≠ 0))
      (coalesce b l) := by
  induction l with
  | nil => exact fun b => List.chain'_singleton b
  | cons c l ih =>
    intro b
    simp only [coalesce]
    split
    · exact ih _
    · rename_i hnot
      obtain ⟨sz, rest, he⟩ := coalesce_head l c
      have := ih c
      rw [he] at this ⊢
      exact List.Chain'.cons hnot this

theorem NoAdjFree_layout {t a : Nat} {l : List Blk}
    (h : List.Chain' (fun x y : Blk => ¬ (x.is_free ≠ 0 ∧ y.is_free ≠ 0)) l) :
    NoAdjFree (layout t a l) := by
  unfold NoAdjFree
  have h2 := h
  rw [← layout_map t l a, List.chain'_map] at h2
  exact h2

theorem span_eq_zero {l : List Blk} (h : span l = 0) : l = [] := by
  cases l with
  | nil => rfl
  | cons b l =>
    simp only [span] at h
    omega

theorem prefix_unique {p1 p2 r1 r2 : List Blk} {x1 x2 : Blk}
    (h : p1 ++ x1 :: r1 = p2 ++ x2 :: r2) (hs : span p1 = span p2) :
    p1 = p2 ∧ x1 = x2 ∧ r1 = r2 := by
  rcases List.append_eq_append_iff.mp h with ⟨a, hp, hr⟩ | ⟨c, hp, hr⟩
  · rw [hp, span_append] at hs
    have ha := span_eq_zero (show span a = 0 by omega)
    subst ha
    simp only [List.append_nil, List.nil_append] at hp hr
    obtain ⟨h1, h2⟩ := List.cons.inj hr
    exact ⟨hp.symm, h1, h2⟩
  · rw [hp, span_append] at hs
    have hc := span_eq_zero (show span c = 0 by omega)
    subst hc
    simp only [List.append_nil, List.nil_append] at hp hr
    obtain ⟨h1, h2⟩ := List.cons.inj hr
    exact ⟨hp, h1.symm, h2.symm⟩

theorem layout_next {a : Nat} {l : List Blk} {x y : Block} (ha : 0 < a)
    (hx : x ∈ layout 0 a l) (hy : y ∈ layout 0 a l) (hxy : y.addr = x.next) :
    ∃ l1 l2, l = l1 ++ toBlk x :: toBlk y :: l2 := by
  obtain ⟨l1, bx, l2, hl, rfl⟩ := mem_layout.mp hx
  obtain ⟨k1, cy, k2, hk, rfl⟩ := mem_layout.mp hy
  simp only at hxy
  cases l2 with
  | nil =>
    simp only [nextPtr] at hxy
    omega
  | cons c l2 =>
    simp only [nextPtr] at hxy
    have h1 : (l1 ++ [bx]) ++ c :: l2 = k1 ++ cy :: k2 := by
      rw [← hk, hl]
      simp
    have h2 : span (l1 ++ [bx]) = span k1 := by
      rw [span_append]
      simp only [span]
      omega
    obtain ⟨_, h3, h4⟩ := prefix_unique h1 h2
    refine ⟨l1, l2, ?_⟩
    rw [hl, h3]
    rfl

/-! ## Blocks with their addresses -/

theorem addrs_append (l1 l2 : List Blk) (a : Nat) :
    addrs a (l1 ++ l2) = addrs a l1 ++ addrs (a + span l1) l2 := by
  induction l1 generalizing a with
  | nil => simp [addrs, span]
  | cons b l1 ih =>
    have e1 : a + span (b :: l1) = a + 24 + b.size + span l1 := by
      simp only [span]
      omega
    rw [e1]
    simp only [List.cons_append, addrs, List.append_eq, ih]

theorem layout_addrs (t : Nat) (l : List Blk) (a : Nat) :
    (layout t a l).map (fun x => (x.addr, toBlk x)) = addrs a l := by
  induction l generalizing a with
  | nil => rfl
  | cons b l ih =>
    simp only [layout, addrs, List.map_cons, ih]
    rfl

theorem mem_addrs_iff_blocks {s : State} {l : List Blk} (h : Rep s l) (a sz f : Nat) :
    (a, (⟨sz, f⟩ : Blk)) ∈ addrs s.base l ↔
      ∃ x ∈ blocks s, x.addr = a ∧ x.size = sz ∧ x.is_free = f := by
  rw [Rep_blocks h, ← layout_addrs 0 l s.base, List.mem_map]
  constructor
  · rintro ⟨x, hx, he⟩
    have h1 := (Prod.mk.inj he).1
    have h2 := (Prod.mk.inj he).2
    simp only [toBlk, Blk.mk.injEq] at h2
    exact ⟨x, hx, h1, h2.1, h2.2⟩
  · rintro ⟨x, hx, rfl, rfl, rfl⟩
    exact ⟨x, hx, rfl⟩

theorem mem_addrs_range {l : List Blk} {a : Nat} {x : Nat × Blk} (h : x ∈ addrs a l) :
    a ≤ x.1 ∧ x.1 + 24 + x.2.size ≤ a + span l := by
  induction l generalizing a with
  | nil => simp [addrs] at h
  | cons b l ih =>
    simp only [addrs, List.mem_cons] at h
    simp only [span]
    rcases h with rfl | h
    · simp only
      omega
    · have := ih h
      omega

theorem addrs_replace {a : Nat} {l1 : List Blk} (ml : List Blk) {ml2 l2 : List Blk}
    {x : Nat × Blk} (h : x ∈ addrs a (l1 ++ (ml ++ l2)))
    (hn : x ∉ addrs (a + span l1) ml) (hsp : span ml2 = span ml) :
    x ∈ addrs a (l1 ++ (ml2 ++ l2)) := by
  rw [addrs_append, addrs_append, List.mem_append, List.mem_append] at h ⊢
  rw [hsp]
  rcases h with h | h | h
  · exact Or.inl h
  · exact absurd h hn
  · exact Or.inr (Or.inr h)

theorem addrs_coalesce {l : List Blk} {x : Nat × Blk} (hx : x.2.is_free = 0) :
    ∀ (b : Blk) (a : Nat), x ∈ addrs a (b :: l) → x ∈ addrs a (coalesce b l) := by
  induction l with
  | nil => exact fun b a h => h
  | cons c l ih =>
    intro b a h
    simp only [coalesce]
    split
    · rename_i hboth
      apply ih
      simp only [addrs, List.mem_cons] at h ⊢
      rcases h with rfl | rfl | h
      · exact absurd hx hboth.1
      · exact absurd hx hboth.2
      · right
        have e : a + 24 + (b.size + 24 + c.size) = a + 24 + b.size + 24 + c.size := by omega
        rw [e]
        exact h
    · simp only [addrs, List.mem_cons] at h ⊢
      rcases h with rfl | h
      · exact Or.inl rfl
      · right
        apply ih
        simp only [addrs, List.mem_cons]
        exact h

theorem addrs_coalesceAll {l : List Blk} {x : Nat × Blk} {a : Nat} (hx : x.2.is_free = 0)
    (h : x ∈ addrs a l) : x ∈ addrs a (coalesceAll l) := by
  cases l with
  | nil => exact h
  | cons b l => exact addrs_coalesce hx b a h

theorem mem_addrs_split {l : List Blk} {a : Nat} {x : Nat × Blk} :
    x ∈ addrs a l ↔ ∃ l1 l2, l = l1 ++ x.2 :: l2 ∧ x.1 = a + span l1 := by
  induction l generalizing a with
  | nil => simp [addrs]
  | cons c l ih =>
    simp only [addrs, List.mem_cons, ih]
    constructor
    · rintro (rfl | ⟨l1, l2, rfl, hx⟩)
      · exact ⟨[], l, rfl, by simp [span]⟩
      · refine ⟨c :: l1, l2, rfl, ?_⟩
        simp only [span]
        omega
    · rintro ⟨l1, l2, hl, hx⟩
      cases l1 with
      | nil =>
        left
        obtain ⟨rfl, rfl⟩ := List.cons.inj hl
        simp only [span] at hx
        exact Prod.ext hx rfl
      | cons d l1 =>
        right
        obtain ⟨rfl, rfl⟩ := List.cons.inj hl
        refine ⟨l1, l2, rfl, ?_⟩
        simp only [span] at hx
        omega

theorem addrs_single_at {a : Nat} {l1 l2 : List Blk} {b : Blk} {x : Nat × Blk}
    (h : x ∈ addrs a (l1 ++ b :: l2)) (hx : x.1 = a + span l1) : x.2 = b := by
  obtain ⟨k1, k2, hl, hk⟩ := mem_addrs_split.mp h
  have := prefix_unique hl (by omega)
  exact this.2.1.symm

/-! ## Layout of a chain, one block at a time -/

theorem layout_cons_eq (t a : Nat) (b : Blk) (l : List Blk) :
    layout t a (b :: l) =
      ⟨a, b.size, b.is_free, nextPtr t (a + 24 + b.size) l⟩ :: layout t (a + 24 + b.size) l :=
  rfl


/-! ## Allocated blocks that a call does not name -/

theorem malloc_keeps {s : State} {l : List Blk} (h : Rep s l) (n : Nat) {x : Nat × Blk}
    (hx : x ∈ addrs s.base l) (hxa : x.2.is_free = 0) :
    ∃ s2 q l2, malloc s n = some (s2, q) ∧ Rep s2 l2 ∧ s2.base = s.base ∧
      x ∈ addrs s.base l2 := by
  by_cases hn : n = 0
  · exact ⟨s, 0, l, by simp [malloc, hn], h, rfl, hx⟩
  · rcases malloc_spec h n hn with ⟨hm, _⟩ | ⟨l1, b, l2, s2, rfl, _, hfit, hm, hrep, hb, _⟩
    · exact ⟨s, 0, l, hm, h, rfl, hx⟩
    · refine ⟨s2, _, _, hm, hrep, hb, ?_⟩
      refine addrs_replace [b] hx ?_ (span_allocBlk _ _)
      intro hmem
      simp only [addrs, List.mem_singleton] at hmem
      rw [hmem] at hxa
      exact hfit.1 hxa

theorem free_keeps {s : State} {l : List Blk} (h : Rep s l) (p : Nat) (hp : ValidPtr s p)
    {x : Nat × Blk} (hx : x ∈ addrs s.base l) (hxa : x.2.is_free = 0) (hne : x.1 + 24 ≠ p) :
    ∃ s2 l2, free s p = some s2 ∧ Rep s2 l2 ∧ s2.base = s.base ∧ x ∈ addrs s.base l2 := by
  rcases hp with rfl | hp
  · exact ⟨s, l, by simp [free], h, rfl, hx⟩
  · obtain ⟨l1, b, l2, rfl, _, rfl⟩ := (Live_iff h p).mp hp
    obtain ⟨s2, hf, hrep, hb, _⟩ := free_spec h
    refine ⟨s2, _, hf, hrep, hb, addrs_coalesceAll hxa ?_⟩
    show x ∈ addrs s.base (l1 ++ ([⟨b.size, 1⟩] ++ l2))
    refine addrs_replace [b] hx ?_ rfl
    intro hmem
    simp only [addrs, List.mem_singleton] at hmem
    rw [hmem] at hne
    exact hne rfl

theorem splitBlk_cases (r : Nat) (b : Blk) :
    splitBlk r b = [b] ∨
      (r + 32 ≤ b.size ∧ splitBlk r b = [⟨r, b.is_free⟩, ⟨b.size - r - 24, 1⟩]) := by
  unfold splitBlk
  split
  · exact Or.inl rfl
  · exact Or.inr ⟨by omega, rfl⟩

theorem not_mem_addrs_splitBlk {a r : Nat} {B : Blk} {x : Nat × Blk} (hxa : x.2.is_free = 0)
    (hne : x.1 ≠ a) : x ∉ addrs a (splitBlk r B) := by
  intro hmem
  rcases splitBlk_cases r B with he | ⟨_, he⟩
  · rw [he] at hmem
    simp only [addrs, List.mem_singleton] at hmem
    rw [hmem] at hne
    exact hne rfl
  · rw [he] at hmem
    simp only [addrs, List.mem_cons, List.mem_singleton, List.not_mem_nil, or_false] at hmem
    rcases hmem with hmem | hmem
    · rw [hmem] at hne
      exact hne rfl
    · rw [hmem] at hxa
      simp at hxa

theorem realloc_keeps {s : State} {l : List Blk} (h : Rep s l) (p n : Nat)
    (hp : ValidPtr s p) {x : Nat × Blk} (hx : x ∈ addrs s.base l) (hxa : x.2.is_free = 0)
    (hne : x.1 + 24 ≠ p) :
    ∃ s2 q l2, realloc s p n = some (s2, q) ∧ Rep s2 l2 ∧ s2.base = s.base ∧
      x ∈ addrs s.base l2 := by
  rcases hp with rfl | hp
  · obtain ⟨s2, q, l2, hm, hrep, hb, hx2⟩ := malloc_keeps h n hx hxa
    exact ⟨s2, q, l2, by simpa [realloc] using hm, hrep, hb, hx2⟩
  · by_cases hn : n = 0
    · obtain ⟨s2, l2, hf, hrep, hb, hx2⟩ := free_keeps h p (Or.inr hp) hx hxa hne
      have hp0 : ¬ p = 0 := by
        obtain ⟨l1, b, l2, _, _, rfl⟩ := (Live_iff h p).mp hp
        omega
      refine ⟨s2, 0, l2, ?_, hrep, hb, hx2⟩
      simp only [realloc, hp0, hn, if_false, if_true, hf, Option.bind_eq_bind,
        Option.some_bind, pure]
    · obtain ⟨l1, b, l2, rfl, hb0, rfl⟩ := (Live_iff h p).mp hp
      have hx1 : x.1 ≠ s.base + span l1 := by omega
      by_cases hr : align8 n ≤ b.size
      · obtain ⟨s2, hre, hrep, hb, _⟩ := realloc_shrink_spec h n hn hr
        exact ⟨s2, _, _, hre, hrep, hb,
          addrs_replace [b] hx (by
            intro hmem
            simp only [addrs, List.mem_singleton] at hmem
            rw [hmem] at hx1
            exact hx1 rfl) (span_splitBlk _ _)⟩
      · by_cases hg : canGrow (align8 n) b l2
        · cases l2 with
          | nil => exact absurd hg (by simp [canGrow])
          | cons c l2 =>
            obtain ⟨s2, hre, hrep, hb, _⟩ := realloc_grow_spec h n hn (by omega) hg
            refine ⟨s2, _, _, hre, hrep, hb, ?_⟩
            have hx' : x ∈ addrs s.base (l1 ++ ([b, c] ++ l2)) := hx
            refine addrs_replace [b, c] hx' ?_ ?_
            · intro hmem
              simp only [addrs, List.mem_cons, List.mem_singleton, List.not_mem_nil,
                or_false] at hmem
              rcases hmem with hmem | hmem
              · rw [hmem] at hx1
                exact hx1 rfl
              · rw [hmem] at hxa
                exact hg.1 hxa
            · rw [span_splitBlk]
              simp only [span]
              omega
        · rcases realloc_move_spec h hb0 n (by omega) hg with
            ⟨hre, _⟩ | ⟨k1, f, k2, j1, j2, s4, hl, _, hfit, hj, hsj, hre, hrep, hb, _⟩
          · exact ⟨s, 0, _, hre, h, rfl, hx⟩
          · refine ⟨s4, _, _, hre, hrep, hb, addrs_coalesceAll hxa ?_⟩
            have h1 : x ∈ addrs s.base (k1 ++ (allocBlk (align8 n) f ++ k2)) := by
              rw [hl] at hx
              refine addrs_replace [f] hx ?_ (span_allocBlk _ _)
              intro hmem
              simp only [addrs, List.mem_singleton] at hmem
              rw [hmem] at hxa
              exact hfit.1 hxa
            rw [hj] at h1
            show x ∈ addrs s.base (j1 ++ ([⟨b.size, 1⟩] ++ j2))
            refine addrs_replace [b] h1 ?_ rfl
            intro hmem
            simp only [addrs, List.mem_singleton] at hmem
            rw [hmem, hsj] at hx1
            exact hx1 rfl

/-! ## In-place `realloc` -/

theorem inplace_result {s s2 : State} {l l1 l2 : List Blk} (ml : List Blk) {B : Blk} {r : Nat}
    (hr : Rep s l) (hl : l = l1 ++ (ml ++ l2))
    (hrep : Rep s2 (l1 ++ (splitBlk r B ++ l2))) (hb : s2.base = s.base)
    (hB0 : B.is_free = 0) (hle : r ≤ B.size) (hsp : span ml = span [B])
    (x0 : Block) (hx0 : x0 ∈ blocks s) (hx0a : x0.addr = s.base + span l1)
    (hx0f : x0.is_free = 0) :
    (∃ b2 ∈ blocks s2, b2.addr = s.base + span l1 ∧ b2.is_free = 0 ∧ r ≤ b2.size) ∧
      ∀ x ∈ blocks s2, x.is_free = 0 → ∃ y ∈ blocks s, y.is_free = 0 ∧ y.addr = x.addr := by
  constructor
  · have : ∃ sz rest, splitBlk r B = ⟨sz, 0⟩ :: rest ∧ r ≤ sz := by
      rcases splitBlk_cases r B with he | ⟨_, he⟩
      · exact ⟨B.size, [], by rw [he, ← hB0], hle⟩
      · exact ⟨r, _, by rw [he, hB0], le_refl _⟩
    obtain ⟨sz, rest, he, hsz⟩ := this
    have hm : (s2.base + span l1, (⟨sz, 0⟩ : Blk)) ∈
        addrs s2.base (l1 ++ (splitBlk r B ++ l2)) := by
      rw [he]
      exact mem_addrs_split.mpr ⟨l1, rest ++ l2, rfl, rfl⟩
    obtain ⟨b2, h1, h2, h3, h4⟩ := (mem_addrs_iff_blocks hrep _ _ _).mp hm
    exact ⟨b2, h1, by rw [h2, hb], h4, by rw [h3]; exact hsz⟩
  · intro x hx hxf
    by_cases hxa : x.addr = s.base + span l1
    · exact ⟨x0, hx0, hx0f, by rw [hx0a, hxa]⟩
    · have hm : (x.addr, (⟨x.size, 0⟩ : Blk)) ∈ addrs s.base (l1 ++ (splitBlk r B ++ l2)) := by
        rw [← hb]
        exact (mem_addrs_iff_blocks hrep _ _ _).mpr ⟨x, hx, rfl, rfl, hxf⟩
      have hm2 : (x.addr, (⟨x.size, 0⟩ : Blk)) ∈ addrs s.base (l1 ++ (ml ++ l2)) :=
        addrs_replace (splitBlk r B) hm (not_mem_addrs_splitBlk rfl hxa)
          (by rw [hsp, span_splitBlk])
      rw [← hl] at hm2
      obtain ⟨y, hy, h1, _, h3⟩ := (mem_addrs_iff_blocks hr _ _ _).mp hm2
      exact ⟨y, hy, h3, h1⟩

/-! ## Releasing the last allocation -/

theorem chain_all_free {l : List Blk}
    (hch : List.Chain' (fun x y : Blk => ¬ (x.is_free ≠ 0 ∧ y.is_free ≠ 0)) l)
    (hall : ∀ b ∈ l, b.is_free ≠ 0) (hne : l ≠ []) : ∃ b, l = [b] := by
  cases l with
  | nil => exact absurd rfl hne
  | cons b l =>
    cases l with
    | nil => exact ⟨b, rfl⟩
    | cons c l =>
      rw [List.chain'_cons] at hch
      exact absurd ⟨hall b (by simp), hall c (by simp)⟩ hch.1

/-! ## Data kept by `realloc` -/

theorem realloc_keeps_data (s s2 : State) (p n q : Nat) (b : Block) (hwf : WF s)
    (hb : b ∈ blocks s) (hfree : b.is_free = 0) (hp : p = b.addr + HDR) (hn7 : n + 7 < W)
    (hgt : b.size < n) (hre : realloc s p n = some (s2, q)) (hq : q ≠ 0) :
    ∀ j, j < b.size → rd8 s2.mem (q + j) = rd8 s.mem (p + j) := by
  obtain ⟨l, hr⟩ := Rep_of_WF hwf
  have hb' := hb
  rw [Rep_blocks hr] at hb'
  obtain ⟨l1, bb, l2, hl, hbe⟩ := mem_layout.mp hb'
  have hba : b.addr = s.base + span l1 := by rw [hbe]
  have hbs : b.size = bb.size := by rw [hbe]
  have hbf : bb.is_free = 0 := by
    rw [hbe] at hfree
    exact hfree
  have hal := align8_ge n hn7
  have hn : n ≠ 0 := by omega
  subst hp
  rw [hbs] at hgt
  rw [hba] at hre
  rw [hba, hbs]
  simp only [HDR] at hre ⊢
  rw [hl] at hr
  by_cases hg : canGrow (align8 n) bb l2
  · cases l2 with
    | nil => exact absurd hg (by simp [canGrow])
    | cons c l2 =>
      obtain ⟨s3, hre2, _, _, hfr⟩ := realloc_grow_spec hr n hn (by omega) hg
      rw [hre2] at hre
      obtain ⟨rfl, rfl⟩ := Prod.mk.inj (Option.some.inj hre)
      intro j hj
      exact rd8_congr _ _ _ (hfr _ (by omega))
  · rcases realloc_move_spec hr hbf n (by omega) hg with
      ⟨hre2, _⟩ | ⟨k1, f, k2, j1, j2, s4, _, _, _, _, _, hre2, _, _, hdata⟩
    · rw [hre2] at hre
      exact absurd (Prod.mk.inj (Option.some.inj hre)).2.symm hq
    · rw [hre2] at hre
      obtain ⟨rfl, rfl⟩ := Prod.mk.inj (Option.some.inj hre)
      exact hdata

/-! ## `memmove` -/

theorem buf_load_at (size : Nat) (m : Nat → Nat) (p : Nat) (h : p < size) :
    buf_load ⟨size, m⟩ p = some (rd8 m p) := by
  simp only [buf_load]
  rw [if_pos h]

theorem buf_store_at (size : Nat) (m : Nat → Nat) (p v : Nat) (h : p < size) :
    buf_store ⟨size, m⟩ p v = some ⟨size, wr8 m p v⟩ := by
  simp only [buf_store]
  rw [if_pos h]

theorem move_up_spec (size dest src : Nat) (hds : dest ≤ src) :
    ∀ (k : Nat) (m : Nat → Nat) (i : Nat), src + i + k ≤ size →
      ∃ m2, move_up dest src k ⟨size, m⟩ i = some ⟨size, m2⟩ ∧
        (∀ x, (x < dest + i ∨ dest + i + k ≤ x) → m2 x = m x) ∧
        ∀ j, j < k → rd8 m2 (dest + i + j) = rd8 m (src + i + j) := by
  intro k
  induction k with
  | zero =>
    intro m i _
    exact ⟨m, rfl, fun _ _ => rfl, fun j hj => absurd hj (Nat.not_lt_zero j)⟩
  | succ k ih =>
    intro m i h
    obtain ⟨m2, hrun, hfr, hcp⟩ := ih (wr8 m (dest + i) (rd8 m (src + i))) (i + 1) (by omega)
    refine ⟨m2, ?_, ?_, ?_⟩
    · simp only [move_up, buf_load_at _ _ _ (show src + i < size by omega),
        buf_store_at _ _ _ _ (show dest + i < size by omega), Option.bind_eq_bind,
        Option.some_bind]
      exact hrun
    · intro x hx
      rw [hfr x (by omega), wr8_other _ _ _ _ (by omega)]
    · intro j hj
      cases j with
      | zero =>
        have e1 : m2 (dest + i) = wr8 m (dest + i) (rd8 m (src + i)) (dest + i) :=
          hfr _ (by omega)
        rw [Nat.add_zero, Nat.add_zero, rd8_congr _ _ _ e1, rd8_wr8_same]
        exact Nat.mod_eq_of_lt (rd8_lt _ _)
      | succ j =>
        have e2 := hcp j (by omega)
        have e3 : dest + i + (j + 1) = dest + (i + 1) + j := by omega
        have e4 : src + i + (j + 1) = src + (i + 1) + j := by omega
        rw [e3, e4, e2, rd8_wr8_ne _ _ _ _ (by omega)]

theorem move_down_spec (size dest src : Nat) (hsd : src ≤ dest) :
    ∀ (i : Nat) (m : Nat → Nat), dest + i ≤ size →
      ∃ m2, move_down dest src i ⟨size, m⟩ = some ⟨size, m2⟩ ∧
        (∀ x, (x < dest ∨ dest + i ≤ x) → m2 x = m x) ∧
        ∀ j, j < i → rd8 m2 (dest + j) = rd8 m (src + j) := by
  intro i
  induction i with
  | zero =>
    intro m _
    exact ⟨m, rfl, fun _ _ => rfl, fun j hj => absurd hj (Nat.not_lt_zero j)⟩
  | succ i ih =>
    intro m h
    obtain ⟨m2, hrun, hfr, hcp⟩ := ih (wr8 m (dest + i) (rd8 m (src + i))) (by omega)
    refine ⟨m2, ?_, ?_, ?_⟩
    · simp only [move_down, buf_load_at _ _ _ (show src + i < size by omega),
        buf_store_at _ _ _ _ (show dest + i < size by omega), Option.bind_eq_bind,
        Option.some_bind]
      exact hrun
    · intro x hx
      rw [hfr x (by omega), wr8_other _ _ _ _ (by omega)]
    · intro j hj
      by_cases hji : j = i
      · subst hji
        have e1 : m2 (dest + j) = wr8 m (dest + j) (rd8 m (src + j)) (dest + j) :=
          hfr _ (by omega)
        rw [rd8_congr _ _ _ e1, rd8_wr8_same]
        exact Nat.mod_eq_of_lt (rd8_lt _ _)
      · rw [hcp j (by omega), rd8_wr8_ne _ _ _ _ (by omega)]

/-! ## `memcmp` -/

theorem memcmp_loop_spec (b1 b2 : Buffer) :
    ∀ (k i : Nat), i + k ≤ b1.size → i + k ≤ b2.size →
      ∃ r, memcmp_loop b1 b2 k i = some r ∧
        (r = 0 ↔ ∀ j, j < k → rd8 b1.bytes (i + j) = rd8 b2.bytes (i + j)) ∧
        (r = 0 ∨ r = -1 ∨ r = 1) := by
  obtain ⟨n1, m1⟩ := b1
  obtain ⟨n2, m2⟩ := b2
  intro k
  induction k with
  | zero =>
    intro i _ _
    exact ⟨0, rfl, ⟨fun _ j hj => absurd hj (Nat.not_lt_zero j), fun _ => rfl⟩, Or.inl rfl⟩
  | succ k ih =>
    intro i h1 h2
    simp only at h1 h2
    by_cases hxy : rd8 m1 i = rd8 m2 i
    · obtain ⟨r, hrun, hiff, hval⟩ := ih (i + 1) (by simp only; omega) (by simp only; omega)
      refine ⟨r, ?_, ?_, hval⟩
      · simp only [memcmp_loop, buf_load_at _ _ _ (show i < n1 by omega),
          buf_load_at _ _ _ (show i < n2 by omega), Option.bind_eq_bind, Option.some_bind,
          ne_eq, hxy, not_true_eq_false, if_false]
        exact hrun
      · rw [hiff]
        constructor
        · intro h j hj
          cases j with
          | zero => exact hxy
          | succ j =>
            have := h j (by omega)
            have e : i + (j + 1) = i + 1 + j := by omega
            rw [e]
            exact this
        · intro h j hj
          have := h (j + 1) (by omega)
          have e : i + (j + 1) = i + 1 + j := by omega
          rw [e] at this
          exact this
    · refine ⟨if rd8 m1 i < rd8 m2 i then -1 else 1, ?_, ?_, ?_⟩
      · simp only [memcmp_loop, buf_load_at _ _ _ (show i < n1 by omega),
          buf_load_at _ _ _ (show i < n2 by omega), Option.bind_eq_bind, Option.some_bind,
          ne_eq, hxy, not_false_eq_true, if_true]
      · constructor
        · intro h
          split at h <;> simp at h
        · intro h
          exact absurd (h 0 (by omega)) hxy
      · split
        · exact Or.inr (Or.inl rfl)
        · exact Or.inr (Or.inr rfl)

/-! ## The sample states are reachable -/

theorem sample_malloc : malloc (initial 65536) 100 = some (sampleState, 65560) := by
  have h1 : (malloc (initial 65536) 100).map Prod.snd = some 65560 := by decide!
  unfold sampleState
  cases h : malloc (initial 65536) 100 with
  | none => simp [h] at h1
  | some r =>
    simp only [h, Option.map_some', Option.some.injEq] at h1 ⊢
    exact Prod.ext rfl h1

theorem sample_reachable : Reachable 65536 sampleState :=
  Reachable.by_malloc Reachable.start (by decide) sample_malloc

set_option maxRecDepth 100000 in
theorem sample_malloc2 : malloc sampleState 200 = some (sampleState2, 65688) := by
  have h1 : (malloc sampleState 200).map Prod.snd = some 65688 := by decide!
  unfold sampleState2
  cases h : malloc sampleState 200 with
  | none => simp [h] at h1
  | some r =>
    simp only [h, Option.map_some', Option.some.injEq] at h1 ⊢
    exact Prod.ext rfl h1

theorem sample_reachable2 : Reachable 65536 sampleState2 :=
  Reachable.by_malloc sample_reachable (by decide) sample_malloc2

set_option maxRecDepth 100000 in
theorem sample_realloc : realloc sampleState 65560 8 = some (sampleShrunk, 65560) := by
  have h1 : (realloc sampleState 65560 8).map Prod.snd = some 65560 := by decide!
  unfold sampleShrunk
  cases h : realloc sampleState 65560 8 with
  | none => simp [h] at h1
  | some r =>
    simp only [h, Option.map_some', Option.some.injEq] at h1 ⊢
    exact Prod.ext rfl h1

set_option maxRecDepth 100000 in
theorem sample_calloc : calloc sampleState 3 5 = some (sampleZeroed, 65688) := by
  have h1 : (calloc sampleState 3 5).map Prod.snd = some 65688 := by decide!
  unfold sampleZeroed
  cases h : calloc sampleState 3 5 with
  | none => simp [h] at h1
  | some r =>
    simp only [h, Option.map_some', Option.some.injEq] at h1 ⊢
    exact Prod.ext rfl h1

theorem sample_free : free sampleState 65560 = some sampleFreed := by
  unfold sampleFreed
  cases h : free sampleState 65560 with
  | none =>
    have h1 : (free sampleState 65560).isSome = true := by decide!
    rw [h] at h1
    exact absurd h1 (by decide)
  | some r => rfl

/-! ## Claims -/

/-- C1: chain well-formedness is preserved by every allocator operation.
A well-formed state is one whose chain starts at `memory[0]`, where each
block's address plus `HDR` plus `size` is the address of its `next` block, and
where the last block ends at `memory + 4096`; the sizes plus headers then sum
to `4096`.  The state produced by `init_allocator` is well-formed, and from a
well-formed state `malloc`, `free` and `realloc` (pointer `NULL` or live)
return and leave a well-formed state. -/
theorem C1_wf_preserved (s : State) (n p : Nat) (hwf : WF s) (hp : ValidPtr s p) :
    ((blocks s).map fun b => HDR + b.size).sum = MEMORY_SIZE ∧
    (∀ s0 : State, s0.head = 0 → 0 < s0.base → s0.base + MEMORY_SIZE < W →
      ∃ s1, init_allocator s0 = some s1 ∧ WF s1) ∧
    (∃ s2 q, malloc s n = some (s2, q) ∧ WF s2) ∧
    (∃ s2, free s p = some s2 ∧ WF s2) ∧
    (∃ s2 q, realloc s p n = some (s2, q) ∧ WF s2) := by
  obtain ⟨l, hr⟩ := Rep_of_WF hwf
  refine ⟨WF_sum hwf, ?_, ?_, ?_, ?_⟩
  · intro s0 h0 hb hw
    exact ⟨initState s0, init_allocator_eq s0 h0, WF_of_Rep (Rep_initState s0 hb hw)⟩
  · obtain ⟨s2, q, l2, hm, hrep, _⟩ := malloc_step hr n
    exact ⟨s2, q, hm, WF_of_Rep hrep⟩
  · obtain ⟨s2, l2, hf, hrep, _⟩ := free_step hr p hp
    exact ⟨s2, hf, WF_of_Rep hrep⟩
  · obtain ⟨s2, q, l2, hre, hrep, _⟩ := realloc_step hr p n hp
    exact ⟨s2, q, hre, WF_of_Rep hrep⟩

set_option maxRecDepth 100000 in
/-- Witness for C1 on the sample state, with its live pointer `65560`. -/
theorem C1_wf_preserved_witness :
    WF sampleState ∧ ValidPtr sampleState 65560 ∧
      ∃ s2 q, realloc sampleState 65560 200 = some (s2, q) ∧ WF s2 :=
  ⟨by decide!, Or.inr (by decide!),
    (C1_wf_preserved sampleState 200 65560 (by decide!) (Or.inr (by decide!))).2.2.2.2⟩

/-- C2: `malloc` is first-fit.  In a well-formed state, for a request `n`
with `n + 7` not overflowing and `r` the value of `n` rounded up to a
multiple of 8, `malloc n` returns, and returns `NULL` exactly when `n = 0` or
no block of the chain is free with `size ≥ r`; otherwise it returns the data
address of the earliest such block in chain order, and that block is marked
allocated afterwards. -/
theorem C2_first_fit (s : State) (n : Nat) (hwf : WF s) (hn : n + 7 < W) :
    ∃ s2 p, malloc s n = some (s2, p) ∧
      (p = 0 ↔ (n = 0 ∨ ∀ b ∈ blocks s, ¬ (b.is_free ≠ 0 ∧ (n + 7) / 8 * 8 ≤ b.size))) ∧
      (p ≠ 0 → ∃ pre b post, blocks s = pre ++ b :: post ∧
        (∀ c ∈ pre, ¬ (c.is_free ≠ 0 ∧ (n + 7) / 8 * 8 ≤ c.size)) ∧
        (b.is_free ≠ 0 ∧ (n + 7) / 8 * 8 ≤ b.size) ∧ p = b.addr + HDR ∧
        ∃ b2 ∈ blocks s2, b2.addr = b.addr ∧ b2.is_free = 0) := by
  obtain ⟨l, hr⟩ := Rep_of_WF hwf
  have hbl := Rep_blocks hr
  have hal := align8_small n hn
  by_cases h0 : n = 0
  · refine ⟨s, 0, by simp [malloc, h0], ?_, fun h => absurd rfl h⟩
    exact ⟨fun _ => Or.inl h0, fun _ => rfl⟩
  · rcases malloc_spec hr n h0 with ⟨hm, hall⟩ | ⟨l1, b, l2, s2, hl, hall, hfit, hm, hrep, hb, _⟩
    · refine ⟨s, 0, hm, ?_, fun h => absurd rfl h⟩
      refine ⟨fun _ => Or.inr ?_, fun _ => rfl⟩
      intro x hx
      rw [hbl] at hx
      have := hall _ (toBlk_mem_of_layout hx)
      rw [hal] at this
      exact this
    · have hbase := hr.1
      refine ⟨s2, _, hm, ?_, fun _ => ?_⟩
      · constructor
        · intro hp
          omega
        · rintro (hc | hc)
          · exact absurd hc h0
          · exfalso
            have hmem : (⟨s.base + span l1, b.size, b.is_free,
                nextPtr 0 (s.base + span l1 + 24 + b.size) l2⟩ : Block) ∈ blocks s := by
              rw [hbl]
              exact mem_layout.mpr ⟨l1, b, l2, hl, rfl⟩
            apply hc _ hmem
            rw [hal] at hfit
            exact hfit
      · refine ⟨layout (s.base + span l1) s.base l1,
          ⟨s.base + span l1, b.size, b.is_free, nextPtr 0 (s.base + span l1 + 24 + b.size) l2⟩,
          layout 0 (s.base + span l1 + 24 + b.size) l2, ?_, ?_, ?_, rfl, ?_⟩
        · rw [hbl, hl, layout_append]
          rfl
        · intro c hc
          have := hall _ (toBlk_mem_of_layout hc)
          rw [hal] at this
          exact this
        · rw [hal] at hfit
          exact hfit
        · obtain ⟨sz, rest, he, _⟩ := allocBlk_cons (align8 n) b
          rw [he] at hrep
          refine ⟨⟨s.base + span l1, sz, 0,
            nextPtr 0 (s.base + span l1 + 24 + sz) (rest ++ l2)⟩, ?_, rfl, rfl⟩
          rw [Rep_blocks hrep, hb]
          exact mem_layout.mpr ⟨l1, ⟨sz, 0⟩, rest ++ l2, rfl, rfl⟩

set_option maxRecDepth 100000 in
/-- Witness for C2 on the sample state and a request of 50 bytes. -/
theorem C2_first_fit_witness :
    WF sampleState ∧ ∃ s2 p, malloc sampleState 50 = some (s2, p) ∧ p ≠ 0 := by
  refine ⟨by decide!, ?_⟩
  obtain ⟨s2, p, hm, hiff, _⟩ := C2_first_fit sampleState 50 (by decide!) (by decide)
  refine ⟨s2, p, hm, fun hp => ?_⟩
  have := hiff.mp hp
  revert this
  decide!

/-- C3: live allocations never overlap.  In every state reachable from the
initial state by calls of the interface (pointer arguments `NULL` or live),
the data ranges `[addr + HDR, addr + HDR + size)` of two distinct allocated
blocks are disjoint, and each lies inside the arena. -/
theorem C3_no_overlap (base : Nat) (hb : 0 < base) (hw : base + MEMORY_SIZE < W) (s : State)
    (hs : Reachable base s) (b1 b2 : Block) (h1 : b1 ∈ blocks s) (h2 : b2 ∈ blocks s)
    (_ha1 : b1.is_free = 0) (_ha2 : b2.is_free = 0) (hne : b1 ≠ b2) :
    (b1.addr + HDR + b1.size ≤ b2.addr + HDR ∨ b2.addr + HDR + b2.size ≤ b1.addr + HDR) ∧
      base ≤ b1.addr + HDR ∧ b1.addr + HDR + b1.size ≤ base + MEMORY_SIZE := by
  obtain ⟨hbs, hcase⟩ := reachable_inv hb hw hs
  rcases hcase with hh | ⟨l, hrep, _⟩
  · rw [blocks_uninit hh] at h1
    exact absurd h1 (List.not_mem_nil _)
  · rw [Rep_blocks hrep] at h1 h2
    have hsp := Seg_span hrep.2.2.2.2
    have hb1 := layout_bounds h1
    have hpw : (layout 0 s.base l).Pairwise fun x y : Block =>
        x.addr + 24 + x.size ≤ y.addr ∨ y.addr + 24 + y.size ≤ x.addr :=
      (layout_pairwise 0 l s.base).imp fun h => Or.inl h
    have hsym : Symmetric fun x y : Block =>
        x.addr + 24 + x.size ≤ y.addr ∨ y.addr + 24 + y.size ≤ x.addr :=
      fun _ _ h => h.symm
    have hdis := hpw.forall hsym h1 h2 hne
    simp only [HDR, MEMORY_SIZE]
    omega

set_option maxRecDepth 100000 in
/-- Witness for C3: the two allocated blocks of the second sample state. -/
theorem C3_no_overlap_witness :
    Reachable 65536 sampleState2 ∧
      (⟨65536, 104, 0, 65664⟩ : Block) ∈ blocks sampleState2 ∧
      (⟨65664, 200, 0, 65888⟩ : Block) ∈ blocks sampleState2 ∧
      ((65536 + HDR + 104 ≤ 65664 + HDR ∨ 65664 + HDR + 200 ≤ 65536 + HDR) ∧
        65536 ≤ 65536 + HDR ∧ 65536 + HDR + 104 ≤ 65536 + MEMORY_SIZE) :=
  ⟨sample_reachable2, by decide!, by decide!,
    C3_no_overlap 65536 (by decide) (by decide) sampleState2 sample_reachable2
      ⟨65536, 104, 0, 65664⟩ ⟨65664, 200, 0, 65888⟩ (by decide!) (by decide!) rfl rfl
      (by decide)⟩

/-- C4 (evaluation at the failing input): in the freshly initialised arena
the free capacity is `4072`, yet `malloc(2^64 - 1)` returns the non-null
address `memory + 24`, because `(size + 7) & ~7` wraps to `0`. -/
theorem C4_wrap_succeeds :
    freeCapacity (initState (initial 65536)) = 4072 ∧
      (malloc (initState (initial 65536)) 18446744073709551615).map Prod.snd =
        some 65560 := by
  constructor
  · decide!
  · decide!

/-- C5: alignment.  In every reachable state every block's recorded size is
a multiple of 8, and every non-null address returned by `malloc` or `calloc`
is at a multiple of 8 from the arena base. -/
theorem C5_alignment (base : Nat) (hb : 0 < base) (hw : base + MEMORY_SIZE < W) (s : State)
    (hs : Reachable base s) :
    (∀ b ∈ blocks s, b.size % 8 = 0) ∧
    (∀ n s2 p, malloc s n = some (s2, p) → p ≠ 0 → base ≤ p ∧ (p - base) % 8 = 0) ∧
    (∀ num size s2 p, calloc s num size = some (s2, p) → p ≠ 0 →
      base ≤ p ∧ (p - base) % 8 = 0) := by
  obtain ⟨hbs, hcase⟩ := reachable_inv hb hw hs
  have hal : ∀ (t : State) (l l1 l3 : List Blk) (b : Blk) (p : Nat), t.base = base → Sz8 l →
      l = l1 ++ b :: l3 → p = t.base + span l1 + 24 → base ≤ p ∧ (p - base) % 8 = 0 := by
    intro t l l1 l3 b p htb hsz hl hp
    rw [hl] at hsz
    have := span_Sz8 (Sz8_append.mp hsz).1
    omega
  have hfresh : ∀ s0 : State, s0.base = base → s0.head = 0 →
      Rep (initState s0) [⟨4072, 1⟩] ∧ Sz8 [⟨4072, 1⟩] := by
    intro s0 hb0 _
    refine ⟨Rep_initState s0 (by omega) (by simp only [W, MEMORY_SIZE] at hw ⊢; omega), ?_⟩
    simp [Sz8]
  have hmal : ∀ (t : State) (l : List Blk), t.base = base → Rep t l → Sz8 l →
      ∀ n s2 p, malloc t n = some (s2, p) → p ≠ 0 → base ≤ p ∧ (p - base) % 8 = 0 := by
    intro t l htb hrep hsz n s2 p hm hp
    obtain ⟨s3, q, l2, hm2, _, _, _, hq⟩ := malloc_step hrep n
    rw [hm2] at hm
    obtain ⟨rfl, rfl⟩ := Prod.mk.inj (Option.some.inj hm)
    rcases hq with hq | ⟨l1, b, l3, hl, hq⟩
    · exact absurd hq hp
    · exact hal t l l1 l3 b _ htb hsz hl hq
  have hcal : ∀ (t : State) (l : List Blk), t.base = base → Rep t l → Sz8 l →
      ∀ num size s2 p, calloc t num size = some (s2, p) → p ≠ 0 →
        base ≤ p ∧ (p - base) % 8 = 0 := by
    intro t l htb hrep hsz num size s2 p hc hp
    obtain ⟨l2, _, _, _, hq⟩ := calloc_step hrep hc
    rcases hq with hq | ⟨l1, b, l3, hl, hq⟩
    · exact absurd hq hp
    · exact hal t l l1 l3 b _ htb hsz hl hq
  rcases hcase with hh | ⟨l, hrep, hsz⟩
  · obtain ⟨hr0, hs0⟩ := hfresh s hbs hh
    refine ⟨?_, ?_, ?_⟩
    · intro b hbm
      rw [blocks_uninit hh] at hbm
      exact absurd hbm (List.not_mem_nil _)
    · intro n s2 p hm hp
      rcases malloc_from_uninit hh (by omega) hm with ⟨_, hp0, _⟩ | ⟨_, hm2⟩
      · exact absurd hp0 hp
      · exact hmal (initState s) _ hbs hr0 hs0 n s2 p hm2 hp
    · intro num size s2 p hc hp
      rcases calloc_cases hc with ⟨_, _, hp0⟩ | ⟨hrej, ⟨_, hp0⟩ | ⟨_, s1, hm, hz⟩⟩
      · exact absurd hp0 hp
      · exact absurd hp0 hp
      · rcases malloc_from_uninit hh (by omega) hm with ⟨_, hp0, _⟩ | ⟨_, hm2⟩
        · exact absurd hp0 hp
        · exact hmal (initState s) _ hbs hr0 hs0 _ s1 p hm2 hp
  · refine ⟨?_, hmal s l hbs hrep hsz, hcal s l hbs hrep hsz⟩
    intro b hbm
    rw [Rep_blocks hrep] at hbm
    exact hsz _ (toBlk_mem_of_layout hbm)

set_option maxRecDepth 100000 in
/-- Witness for C5 on the sample state. -/
theorem C5_alignment_witness :
    Reachable 65536 sampleState ∧ ∀ b ∈ blocks sampleState, b.size % 8 = 0 :=
  ⟨sample_reachable,
    (C5_alignment 65536 (by decide) (by decide) sampleState sample_reachable).1⟩

/-- C6: coalescing closure after release.  For every well-formed state, also
one that already holds runs of adjacent free blocks, and every live pointer
`p`, the call `free p` returns, and in the resulting chain no free block is
followed by a free block: neither as neighbours in chain order nor through
the `next` field. -/
theorem C6_free_coalesces (s : State) (p : Nat) (hwf : WF s) (hp : Live s p) :
    ∃ s2, free s p = some s2 ∧ NoAdjFree (blocks s2) ∧
      ∀ b ∈ blocks s2, b.is_free ≠ 0 → ∀ c ∈ blocks s2, c.addr = b.next → c.is_free = 0 := by
  obtain ⟨l, hr⟩ := Rep_of_WF hwf
  obtain ⟨l1, b, l2, rfl, _, rfl⟩ := (Live_iff hr p).mp hp
  obtain ⟨s2, hf, hrep, hb, _⟩ := free_spec hr
  have hch : List.Chain' (fun x y : Blk => ¬ (x.is_free ≠ 0 ∧ y.is_free ≠ 0))
      (coalesceAll (l1 ++ ⟨b.size, 1⟩ :: l2)) := by
    cases hcs : l1 ++ ⟨b.size, 1⟩ :: l2 with
    | nil => exact List.chain'_nil
    | cons c rest => exact coalesce_chain rest c
  refine ⟨s2, hf, ?_, ?_⟩
  · rw [Rep_blocks hrep]
    exact NoAdjFree_layout hch
  · intro x hx hxf y hy hxy
    rw [Rep_blocks hrep] at hx hy
    obtain ⟨k1, k2, hk⟩ := layout_next hrep.1 hx hy hxy
    rw [hk] at hch
    have hpair := (List.chain'_split.mp hch).2
    rw [List.chain'_cons] at hpair
    have hnot := hpair.1
    by_contra hyf
    exact hnot ⟨hxf, hyf⟩

set_option maxRecDepth 100000 in
/-- Witness for C6: releasing the only allocation of the sample state. -/
theorem C6_free_coalesces_witness :
    WF sampleState ∧ Live sampleState 65560 ∧
      ∃ s2, free sampleState 65560 = some s2 ∧ NoAdjFree (blocks s2) := by
  obtain ⟨s2, h1, h2, _⟩ := C6_free_coalesces sampleState 65560 (by decide!) (by decide!)
  exact ⟨by decide!, by decide!, s2, h1, h2⟩

set_option maxRecDepth 100000 in
/-- C7 (evaluation at the failing input): after `p = malloc(100)` as first
call, `realloc(p, 8)` shrinks the block in place and splits off a free block
of 72 bytes right before the free block of 3944 bytes.  The state is
reachable and two adjacent blocks of its chain are free. -/
theorem C7_shrink_leaves_adjacent_free :
    Reachable 65536 sampleShrunk ∧
      blocks sampleShrunk =
        [⟨65536, 8, 0, 65568⟩, ⟨65568, 72, 1, 65664⟩, ⟨65664, 3944, 1, 0⟩] ∧
      ¬ NoAdjFree (blocks sampleShrunk) := by
  have hb : blocks sampleShrunk =
      [⟨65536, 8, 0, 65568⟩, ⟨65568, 72, 1, 65664⟩, ⟨65664, 3944, 1, 0⟩] := by decide!
  refine ⟨?_, hb, ?_⟩
  · exact Reachable.by_realloc sample_reachable (Or.inr (by decide!)) (by decide)
      sample_realloc
  · rw [hb]
    simp [NoAdjFree]

/-- C8: out-of-memory is atomic.  In a well-formed state, when `malloc n`
returns `NULL`, and when `realloc p n` with `p` live and `n ≠ 0` returns
`NULL`, the state after the call is the state before it: `head` and every
byte of the arena, hence every block's address, size, free flag and link. -/
theorem C8_oom_atomic (s : State) (hwf : WF s) :
    (∀ n s2, malloc s n = some (s2, 0) → s2 = s) ∧
    (∀ p n s2, Live s p → n ≠ 0 → realloc s p n = some (s2, 0) → s2 = s) := by
  obtain ⟨l, hr⟩ := Rep_of_WF hwf
  have hbase := hr.1
  constructor
  · intro n s2 hm
    by_cases hn : n = 0
    · subst hn
      simp only [malloc, if_true] at hm
      exact (Prod.mk.inj (Option.some.inj hm)).1.symm
    · rcases malloc_spec hr n hn with ⟨hm2, _⟩ | ⟨l1, b, l2, s3, _, _, _, hm2, _⟩
      · rw [hm2] at hm
        exact (Prod.mk.inj (Option.some.inj hm)).1.symm
      · rw [hm2] at hm
        have := (Prod.mk.inj (Option.some.inj hm)).2
        omega
  · intro p n s2 hp hn hre
    obtain ⟨l1, b, l2, rfl, hb0, rfl⟩ := (Live_iff hr p).mp hp
    by_cases hle : align8 n ≤ b.size
    · obtain ⟨s3, hre2, _⟩ := realloc_shrink_spec hr n hn hle
      rw [hre2] at hre
      have := (Prod.mk.inj (Option.some.inj hre)).2
      omega
    · by_cases hg : canGrow (align8 n) b l2
      · cases l2 with
        | nil => exact absurd hg (by simp [canGrow])
        | cons c l2 =>
          obtain ⟨s3, hre2, _⟩ := realloc_grow_spec hr n hn (by omega) hg
          rw [hre2] at hre
          have := (Prod.mk.inj (Option.some.inj hre)).2
          omega
      · rcases realloc_move_spec hr hb0 n (by omega) hg with
          ⟨hre2, _⟩ | ⟨k1, f, k2, j1, j2, s4, _, _, _, _, _, hre2, _⟩
        · rw [hre2] at hre
          exact (Prod.mk.inj (Option.some.inj hre)).1.symm
        · rw [hre2] at hre
          have := (Prod.mk.inj (Option.some.inj hre)).2
          omega

set_option maxRecDepth 100000 in
/-- Witness for C8: in the sample state `malloc(5000)` and
`realloc(65560, 5000)` return `NULL`. -/
theorem C8_oom_atomic_witness :
    WF sampleState ∧ (malloc sampleState 5000).map Prod.snd = some 0 ∧
      (realloc sampleState 65560 5000).map Prod.snd = some 0 ∧
      ∀ n s2, malloc sampleState n = some (s2, 0) → s2 = sampleState :=
  ⟨by decide!, by decide!, by decide!, (C8_oom_atomic sampleState (by decide!)).1⟩

/-- C9: overflow rejection in `calloc`.  For every state and all `size_t`
values `num`, `size`: when the product `num * size` does not fit in `size_t`,
`calloc num size` returns `NULL` and the state is unchanged, whether or not
the allocator was initialised; and when the product fits, the overflow check
does not reject the call. -/
theorem C9_calloc_overflow (s : State) (num size : Nat) (_hnum : num < W) (_hsize : size < W) :
    (W ≤ num * size → calloc s num size = some (s, 0)) ∧
    (num * size < W → ¬ (size ≠ 0 ∧ mul64 num size / size ≠ num)) := by
  constructor
  · intro hov
    have hs : size ≠ 0 := by
      intro h0
      subst h0
      simp only [W] at hov
      omega
    have hlt : mul64 num size / size < num := by
      rw [Nat.div_lt_iff_lt_mul (Nat.pos_of_ne_zero hs)]
      have : mul64 num size < W := Nat.mod_lt _ (by decide)
      omega
    have hrej : size ≠ 0 ∧ mul64 num size / size ≠ num := ⟨hs, by omega⟩
    simp only [calloc]
    rw [if_pos hrej]
  · intro hfit hrej
    obtain ⟨hs, hne⟩ := hrej
    apply hne
    rw [mul64, Nat.mod_eq_of_lt hfit]
    exact Nat.mul_div_cancel num (Nat.pos_of_ne_zero hs)

/-- Witness for C9: `calloc(2^32, 2^32)` before the first allocation. -/
theorem C9_calloc_overflow_witness :
    W ≤ 4294967296 * 4294967296 ∧
      (calloc (initial 65536) 4294967296 4294967296).map Prod.snd = some 0 := by
  have h := (C9_calloc_overflow (initial 65536) 4294967296 4294967296 (by decide)
    (by decide)).1 (by decide)
  exact ⟨by decide, by rw [h]; rfl⟩

/-- C10: zero-fill.  In a well-formed state, for every `num` and `size`: when
`calloc(num, size)` returns a non-NULL address `p`, every byte of
`[p, p + num * size)` reads as zero on return and the block chain is the one
that `malloc(num * size)` alone produces (which returns the same address).
The premise is met: when `num * size` does not fit in 64 bits, or
`num * size + 7` does, `calloc` returns, and its result is non-NULL exactly
when `num * size` is non-zero, fits in 64 bits and some free block holds
`num * size` rounded up to a multiple of `8`; the region is then zeroed by the
loop, whatever it held before. -/
theorem C10_zero_fill (s : State) (num size : Nat) (hwf : WF s) :
    (∀ s2 p, calloc s num size = some (s2, p) → p ≠ 0 →
      (∀ i, i < num * size → rd8 s2.mem (p + i) = 0) ∧
        ∃ s1, malloc s (num * size) = some (s1, p) ∧ blocks s2 = blocks s1) ∧
    (W ≤ num * size ∨ num * size + 7 < W →
      ∃ s2 p, calloc s num size = some (s2, p) ∧
        (p ≠ 0 ↔ num * size ≠ 0 ∧ num * size < W ∧
          ∃ b ∈ blocks s, b.is_free ≠ 0 ∧ (num * size + 7) / 8 * 8 ≤ b.size) ∧
        (p ≠ 0 → ∀ i, i < num * size → rd8 s2.mem (p + i) = 0)) := by
  obtain ⟨l, hr⟩ := Rep_of_WF hwf
  have hfill : ∀ s2 p, calloc s num size = some (s2, p) → p ≠ 0 →
      (∀ i, i < num * size → rd8 s2.mem (p + i) = 0) ∧
        ∃ s1, malloc s (num * size) = some (s1, p) ∧ blocks s2 = blocks s1 := by
    intro s2 p hc hp
    rcases calloc_spec hr hc with ⟨hp0, _⟩ |
      ⟨_, hrej, s1, l1, b, l3, hm, _, _, _, _, hrep1, hrep2, hb1, hb2, hz⟩
    · exact absurd hp0 hp
    · have ht := calloc_total_eq hrej
      rw [ht] at hz hm
      refine ⟨hz, s1, hm, ?_⟩
      rw [Rep_blocks hrep1, Rep_blocks hrep2, hb2, hb1]
  refine ⟨hfill, fun hsz => ?_⟩
  obtain ⟨s2, p, hc, hiff⟩ := calloc_returns hr num size hsz
  refine ⟨s2, p, hc, hiff.trans ?_, fun hp => (hfill s2 p hc hp).1⟩
  refine and_congr_right fun _ => and_congr_right fun hlt => ?_
  have hal : align8 (num * size) = (num * size + 7) / 8 * 8 := by
    rcases hsz with h1 | h1
    · omega
    · exact align8_small _ h1
  rw [hal, Rep_blocks hr]
  constructor
  · rintro ⟨b, hb, hfit⟩
    obtain ⟨l1, l2, hl⟩ := List.append_of_mem hb
    exact ⟨⟨s.base + span l1, b.size, b.is_free, nextPtr 0 (s.base + span l1 + 24 + b.size) l2⟩,
      mem_layout.mpr ⟨l1, b, l2, hl, rfl⟩, hfit⟩
  · rintro ⟨x, hx, hfit⟩
    exact ⟨toBlk x, toBlk_mem_of_layout hx, hfit⟩

set_option maxRecDepth 100000 in
/-- Witness for C10: after `p = malloc(100)` and `free(p)` the data area of
the one free block still holds the header that `malloc` wrote at `p + 104`,
whose first byte reads `104`; `calloc(15, 8)` returns `p` and the `120` bytes
there, that byte included, read as zero. -/
theorem C10_zero_fill_witness :
    WF sampleFreed ∧ rd8 sampleFreed.mem (65560 + 104) = 104 ∧
      ∃ s2, calloc sampleFreed 15 8 = some (s2, 65560) ∧
        ∀ i, i < 15 * 8 → rd8 s2.mem (65560 + i) = 0 := by
  have hwf : WF sampleFreed := by decide!
  have hp : (calloc sampleFreed 15 8).map Prod.snd = some 65560 := by decide!
  obtain ⟨s2, p, hc, _, _⟩ := (C10_zero_fill sampleFreed 15 8 hwf).2 (Or.inr (by decide))
  rw [hc] at hp
  have hp2 : p = 65560 := Option.some.inj hp
  subst hp2
  exact ⟨hwf, by decide!, s2, hc,
    ((C10_zero_fill sampleFreed 15 8 hwf).1 s2 65560 hc (by decide)).1⟩

/-! ## Claims on `realloc`, release, first use, `string.c`, splitting and `calloc` -/

set_option maxRecDepth 100000 in
/-- C11, evaluated at an input where it fails: in the state after
`p = malloc(100)` the block of `p = 65560` is allocated with recorded size
`104` and its first data byte is `0`; `realloc(p, 18446744073709551615)` asks
for more than `104` bytes and returns the non-NULL address `p`, but the byte
at `p` is `80` afterwards: the rounded size wrapped to `0`, the call took the
shrinking path and `split_block` wrote a block header over the first `24`
data bytes. -/
theorem C11_wrap_overwrites_data :
    Live sampleState 65560 ∧ (⟨65536, 104, 0, 65664⟩ : Block) ∈ blocks sampleState ∧
      rd8 sampleState.mem 65560 = 0 ∧
      (realloc sampleState 65560 18446744073709551615).map
        (fun r => (r.2, rd8 r.1.mem 65560)) = some (65560, 80) := by
  refine ⟨by decide!, by decide!, by decide!, by decide!⟩

/-- C12: in a well-formed state let `p` be the data address of an allocated
block `b` and let `n ≠ 0`, with `r = (n + 7) / 8 * 8` the size `n` rounded up
to a multiple of `8`.  If `b.size ≥ r`, or the block at `b.next` is in the
chain, is free and `b.size + HDR + next.size ≥ r`, then `realloc(p, n)`
returns exactly `p`; afterwards the block at the address of `b` is allocated
with recorded size at least `r`, and every allocated block of the new chain
sits at an address where a block was allocated before, so that nothing was
allocated elsewhere. -/
theorem C12_realloc_in_place (s : State) (p n : Nat) (b : Block) (hwf : WF s)
    (hb : b ∈ blocks s) (hfree : b.is_free = 0) (hp : p = b.addr + HDR) (hn : n ≠ 0)
    (hfit : (n + 7) / 8 * 8 ≤ b.size ∨
      ∃ c ∈ blocks s, c.addr = b.next ∧ c.is_free ≠ 0 ∧
        (n + 7) / 8 * 8 ≤ b.size + HDR + c.size) :
    ∃ s2, realloc s p n = some (s2, p) ∧
      (∃ b2 ∈ blocks s2, b2.addr = b.addr ∧ b2.is_free = 0 ∧ (n + 7) / 8 * 8 ≤ b2.size) ∧
      ∀ x ∈ blocks s2, x.is_free = 0 → ∃ y ∈ blocks s, y.is_free = 0 ∧ y.addr = x.addr := by
  obtain ⟨l, hr⟩ := Rep_of_WF hwf
  have hb' := hb
  rw [Rep_blocks hr] at hb'
  obtain ⟨l1, bb, l2, hl, hbe⟩ := mem_layout.mp hb'
  have hba : b.addr = s.base + span l1 := by rw [hbe]
  have hbs : b.size = bb.size := by rw [hbe]
  have hbf : bb.is_free = 0 := by
    rw [hbe] at hfree
    exact hfree
  have hbn : b.next = nextPtr 0 (s.base + span l1 + 24 + bb.size) l2 := by rw [hbe]
  have hsp := Seg_span hr.2.2.2.2
  rw [hl, span_append] at hsp
  simp only [span] at hsp
  have hw := hr.2.1
  have hbase := hr.1
  subst hp
  rw [hba]
  simp only [HDR] at hfit ⊢
  by_cases hle : (n + 7) / 8 * 8 ≤ bb.size
  · have hal : align8 n = (n + 7) / 8 * 8 := align8_small n (by simp only [W]; omega)
    rw [hl] at hr
    obtain ⟨s2, hre, hrep, hb2, _⟩ := realloc_shrink_spec hr n hn (by rw [hal]; exact hle)
    rw [hal] at hrep
    refine ⟨s2, hre, ?_⟩
    rw [← hl] at hr
    have := inplace_result [bb] hr hl hrep hb2 hbf hle rfl b hb hba hfree
    exact this
  · have hfit2 : ∃ c ∈ blocks s, c.addr = b.next ∧ c.is_free ≠ 0 ∧
        (n + 7) / 8 * 8 ≤ b.size + 24 + c.size := by
      rcases hfit with h | h
      · rw [hbs] at h
        exact absurd h hle
      · exact h
    obtain ⟨c, hc, hca, hcf, hcs⟩ := hfit2
    have hcl : (c.addr, (⟨c.size, c.is_free⟩ : Blk)) ∈ addrs s.base l :=
      (mem_addrs_iff_blocks hr _ _ _).mpr ⟨c, hc, rfl, rfl, rfl⟩
    have hcr := mem_addrs_range hcl
    simp only at hcr
    cases l2 with
    | nil =>
      simp only [nextPtr] at hbn
      omega
    | cons cc l2 =>
      simp only [nextPtr] at hbn
      have hl' : l = (l1 ++ [bb]) ++ cc :: l2 := by
        rw [hl]
        simp
      have hcc : (⟨c.size, c.is_free⟩ : Blk) = cc := by
        rw [hl'] at hcl
        refine addrs_single_at hcl ?_
        rw [span_append]
        simp only [span]
        omega
      have hccs : cc.size = c.size := by rw [← hcc]
      have hccf : cc.is_free = c.is_free := by rw [← hcc]
      simp only [span] at hsp
      have hal : align8 n = (n + 7) / 8 * 8 := align8_small n (by simp only [W]; omega)
      have hg : canGrow (align8 n) bb (cc :: l2) := by
        refine ⟨by rw [hccf]; exact hcf, ?_⟩
        rw [hal, hccs, ← hbs]
        exact hcs
      rw [hl] at hr
      obtain ⟨s2, hre, hrep, hb2, _⟩ := realloc_grow_spec hr n hn (by rw [hal]; omega) hg
      rw [hal] at hrep
      refine ⟨s2, hre, ?_⟩
      rw [← hl] at hr
      have hl2 : l = l1 ++ ([bb, cc] ++ l2) := by
        rw [hl]
        rfl
      have := inplace_result [bb, cc] hr hl2 hrep hb2 hbf
        (by simp only; rw [hccs, ← hbs]; exact hcs)
        (by simp only [span]; omega) b hb hba hfree
      exact this

set_option maxRecDepth 100000 in
/-- Witness for C12: in the state after `malloc(100)` the block of size `104`
is followed by a free block of `3944` bytes, and `realloc(p, 300)` grows it
in place. -/
theorem C12_realloc_in_place_witness :
    WF sampleState ∧ (⟨65536, 104, 0, 65664⟩ : Block) ∈ blocks sampleState ∧
      ∃ s2, realloc sampleState (65536 + HDR) 300 = some (s2, 65536 + HDR) := by
  obtain ⟨s2, h, _⟩ := C12_realloc_in_place sampleState (65536 + HDR) 300
    ⟨65536, 104, 0, 65664⟩ (by decide!) (by decide!) rfl rfl (by decide)
    (Or.inr ⟨⟨65664, 3944, 1, 0⟩, by decide!, rfl, by decide, by decide⟩)
  exact ⟨by decide!, by decide!, s2, h⟩

set_option maxRecDepth 100000 in
/-- C13: in a well-formed state with a live allocation `p`, `free(p)` returns,
and if no block of the resulting chain is allocated then that chain is exactly
one block, at the arena base, free, with `next = NULL` and size
`MEMORY_SIZE - HDR`.  The scenario of the specification evaluates as stated:
`a = malloc(101)`, `b = malloc(200)`, `free(a)`, `c = malloc(104)` gives
`c = a`, and `free(b)`, `free(c)` leave one free block of size
`MEMORY_SIZE - HDR`. -/
theorem C13_full_release (s : State) (p : Nat) (hwf : WF s) (hp : Live s p) :
    (∃ s2, free s p = some s2 ∧
      ((∀ b ∈ blocks s2, b.is_free ≠ 0) →
        ∃ f, f ≠ 0 ∧ blocks s2 = [⟨s.base, MEMORY_SIZE - HDR, f, 0⟩])) ∧
    releaseScenario = some (65560, 65688, 65560, [⟨65536, MEMORY_SIZE - HDR, 1, 0⟩]) := by
  refine ⟨?_, by decide!⟩
  obtain ⟨l, hr⟩ := Rep_of_WF hwf
  obtain ⟨l1, b, l2, rfl, _, rfl⟩ := (Live_iff hr p).mp hp
  obtain ⟨s2, hf, hrep, hb, _⟩ := free_spec hr
  refine ⟨s2, hf, fun hall => ?_⟩
  have hch : List.Chain' (fun x y : Blk => ¬ (x.is_free ≠ 0 ∧ y.is_free ≠ 0))
      (coalesceAll (l1 ++ ⟨b.size, 1⟩ :: l2)) := by
    cases hcs : l1 ++ ⟨b.size, 1⟩ :: l2 with
    | nil => exact List.chain'_nil
    | cons c rest => exact coalesce_chain rest c
  have hall2 : ∀ c ∈ coalesceAll (l1 ++ ⟨b.size, 1⟩ :: l2), c.is_free ≠ 0 := by
    intro c hc
    rw [← layout_map 0 (coalesceAll (l1 ++ ⟨b.size, 1⟩ :: l2)) s2.base, List.mem_map] at hc
    obtain ⟨x, hx, rfl⟩ := hc
    rw [← Rep_blocks hrep] at hx
    exact hall x hx
  obtain ⟨c, hc⟩ := chain_all_free hch hall2 hrep.2.2.2.1
  rw [hc] at hrep hall2
  have hsp := Seg_span hrep.2.2.2.2
  simp only [span] at hsp
  refine ⟨c.is_free, hall2 c (by simp), ?_⟩
  rw [Rep_blocks hrep, hb]
  simp only [layout, nextPtr, MEMORY_SIZE, HDR]
  have : c.size = 4072 := by omega
  rw [this]

set_option maxRecDepth 100000 in
/-- Witness for C13: releasing the only allocation of the state after
`malloc(100)` leaves one free block of `4072` bytes. -/
theorem C13_full_release_witness :
    WF sampleState ∧ Live sampleState 65560 ∧
      (free sampleState 65560).map blocks = some [⟨65536, 4072, 1, 0⟩] ∧
      ∃ s2, free sampleState 65560 = some s2 ∧
        ((∀ b ∈ blocks s2, b.is_free ≠ 0) →
          ∃ f, f ≠ 0 ∧ blocks s2 = [⟨sampleState.base, MEMORY_SIZE - HDR, f, 0⟩]) :=
  ⟨by decide!, by decide!, by decide!,
    (C13_full_release sampleState 65560 (by decide!) (by decide!)).1⟩

/-- C14: from the uninitialised allocator (`head = NULL`), `init_allocator`
creates a chain of exactly one free block of size `MEMORY_SIZE - HDR` at the
arena base, the first `malloc(n)` with `n ≠ 0` runs on that chain, and for
every non-zero `n ≤ MEMORY_SIZE - HDR` it succeeds with the address
`base + HDR`. -/
theorem C14_first_allocation (s : State) (n : Nat) (hh : s.head = 0) (hb : 0 < s.base)
    (hw : s.base + MEMORY_SIZE < W) (hn : n ≠ 0) (hle : n ≤ MEMORY_SIZE - HDR) :
    init_allocator s = some (initState s) ∧
      blocks (initState s) = [⟨s.base, MEMORY_SIZE - HDR, 1, 0⟩] ∧
      malloc s n = malloc (initState s) n ∧
      ∃ s2, malloc s n = some (s2, s.base + HDR) := by
  have hrep := Rep_initState s hb (by simp only [MEMORY_SIZE, W] at hw ⊢; omega)
  refine ⟨init_allocator_eq s hh, ?_, malloc_uninit hh hb hn, ?_⟩
  · rw [Rep_blocks hrep]
    rfl
  · rw [malloc_uninit hh hb hn]
    have hal : align8 n ≤ 4072 := by
      rw [align8_small n (by simp only [MEMORY_SIZE, HDR, W] at hle ⊢; omega)]
      simp only [MEMORY_SIZE, HDR] at hle
      omega
    rcases malloc_spec hrep n hn with ⟨_, hall⟩ | ⟨l1, b, l2, s2, hl, _, _, hm, _⟩
    · exact absurd ⟨by decide, hal⟩ (hall ⟨4072, 1⟩ (by simp))
    · cases l1 with
      | nil =>
        refine ⟨s2, ?_⟩
        rw [hm]
        simp [span, initState, HDR]
      | cons c l1 =>
        have := congrArg List.length hl
        simp at this

set_option maxRecDepth 100000 in
/-- Witness for C14: the first call `malloc(100)` with `memory` at address
`65536` returns `65560`. -/
theorem C14_first_allocation_witness :
    (initial 65536).head = 0 ∧ 100 ≤ MEMORY_SIZE - HDR ∧
      ∃ s2, malloc (initial 65536) 100 = some (s2, (initial 65536).base + HDR) :=
  ⟨rfl, by decide,
    (C14_first_allocation (initial 65536) 100 rfl (by decide) (by decide) (by decide)
      (by decide)).2.2.2⟩

/-- C15: for a buffer and offsets `dest`, `src` with `dest + n` and `src + n`
inside it (the two ranges may overlap either way or coincide),
`memmove(dest, src, n)` returns `dest`, the bytes `dest[0..n)` afterwards are
the bytes `src[0..n)` held before, and every byte outside `dest[0..n)` is
unchanged. -/
theorem C15_memmove (b : Buffer) (dest src n : Nat) (hd : dest + n ≤ b.size)
    (hs : src + n ≤ b.size) :
    ∃ b2, memmove b dest src n = some (b2, dest) ∧ b2.size = b.size ∧
      (∀ j, j < n → rd8 b2.bytes (dest + j) = rd8 b.bytes (src + j)) ∧
      ∀ x, (x < dest ∨ dest + n ≤ x) → b2.bytes x = b.bytes x := by
  obtain ⟨size, m⟩ := b
  simp only at hd hs
  by_cases h1 : src > dest
  · obtain ⟨m2, hrun, hfr, hcp⟩ := move_up_spec size dest src (by omega) n m 0 (by omega)
    refine ⟨⟨size, m2⟩, ?_, rfl, ?_, ?_⟩
    · simp only [memmove, h1, if_true, hrun, Option.bind_eq_bind, Option.some_bind, pure]
    · intro j hj
      exact hcp j hj
    · intro x hx
      exact hfr x (by omega)
  · by_cases h2 : src < dest
    · obtain ⟨m2, hrun, hfr, hcp⟩ := move_down_spec size dest src (by omega) n m hd
      refine ⟨⟨size, m2⟩, ?_, rfl, hcp, hfr⟩
      simp only [memmove, h1, if_false, h2, if_true, hrun, Option.bind_eq_bind,
        Option.some_bind, pure]
    · have he : src = dest := by omega
      subst he
      refine ⟨⟨size, m⟩, ?_, rfl, fun _ _ => rfl, fun _ _ => rfl⟩
      simp only [memmove, h1, if_false, h2]

/-- Witness for C15: an overlapping move by two bytes towards higher
addresses inside a buffer of 8 bytes. -/
theorem C15_memmove_witness :
    ∃ b2, memmove ⟨8, fun i => i + 1⟩ 2 0 5 = some (b2, 2) ∧
      ∀ j, j < 5 → rd8 b2.bytes (2 + j) = rd8 (fun i => i + 1) (0 + j) := by
  obtain ⟨b2, h1, _, h2, _⟩ := C15_memmove ⟨8, fun i => i + 1⟩ 2 0 5 (by decide) (by decide)
  exact ⟨b2, h1, h2⟩

/-- C16, evaluated at an input where it fails: for the one-byte sequences with
bytes `0` and `1` and `n = 1` the first bytes are unequal and `memcmp` returns
`-1`, not `1`. -/
theorem C16_memcmp_returns_minus_one :
    memcmp ⟨1, fun _ => 0⟩ ⟨1, fun _ => 1⟩ 1 = some (-1) := by
  decide

/-- C17: in a well-formed state a successful `malloc(n)` selects the first
free block `b` with `b.size ≥ r`, where `r = align8 n` is the aligned size,
and returns its data address.  If `b.size ≥ r + HDR + 8` the chain afterwards
has, in place of `b`, an allocated block of recorded size exactly `r` followed
at `b.addr + HDR + r` by a free block of size `b.size - r - HDR` whose `next`
is the former `next` of `b`; otherwise the chain has the same blocks as before
and `b` is allocated with its size unchanged.  In both cases the allocated
block has recorded size below `r + HDR + 8`.  When `n + 7` does not wrap, `r`
is `n` rounded up to a multiple of `8`. -/
theorem C17_split_policy (s s2 : State) (n p : Nat) (hwf : WF s)
    (hm : malloc s n = some (s2, p)) (hp : p ≠ 0) :
    ∃ pre b post, blocks s = pre ++ b :: post ∧
      (∀ c ∈ pre, ¬ (c.is_free ≠ 0 ∧ align8 n ≤ c.size)) ∧
      b.is_free ≠ 0 ∧ align8 n ≤ b.size ∧ p = b.addr + HDR ∧
      (align8 n + HDR + 8 ≤ b.size →
        blocks s2 = pre ++ ⟨b.addr, align8 n, 0, b.addr + HDR + align8 n⟩ ::
          ⟨b.addr + HDR + align8 n, b.size - align8 n - HDR, 1, b.next⟩ :: post) ∧
      (b.size < align8 n + HDR + 8 → blocks s2 = pre ++ ⟨b.addr, b.size, 0, b.next⟩ :: post) ∧
      (∃ b2 ∈ blocks s2, b2.addr = b.addr ∧ b2.is_free = 0 ∧ b2.size < align8 n + HDR + 8) ∧
      (n + 7 < W → align8 n = (n + 7) / 8 * 8) := by
  obtain ⟨l, hr⟩ := Rep_of_WF hwf
  have hn : n ≠ 0 := by
    intro h0
    subst h0
    simp only [malloc, if_true] at hm
    exact hp (Prod.mk.inj (Option.some.inj hm)).2.symm
  rcases malloc_spec hr n hn with ⟨hm2, _⟩ | ⟨l1, b, l2, s3, hl, hall, hfit, hm2, hrep, hb, _⟩
  · rw [hm2] at hm
    exact absurd (Prod.mk.inj (Option.some.inj hm)).2.symm hp
  · rw [hm2] at hm
    obtain ⟨rfl, rfl⟩ := Prod.mk.inj (Option.some.inj hm)
    have hbl : blocks s = layout (s.base + span l1) s.base l1 ++
        ⟨s.base + span l1, b.size, b.is_free, nextPtr 0 (s.base + span l1 + 24 + b.size) l2⟩ ::
          layout 0 (s.base + span l1 + 24 + b.size) l2 := by
      rw [Rep_blocks hr, hl, layout_append]
      rfl
    have hbl2 : blocks s3 = layout (s.base + span l1) s.base l1 ++
        layout 0 (s.base + span l1) (allocBlk (align8 n) b ++ l2) := by
      rw [Rep_blocks hrep, hb, layout_append,
        nextPtr_of_ne _ _ (show allocBlk (align8 n) b ++ l2 ≠ [] by
          intro hnil
          exact markHead_ne 0 (splitBlk_ne _ b) (List.append_eq_nil.mp hnil).1)]
    have hcut : align8 n + HDR + 8 ≤ b.size →
        blocks s3 = layout (s.base + span l1) s.base l1 ++
          ⟨s.base + span l1, align8 n, 0, s.base + span l1 + HDR + align8 n⟩ ::
          ⟨s.base + span l1 + HDR + align8 n, b.size - align8 n - HDR, 1,
            nextPtr 0 (s.base + span l1 + 24 + b.size) l2⟩ ::
          layout 0 (s.base + span l1 + 24 + b.size) l2 := by
      intro hge
      simp only [HDR] at hge ⊢
      have hns : ¬ b.size < align8 n + 32 := by omega
      have e1 : s.base + span l1 + 24 + align8 n + 24 + (b.size - align8 n - 24) =
          s.base + span l1 + 24 + b.size := by omega
      rw [hbl2]
      simp only [allocBlk, splitBlk, hns, if_false, markHead, List.cons_append,
        List.nil_append, layout_cons_eq, nextPtr, e1]
    have hkeep : b.size < align8 n + HDR + 8 →
        blocks s3 = layout (s.base + span l1) s.base l1 ++
          ⟨s.base + span l1, b.size, 0, nextPtr 0 (s.base + span l1 + 24 + b.size) l2⟩ ::
          layout 0 (s.base + span l1 + 24 + b.size) l2 := by
      intro hlt
      simp only [HDR] at hlt
      have hns : b.size < align8 n + 32 := by omega
      rw [hbl2]
      simp only [allocBlk, splitBlk, hns, if_true, markHead, List.cons_append,
        List.nil_append, layout_cons_eq]
    refine ⟨_, _, _, hbl, ?_, hfit.1, hfit.2, rfl, hcut, hkeep, ?_, align8_small n⟩
    · intro c hc
      exact hall _ (toBlk_mem_of_layout hc)
    · by_cases hge : align8 n + HDR + 8 ≤ b.size
      · refine ⟨⟨s.base + span l1, align8 n, 0, s.base + span l1 + HDR + align8 n⟩, ?_, rfl,
          rfl, ?_⟩
        · rw [hcut hge]
          simp
        · simp only [HDR]
          omega
      · refine ⟨⟨s.base + span l1, b.size, 0,
          nextPtr 0 (s.base + span l1 + 24 + b.size) l2⟩, ?_, rfl, rfl, ?_⟩
        · rw [hkeep (by omega)]
          simp
        · simp only
          omega

set_option maxRecDepth 100000 in
/-- Witness for C17: `malloc(200)` in the state after `malloc(100)` splits
the free block of `3944` bytes. -/
theorem C17_split_policy_witness :
    WF sampleState ∧ (∃ s2, malloc sampleState 200 = some (s2, 65688)) ∧
      ∃ b2 ∈ blocks sampleState2, b2.is_free = 0 ∧ b2.size < align8 200 + HDR + 8 := by
  obtain ⟨pre, b, post, _, _, _, _, _, _, _, ⟨b2, h1, _, h2, h3⟩, _⟩ :=
    C17_split_policy sampleState sampleState2 200 65688 (by decide!) sample_malloc2 (by decide)
  exact ⟨by decide!, ⟨_, sample_malloc2⟩, b2, h1, h2, h3⟩

set_option maxRecDepth 100000 in
/-- Counterexample to C18: the state after `malloc(100)` is well formed and
has a free block, and `calloc(5, 0)` does not return a non-NULL address. -/
theorem C18_zero_size_fails :
    WF sampleState ∧ (∃ b ∈ blocks sampleState, b.is_free ≠ 0) ∧
      ¬ ∃ s2 p, calloc sampleState 5 0 = some (s2, p) ∧ p ≠ 0 := by
  refine ⟨by decide!, by decide!, ?_⟩
  rintro ⟨s2, p, hc, hp⟩
  have h1 : (calloc sampleState 5 0).map Prod.snd = some 0 := by decide!
  rw [hc] at h1
  exact hp (Option.some.inj h1)

/-- C18 as amended: `calloc(count, 0)` returns NULL for every `count` in
every state and leaves the state unchanged, since the total size is `0` and
`malloc` rejects a request of size zero. -/
theorem C18_calloc_zero_size (s : State) (count : Nat) : calloc s count 0 = some (s, 0) := by
  simp [calloc, mul64, malloc]

/-- C19: in a well-formed state let `x` be an allocated block of the chain
and `p` NULL or a live allocation.  `malloc(n)` returns and the new chain still
has an allocated block at the address of `x` with the size of `x`; if `x` is
not the block of `p`, the same holds after `free(p)` and after
`realloc(p, n)`. -/
theorem C19_others_untouched (s : State) (n p : Nat) (x : Block) (hwf : WF s)
    (hp : ValidPtr s p) (hx : x ∈ blocks s) (hxa : x.is_free = 0) :
    (∃ s2 q, malloc s n = some (s2, q) ∧
      ∃ y ∈ blocks s2, y.addr = x.addr ∧ y.size = x.size ∧ y.is_free = 0) ∧
    (x.addr + HDR ≠ p →
      (∃ s2, free s p = some s2 ∧
        ∃ y ∈ blocks s2, y.addr = x.addr ∧ y.size = x.size ∧ y.is_free = 0) ∧
      (∃ s2 q, realloc s p n = some (s2, q) ∧
        ∃ y ∈ blocks s2, y.addr = x.addr ∧ y.size = x.size ∧ y.is_free = 0)) := by
  obtain ⟨l, hr⟩ := Rep_of_WF hwf
  have hxl : (x.addr, (⟨x.size, 0⟩ : Blk)) ∈ addrs s.base l :=
    (mem_addrs_iff_blocks hr _ _ _).mpr ⟨x, hx, rfl, rfl, hxa⟩
  refine ⟨?_, fun hne => ⟨?_, ?_⟩⟩
  · obtain ⟨s2, q, l2, hm, hrep, hb, hx2⟩ := malloc_keeps hr n hxl rfl
    rw [← hb] at hx2
    exact ⟨s2, q, hm, (mem_addrs_iff_blocks hrep _ _ _).mp hx2⟩
  · obtain ⟨s2, l2, hf, hrep, hb, hx2⟩ := free_keeps hr p hp hxl rfl hne
    rw [← hb] at hx2
    exact ⟨s2, hf, (mem_addrs_iff_blocks hrep _ _ _).mp hx2⟩
  · obtain ⟨s2, q, l2, hre, hrep, hb, hx2⟩ := realloc_keeps hr p n hp hxl rfl hne
    rw [← hb] at hx2
    exact ⟨s2, q, hre, (mem_addrs_iff_blocks hrep _ _ _).mp hx2⟩

set_option maxRecDepth 100000 in
/-- Witness for C19: releasing the second allocation of the state after
`malloc(100)`, `malloc(200)` keeps the first block. -/
theorem C19_others_untouched_witness :
    WF sampleState2 ∧ ValidPtr sampleState2 65688 ∧
      (⟨65536, 104, 0, 65664⟩ : Block) ∈ blocks sampleState2 ∧
      ∃ s2, free sampleState2 65688 = some s2 ∧
        ∃ y ∈ blocks s2, y.addr = 65536 ∧ y.size = 104 ∧ y.is_free = 0 :=
  ⟨by decide!, Or.inr (by decide!), by decide!,
    ((C19_others_untouched sampleState2 50 65688 ⟨65536, 104, 0, 65664⟩ (by decide!)
      (Or.inr (by decide!)) (by decide!) rfl).2 (by decide)).1⟩

set_option maxRecDepth 100000 in
/-- C20, evaluated at an input where it fails: on the freshly initialised
arena `malloc(18446744073709551615)` returns the non-NULL address `65560` of a
block whose recorded size is `0`, and `calloc(1, 18446744073709551615)` has no
result: its zeroing loop leaves the block and then the arena. -/
theorem C20_wrap_block_too_small :
    (malloc (initState (initial 65536)) 18446744073709551615).map
        (fun r => (r.2, blocks r.1)) =
      some (65560, [⟨65536, 0, 0, 65560⟩, ⟨65560, 4048, 1, 0⟩]) ∧
    calloc (initState (initial 65536)) 1 18446744073709551615 = none := by
  constructor
  · decide!
  · have hrep := Rep_initState (initial 65536) (by decide) (by decide)
    cases hc : calloc (initState (initial 65536)) 1 18446744073709551615 with
    | none => rfl
    | some r =>
      exfalso
      obtain ⟨s2, p⟩ := r
      rcases calloc_spec hrep hc with ⟨hp0, _⟩ | ⟨_, _, _, _, _, _, _, _, _, hge, _⟩
      · have h1 : (malloc (initState (initial 65536)) 18446744073709551615).map Prod.snd =
            some 65560 := by decide!
        rcases calloc_cases hc with ⟨⟨_, hne⟩, _, _⟩ | ⟨_, ⟨hm, _⟩ | ⟨hp, _⟩⟩
        · exact hne (by decide)
        · have e : mul64 1 18446744073709551615 = 18446744073709551615 := by decide
          rw [e] at hm
          rw [hm] at h1
          have h2 : (0 : Nat) = 65560 := Option.some.inj h1
          exact absurd h2 (by decide)
        · exact hp hp0
      · have e : mul64 1 18446744073709551615 = 18446744073709551615 := by decide
        have e2 : align8 18446744073709551615 = 0 := by decide
        rw [e, e2] at hge
        exact absurd hge (by decide)

end Kutils
